import Mathlib

/-!
# I2C_eeprom_wIDPage: a shallow embedding of the EEPROM driver

The driver class `I2C_eeprom` of `I2C_eeprom_wIDPage.cpp` is embedded as a
record of its member variables together with functions that take the record
and the state of the outside world (two-wire bus, attached memory device,
microsecond clock) and return the results and the new state.

Machine integers are natural numbers, reduced modulo `2 ^ w` wherever the C++
code stores into a `w`-bit variable and the value could exceed it.
-/

set_option autoImplicit false

/-! ## Build targets -/

/-- The build targets the source distinguishes. `I2C_BUFFERSIZE` is 128 on
ESP32 / ESP8266 / RP2040 and 30 otherwise (the source names AVR and STM);
`int` has 16 bits on AVR and 32 bits on the others. -/
inductive Platform where
  | esp32
  | avr
  | stm32
  deriving DecidableEq, Repr

/-- The constant `I2C_BUFFERSIZE` of the source, lines 30-34. -/
def I2C_BUFFERSIZE : Platform → Nat
  | .esp32 => 128
  | .avr => 30
  | .stm32 => 30

/-- Width in bits of the type in which `uint16_t + uint16_t` is evaluated:
`unsigned int` on AVR, `int` after promotion on 32-bit targets. -/
def intBits : Platform → Nat
  | .esp32 => 32
  | .avr => 16
  | .stm32 => 32

def I2C_DEVICESIZE_M24512 : Nat := 65536
def I2C_DEVICESIZE_M24256 : Nat := 32768
def I2C_DEVICESIZE_M24C64 : Nat := 8192
def I2C_DEVICESIZE_M24C16 : Nat := 2048
def I2C_WRITEDELAY : Nat := 5000
def I2C_PAGESIZE_M24256 : Nat := 64

/-! ## The driver object -/

/-- The member variables of class `I2C_eeprom` (header, lines 157-191), with
the default member initialisers of the header. `_isAddressSizeTwoWords` has
no initialiser in the source; every constructor assigns it. -/
structure I2C_eeprom where
  _deviceAddress : Nat := 0
  _idPageDeviceAddress : Nat := 0
  _lastWrite : Nat := 0
  _deviceSize : Nat := 0
  _pageSize : Nat := 0
  _extraTWR : Nat := 0
  _isAddressSizeTwoWords : Bool := false
  _debug : Bool := false
  _writeProtectPin : Int := -1
  _autoWriteProtect : Bool := false
  _perByteCompare : Bool := true
  _hasIDPage : Bool := false
  deriving DecidableEq, Repr

namespace I2C_eeprom

/-- The `while` loop of `setDeviceSize` (lines 546-552): `size` doubles from
128 while `size <= 65536 && size <= deviceSize`, and each pass stores `size`
in `_deviceSize`. `cur` is the value of `_deviceSize`. The first argument
bounds the number of passes; `size` exceeds 65536 after ten doublings, so the
bound 32 used by `setDeviceSize` is never reached. -/
def setDeviceSizeLoop : Nat → Nat → Nat → Nat → Nat
  | 0, _, cur, _ => cur
  | n + 1, size, cur, deviceSize =>
    if size ≤ 65536 ∧ size ≤ deviceSize then
      setDeviceSizeLoop n (size * 2 % 2 ^ 32) size deviceSize
    else cur

/-- `I2C_eeprom::setDeviceSize` (lines 544-556): returns the stored size and
the updated object. -/
def setDeviceSize (d : I2C_eeprom) (deviceSize : Nat) : Nat × I2C_eeprom :=
  let stored := setDeviceSizeLoop 32 128 d._deviceSize deviceSize
  (stored, { d with _deviceSize := stored,
                    _isAddressSizeTwoWords := decide (stored > I2C_DEVICESIZE_M24C16) })

/-- `I2C_eeprom::getPageSize(uint32_t)` (lines 525-535). -/
def getPageSize (deviceSize : Nat) : Nat :=
  if deviceSize ≤ I2C_DEVICESIZE_M24C16 then 16
  else if deviceSize ≤ I2C_DEVICESIZE_M24C64 then 32
  else if deviceSize ≤ I2C_DEVICESIZE_M24256 then 64
  else 128

/-- `I2C_eeprom::setPageSize` (lines 559-575). -/
def setPageSize (d : I2C_eeprom) (pageSize : Nat) : Nat × I2C_eeprom :=
  let p := if pageSize ≥ 128 then 128 else if pageSize ≥ 64 then 64
           else if pageSize ≥ 32 then 32 else 16
  (p, { d with _pageSize := p })

/-- The four-argument constructor (lines 47-58), applied to a freshly
initialised object. `_deviceAddress + 8` is stored in a `uint8_t`. The last
assignment compares the requested `deviceSize`, not the stored one. -/
def new (deviceAddress : Nat) (deviceSize : Nat) (hasIDPage : Bool) : I2C_eeprom :=
  let d0 : I2C_eeprom := { _deviceAddress := deviceAddress, _hasIDPage := hasIDPage }
  let d1 := if hasIDPage then
      { d0 with _idPageDeviceAddress := (d0._deviceAddress + 8) % 256 } else d0
  let r := d1.setDeviceSize deviceSize
  let d2 := { r.2 with _deviceSize := r.1 }
  let d3 := { d2 with _pageSize := getPageSize d2._deviceSize }
  { d3 with _isAddressSizeTwoWords := decide (deviceSize > I2C_DEVICESIZE_M24C16) }

/-- `I2C_eeprom::getDeviceSize` (lines 513-516). -/
def getDeviceSize (d : I2C_eeprom) : Nat := d._deviceSize

/-- `I2C_eeprom::setPerByteCompare` (lines 632-635). -/
def setPerByteCompare (d : I2C_eeprom) (b : Bool) : I2C_eeprom :=
  { d with _perByteCompare := b }

end I2C_eeprom

/-! ## The outside world: two-wire bus, memory device, clock -/

/-- The fixed properties of a simulated memory device: the bus address of the
main array (`base`) and of the identification page (`idBase`), whether it
expects two address bytes (`twoWord`) or one address byte plus three address
bits in the bus address, the number of cells of the main array (`size`) and
of a page (`page`). -/
structure Chip where
  base : Nat
  idBase : Nat
  twoWord : Bool
  size : Nat
  page : Nat
  deriving DecidableEq, Repr

/-- A simulated memory device on the bus. `mem` is the main array and `idmem`
the identification page, both as maps from cell index to byte. The device
decodes only as many address bits as it has cells: a main-array address is
taken modulo `size`, an identification-page address modulo `page`. `ptr` is
the internal address counter that a read continues from. -/
structure Device where
  chip : Chip
  mem : Nat → Nat
  idmem : Nat → Nat
  ptr : Nat := 0

namespace Device

/-- Which region a bus address selects on this device: `some false` the main
array, `some true` the identification page, `none` if the device does not
answer to the address. -/
def select (dv : Device) (busAddr : Nat) : Option Bool :=
  if dv.chip.twoWord then
    if busAddr = dv.chip.base then some false
    else if busAddr = dv.chip.idBase then some true
    else none
  else
    if busAddr / 8 = dv.chip.base / 8 then some false
    else if busAddr / 8 = dv.chip.idBase / 8 then some true
    else none

/-- Splits the bytes of a write transaction into memory address and data. -/
def decode (dv : Device) (busAddr : Nat) (bytes : List Nat) : Option (Nat × List Nat) :=
  if dv.chip.twoWord then
    match bytes with
    | hi :: lo :: data => some (hi * 256 + lo, data)
    | _ => none
  else
    match bytes with
    | lo :: data => some (busAddr % 8 * 256 + lo, data)
    | [] => none

/-- The byte stored in cell `a` of region `r`. -/
def cell (dv : Device) (r : Bool) (a : Nat) : Nat :=
  if r then dv.idmem (a % dv.chip.page) else dv.mem (a % dv.chip.size)

/-- Stores byte `b` in cell `a` of region `r`. -/
def store (dv : Device) (r : Bool) (a : Nat) (b : Nat) : Device :=
  if r then { dv with idmem := Function.update dv.idmem (a % dv.chip.page) b }
  else { dv with mem := Function.update dv.mem (a % dv.chip.size) b }

/-- The address after `a` inside a page write: the offset in the page wraps
to the start of the same page. -/
def next (dv : Device) (a : Nat) : Nat :=
  a / dv.chip.page * dv.chip.page + (a + 1) % dv.chip.page

/-- A page write of `data` starting at address `a` of region `r`. -/
def program (r : Bool) : List Nat → Device → Nat → Device
  | [], dv, a => { dv with ptr := a }
  | b :: rest, dv, a => program r rest (dv.store r a b) (dv.next a)

/-- What the device does with an acknowledged write transaction. Fewer bytes
than a full memory address leave the device as it is. -/
def receive (dv : Device) (busAddr : Nat) (bytes : List Nat) : Device :=
  match dv.select busAddr, dv.decode busAddr bytes with
  | some r, some (a, data) => program r data dv a
  | _, _ => dv

/-- The `n` bytes a sequential read of region `r` delivers. -/
def fetch (dv : Device) (r : Bool) (n : Nat) : List Nat :=
  (List.range n).map (fun i => dv.cell r (dv.ptr + i))

end Device

/-- One transaction on the bus, as the transport saw it. -/
inductive Event where
  | tx (address : Nat) (bytes : List Nat) (stop : Bool) (status : Nat)
  | rx (address : Nat) (quantity : Nat) (count : Nat)
  deriving DecidableEq, Repr

/-- One call of `_WriteBlock`: the memory address, the requested length, the
payload, the region and the status the transport returned. -/
structure WriteRec where
  memoryAddress : Nat
  length : Nat
  data : List Nat
  IDPage : Bool
  status : Nat
  deriving DecidableEq, Repr

/-- What the environment will do, fixed in advance: `status k` is a
transport fault injected into the `k`-th bus transaction (0 = none),
`rxLimit k` the most bytes the transport can deliver in it, `clock k` what
the `k`-th call of `micros()` returns. -/
structure Env where
  status : Nat → Nat
  rxLimit : Nat → Nat
  clock : Nat → Nat

/-- The state outside the driver object.
* `txAddress`, `txBuf`, `rxBuf`: the buffers of the `TwoWire` object;
* `txn`: the number of bus transactions so far, `tick`: the number of calls
  of `micros()` so far;
* `bus`: the transactions so far, `writes`: the `_WriteBlock` calls so far,
  `gpio`: the `digitalWrite` calls so far. -/
structure World where
  dev : Device
  env : Env
  txAddress : Nat := 0
  txBuf : List Nat := []
  rxBuf : List Nat := []
  txn : Nat := 0
  tick : Nat := 0
  bus : List Event := []
  writes : List WriteRec := []
  gpio : List (Int × Bool) := []

/-- `micros()`: a 32-bit reading of the clock. -/
def micros (w : World) : Nat × World :=
  (w.env.clock w.tick % 2 ^ 32, { w with tick := w.tick + 1 })

/-- `digitalWrite(pin, level)`. -/
def digitalWrite (w : World) (pin : Int) (level : Bool) : World :=
  { w with gpio := w.gpio ++ [(pin, level)] }

namespace Wire

/-- `TwoWire::beginTransmission(address)`. -/
def beginTransmission (w : World) (address : Nat) : World :=
  { w with txAddress := address, txBuf := [] }

/-- `TwoWire::write(uint8_t)`. -/
def write (w : World) (b : Nat) : World :=
  { w with txBuf := w.txBuf ++ [b % 256] }

/-- `TwoWire::write(const uint8_t *, size_t)`. -/
def writeBytes (w : World) (data : List Nat) : World :=
  { w with txBuf := w.txBuf ++ data }

/-- `TwoWire::endTransmission(stop)`: sends the queued bytes to `txAddress`.
Returns the injected fault if there is one, 2 (address not acknowledged) if
no device answers, else 0, in which case the device receives the bytes. -/
def endTransmission (w : World) (stop : Bool) : Nat × World :=
  let fault := w.env.status w.txn
  let rv := if fault ≠ 0 then fault
            else if (w.dev.select w.txAddress).isSome then 0 else 2
  let dev1 := if rv = 0 then w.dev.receive w.txAddress w.txBuf else w.dev
  (rv, { w with dev := dev1, txBuf := [], txn := w.txn + 1,
                bus := w.bus ++ [Event.tx w.txAddress w.txBuf stop rv] })

/-- `TwoWire::requestFrom(address, quantity)`: reads up to `quantity` bytes
from the device, starting at its address counter, into the receive buffer
and returns how many arrived. -/
def requestFrom (w : World) (address : Nat) (quantity : Nat) : Nat × World :=
  let count := if w.env.status w.txn ≠ 0 then 0
               else match w.dev.select address with
                    | none => 0
                    | some _ => min quantity (w.env.rxLimit w.txn)
  let data := match w.dev.select address with
              | none => []
              | some r => w.dev.fetch r count
  (count, { w with rxBuf := data,
                   dev := { w.dev with ptr := w.dev.ptr + count },
                   txn := w.txn + 1,
                   bus := w.bus ++ [Event.rx address quantity count] })

/-- `TwoWire::read()`: the next received byte, or -1 if there is none. -/
def read (w : World) : Int × World :=
  match w.rxBuf with
  | [] => (-1, w)
  | b :: rest => ((b : Int), { w with rxBuf := rest })

end Wire

/-- The driver object together with the world it acts on. -/
structure Sys where
  drv : I2C_eeprom
  world : World

namespace I2C_eeprom

/-- `I2C_eeprom::isConnected` (lines 76-80). -/
def isConnected (d : I2C_eeprom) (w : World) (testIDPage : Bool) : Bool × World :=
  let w1 := Wire.beginTransmission w
    (if testIDPage then d._idPageDeviceAddress else d._deviceAddress)
  let r := Wire.endTransmission w1 true
  (decide (r.1 = 0), r.2)

/-- `I2C_eeprom::_waitEEReady` (lines 823-839). The first argument bounds the
number of passes of the loop; `none` means the loop was still running when
the bound was reached. -/
def _waitEEReady : Nat → Sys → Option Sys
  | 0, _ => none
  | fuel + 1, s =>
    let waitTime := (I2C_WRITEDELAY + s.drv._extraTWR * 1000) % 2 ^ 32
    let t := micros s.world
    if (t.1 + 2 ^ 32 - s.drv._lastWrite % 2 ^ 32) % 2 ^ 32 ≤ waitTime then
      let c := isConnected s.drv t.2 false
      if c.1 then some { s with world := c.2 }
      else _waitEEReady fuel { s with world := c.2 }
    else some { s with world := t.2 }

/-- `I2C_eeprom::_beginTransmission` (lines 680-697). -/
def _beginTransmission (d : I2C_eeprom) (w : World) (memoryAddress : Nat) (IDPage : Bool) :
    World :=
  if d._isAddressSizeTwoWords then
    let w1 := Wire.beginTransmission w
      (if IDPage then d._idPageDeviceAddress else d._deviceAddress)
    let w2 := Wire.write w1 (memoryAddress >>> 8)
    Wire.write w2 (memoryAddress &&& 0xFF)
  else
    let addr := (if IDPage then d._idPageDeviceAddress else d._deviceAddress) |||
      ((memoryAddress >>> 8) &&& 0x07)
    let w1 := Wire.beginTransmission w addr
    Wire.write w1 (memoryAddress &&& 0xFF)

/-- `I2C_eeprom::_WriteBlock` (lines 702-735). `buffer` holds the `length`
bytes to send. -/
def _WriteBlock (fuel : Nat) (s : Sys) (memoryAddress : Nat) (buffer : List Nat)
    (length : Nat) (IDPage : Bool) : Option (Nat × Sys) :=
  match _waitEEReady fuel s with
  | none => none
  | some s1 =>
    let d := s1.drv
    let w1 := if d._autoWriteProtect then digitalWrite s1.world d._writeProtectPin false
              else s1.world
    let w2 := _beginTransmission d w1 memoryAddress IDPage
    let w3 := Wire.writeBytes w2 (buffer.take length)
    let r := Wire.endTransmission w3 true
    let w4 := if d._autoWriteProtect then digitalWrite r.2 d._writeProtectPin true
              else r.2
    let t := micros w4
    let w5 := { t.2 with writes := t.2.writes ++
      [{ memoryAddress := memoryAddress, length := length, data := buffer.take length,
         IDPage := IDPage, status := r.1 }] }
    some (r.1, { drv := { d with _lastWrite := t.1 }, world := w5 })

/-- The copy loop of `_ReadBlock` (lines 770-774): `n` bytes are still to be
taken from the receive buffer and stored from index `cnt` on. -/
def readCopy : Nat → World → List Nat → Nat → List Nat × World
  | 0, w, buffer, _ => (buffer, w)
  | n + 1, w, buffer, cnt =>
    let r := Wire.read w
    readCopy n r.2 (buffer.set cnt (r.1 % 256).toNat) (cnt + 1)

/-- `I2C_eeprom::_ReadBlock` (lines 740-776). `buffer` is the content of the
caller's buffer before the call; the result carries its content after the
call. `length` is a `uint8_t` parameter. -/
def _ReadBlock (fuel : Nat) (s : Sys) (memoryAddress : Nat) (buffer : List Nat)
    (length : Nat) (IDPage : Bool) : Option (Nat × List Nat × Sys) :=
  match _waitEEReady fuel s with
  | none => none
  | some s1 =>
    let d := s1.drv
    let w1 := _beginTransmission d s1.world memoryAddress IDPage
    let r := Wire.endTransmission w1 false
    if r.1 ≠ 0 then some (0, buffer, { s1 with world := r.2 })
    else
      let q := if d._isAddressSizeTwoWords then
          Wire.requestFrom r.2
            (if IDPage then d._idPageDeviceAddress else d._deviceAddress) (length % 256)
        else
          Wire.requestFrom r.2
            ((if IDPage then d._idPageDeviceAddress else d._deviceAddress) |||
              ((memoryAddress >>> 8) &&& 0x07)) (length % 256)
      let readBytes := q.1 % 256
      let c := readCopy readBytes q.2 buffer 0
      some (readBytes, c.1, { s1 with world := c.2 })

/-- The compare loop of `_verifyBlock` (lines 811-819). -/
def verifyCompare : Nat → World → List Nat → Nat → Bool × World
  | 0, w, _, _ => (true, w)
  | n + 1, w, buffer, cnt =>
    let r := Wire.read w
    if ((buffer.getD cnt 0 : Nat) : Int) ≠ r.1 then (false, r.2)
    else verifyCompare n r.2 buffer (cnt + 1)

/-- `I2C_eeprom::_verifyBlock` (lines 781-820). -/
def _verifyBlock (fuel : Nat) (s : Sys) (memoryAddress : Nat) (buffer : List Nat)
    (length : Nat) (IDPage : Bool) : Option (Bool × Sys) :=
  match _waitEEReady fuel s with
  | none => none
  | some s1 =>
    let d := s1.drv
    let w1 := _beginTransmission d s1.world memoryAddress IDPage
    let r := Wire.endTransmission w1 true
    if r.1 ≠ 0 then some (false, { s1 with world := r.2 })
    else
      let q := if d._isAddressSizeTwoWords then
          Wire.requestFrom r.2
            (if IDPage then d._idPageDeviceAddress else d._deviceAddress) (length % 256)
        else
          Wire.requestFrom r.2
            ((if IDPage then d._idPageDeviceAddress else d._deviceAddress) |||
              ((memoryAddress >>> 8) &&& 0x07)) (length % 256)
      let readBytes := q.1 % 256
      let c := verifyCompare readBytes q.2 buffer 0
      some (c.1, { s1 with world := c.2 })

/-- The length of the next chunk of `_pageBlock` (lines 662-666):
`I2C_BUFFERSIZE`, cut down to the remaining length and to the number of bytes
up to the next page boundary (a `uint8_t`). -/
def pageChunk (p : Platform) (pageSize addr len : Nat) : Nat :=
  let bytesUntilPageBoundary := (pageSize - addr % pageSize) % 256
  let cnt := I2C_BUFFERSIZE p
  let cnt := if cnt > len then len else cnt
  if cnt > bytesUntilPageBoundary then bytesUntilPageBoundary else cnt

/-- The length of the next chunk of `readBlock`, `verifyBlock` and the
chunk-wise `updateBlock` (lines 189-190, 207-208, 292-294): `I2C_BUFFERSIZE`,
cut down to the remaining length. -/
def busChunk (p : Platform) (len : Nat) : Nat :=
  let cnt := I2C_BUFFERSIZE p
  if cnt > len then len else cnt

/-- The `while (len > 0)` loop of `_pageBlock` (lines 660-675). Every pass
with `cnt > 0` shortens `len`, so `len` passes suffice; the first argument
counts the passes left and is set to `len` by `_pageBlock`. `none` means that
the loop does not come to an end (a wait does not return, or `cnt` is 0 and
the loop makes no progress). -/
def pageLoop (p : Platform) (fuel : Nat) (incrBuffer IDPage : Bool) :
    Nat → Sys → Nat → List Nat → Nat → Option (Nat × Sys)
  | 0, s, _, _, len => if len = 0 then some (0, s) else none
  | n + 1, s, addr, buffer, len =>
    if len = 0 then some (0, s)
    else
      let cnt := pageChunk p s.drv._pageSize addr len
      match _WriteBlock fuel s addr buffer cnt IDPage with
      | none => none
      | some (rv, s1) =>
        if rv ≠ 0 then some (rv, s1)
        else pageLoop p fuel incrBuffer IDPage n s1 ((addr + cnt) % 65536)
          (if incrBuffer then buffer.drop cnt else buffer) (len - cnt)

/-- `I2C_eeprom::_pageBlock` (lines 645-676). `memoryAddress` and `length`
are `uint16_t`; their sum is evaluated in `intBits p` bits. -/
def _pageBlock (p : Platform) (fuel : Nat) (s : Sys) (memoryAddress : Nat)
    (buffer : List Nat) (length : Nat) (incrBuffer IDPage : Bool) : Option (Nat × Sys) :=
  let addr := memoryAddress
  let len := length
  if IDPage = true ∧ (addr + len) % 2 ^ intBits p > s.drv._pageSize then some (11, s)
  else if (addr + len) % 2 ^ intBits p > s.drv._deviceSize then some (12, s)
  else pageLoop p fuel incrBuffer IDPage len s addr buffer len

/-- `I2C_eeprom::writeByte` (lines 127-131). -/
def writeByte (fuel : Nat) (s : Sys) (memoryAddress : Nat) (data : Nat) (IDPage : Bool) :
    Option (Nat × Sys) :=
  _WriteBlock fuel s memoryAddress [data] 1 IDPage

/-- `I2C_eeprom::setBlock` (lines 135-144). -/
def setBlock (p : Platform) (fuel : Nat) (s : Sys) (memoryAddress : Nat) (data : Nat)
    (length : Nat) (IDPage : Bool) : Option (Nat × Sys) :=
  let buffer := List.replicate (I2C_BUFFERSIZE p) data
  _pageBlock p fuel s memoryAddress buffer length false IDPage

/-- `I2C_eeprom::writeBlock` (lines 148-152). -/
def writeBlock (p : Platform) (fuel : Nat) (s : Sys) (memoryAddress : Nat)
    (buffer : List Nat) (length : Nat) (IDPage : Bool) : Option (Nat × Sys) :=
  _pageBlock p fuel s memoryAddress buffer length true IDPage

/-- `I2C_eeprom::readByte` (lines 161-178). `rdata` is the indeterminate
initial value of the local variable of that name. -/
def readByte (fuel : Nat) (s : Sys) (memoryAddress : Nat) (IDPage : Bool) (rdata : Nat) :
    Option (Nat × Sys) :=
  match _ReadBlock fuel s memoryAddress [rdata] 1 IDPage with
  | none => none
  | some (_, buf, s1) =>
    let r := Wire.endTransmission s1.world true
    if r.1 ≠ 0 then some (0, { s1 with world := r.2 })
    else some (buf.getD 0 0, { s1 with world := r.2 })

/-- The `while (len > 0)` loop of `readBlock` (lines 187-195); the first
argument counts the passes left. The result carries the content of the
caller's buffer from the current position on. -/
def readLoop (p : Platform) (fuel : Nat) (IDPage : Bool) :
    Nat → Sys → Nat → List Nat → Nat → Nat → Option (Nat × List Nat × Sys)
  | 0, s, _, buffer, len, rv => if len = 0 then some (rv, buffer, s) else none
  | n + 1, s, addr, buffer, len, rv =>
    if len = 0 then some (rv, buffer, s)
    else
      let cnt := busChunk p len
      match _ReadBlock fuel s addr buffer cnt IDPage with
      | none => none
      | some (got, buf1, s1) =>
        match readLoop p fuel IDPage n s1 ((addr + cnt) % 65536) (buf1.drop cnt)
            (len - cnt) ((rv + got) % 65536) with
        | none => none
        | some (rv1, rest, s2) => some (rv1, buf1.take cnt ++ rest, s2)

/-- `I2C_eeprom::readBlock` (lines 182-197). `buffer` is the content of the
caller's buffer before the call. -/
def readBlock (p : Platform) (fuel : Nat) (s : Sys) (memoryAddress : Nat)
    (buffer : List Nat) (length : Nat) (IDPage : Bool) : Option (Nat × List Nat × Sys) :=
  readLoop p fuel IDPage length s memoryAddress buffer length 0

/-- The `while (len > 0)` loop of `verifyBlock` (lines 205-216). -/
def verifyLoop (p : Platform) (fuel : Nat) (IDPage : Bool) :
    Nat → Sys → Nat → List Nat → Nat → Option (Bool × Sys)
  | 0, s, _, _, len => if len = 0 then some (true, s) else none
  | n + 1, s, addr, buffer, len =>
    if len = 0 then some (true, s)
    else
      let cnt := busChunk p len
      match _verifyBlock fuel s addr buffer cnt IDPage with
      | none => none
      | some (ok, s1) =>
        if ok = false then some (false, s1)
        else verifyLoop p fuel IDPage n s1 ((addr + cnt) % 65536) (buffer.drop cnt)
          (len - cnt)

/-- `I2C_eeprom::verifyBlock` (lines 201-218). -/
def verifyBlock (p : Platform) (fuel : Nat) (s : Sys) (memoryAddress : Nat)
    (buffer : List Nat) (length : Nat) (IDPage : Bool) : Option (Bool × Sys) :=
  verifyLoop p fuel IDPage length s memoryAddress buffer length

/-- The local variables of the per-byte branch of `updateBlock`. -/
structure Scan where
  sys : Sys
  writeBuf : List Nat
  diffCount : Nat
  startDiffAddr : Nat
  rv : Nat
  writeCnt : Nat

/-- The `for` loop of the per-byte branch of `updateBlock` (lines 257-273):
`k` indices are left, `i` is the current one. -/
def updateScan (p : Platform) (fuel : Nat) (addr : Nat) (buffer origBuf : List Nat)
    (IDPage : Bool) : Nat → Nat → Scan → Option Scan
  | 0, _, st => some st
  | k + 1, i, st =>
    if buffer.getD i 0 ≠ origBuf.getD i 0 then
      let start := if st.diffCount = 0 then (addr + i) % 65536 else st.startDiffAddr
      updateScan p fuel addr buffer origBuf IDPage k (i + 1)
        { st with startDiffAddr := start,
                  writeBuf := st.writeBuf.set st.diffCount (buffer.getD i 0),
                  diffCount := (st.diffCount + 1) % 65536 }
    else if st.diffCount > 0 then
      match _pageBlock p fuel st.sys st.startDiffAddr st.writeBuf st.diffCount true IDPage with
      | none => none
      | some (_, s1) =>
        updateScan p fuel addr buffer origBuf IDPage k (i + 1)
          { st with sys := s1, rv := (st.rv + st.diffCount) % 65536, diffCount := 0,
                    writeCnt := (st.writeCnt + 1) % 65536 }
    else updateScan p fuel addr buffer origBuf IDPage k (i + 1) st

/-- The `while (len > 0)` loop of the other branch of `updateBlock` (lines
289-304). `_ReadBlock` is called without the `IDPage` argument, which
defaults to `false`. `stack` gives the indeterminate initial content of the
local array `buf`. -/
def updateChunks (p : Platform) (fuel : Nat) (IDPage : Bool) (stack : Nat → Nat) :
    Nat → Sys → Nat → List Nat → Nat → Nat → Option (Nat × Sys)
  | 0, s, _, _, len, rv => if len = 0 then some (rv, s) else none
  | n + 1, s, addr, buffer, len, rv =>
    if len = 0 then some (rv, s)
    else
      let buf := (List.range (I2C_BUFFERSIZE p)).map stack
      let cnt := busChunk p len
      match _ReadBlock fuel s addr buf cnt false with
      | none => none
      | some (_, buf1, s1) =>
        if buffer.take cnt ≠ buf1.take cnt then
          match _pageBlock p fuel s1 addr buffer cnt true IDPage with
          | none => none
          | some (_, s2) =>
            updateChunks p fuel IDPage stack n s2 ((addr + cnt) % 65536) (buffer.drop cnt)
              (len - cnt) ((rv + cnt) % 65536)
        else
          updateChunks p fuel IDPage stack n s1 ((addr + cnt) % 65536) (buffer.drop cnt)
            (len - cnt) rv

/-- `I2C_eeprom::updateBlock` (lines 235-307). `stack` gives the
indeterminate initial content of the local arrays `origBuf` and `buf`.
`_ReadBlock` takes its length as `uint8_t`, so the 16-bit `length` is
reduced modulo 256 on the way in. -/
def updateBlock (p : Platform) (fuel : Nat) (s : Sys) (memoryAddress : Nat)
    (buffer : List Nat) (length : Nat) (IDPage : Bool) (stack : Nat → Nat) :
    Option (Nat × Sys) :=
  let addr := memoryAddress
  let len := length
  if s.drv._perByteCompare then
    let origBuf := (List.range length).map stack
    match _ReadBlock fuel s addr origBuf (length % 256) IDPage with
    | none => none
    | some (_, origBuf1, s1) =>
      let writeBuf := List.replicate length 0
      match updateScan p fuel addr buffer origBuf1 IDPage len 0
          { sys := s1, writeBuf := writeBuf, diffCount := 0, startDiffAddr := 0,
            rv := 0, writeCnt := 0 } with
      | none => none
      | some st =>
        if st.diffCount > 0 then
          match _pageBlock p fuel st.sys st.startDiffAddr st.writeBuf st.diffCount true
              IDPage with
          | none => none
          | some (_, s2) => some ((st.rv + st.diffCount) % 65536, s2)
        else some (st.rv, st.sys)
  else updateChunks p fuel IDPage stack len s addr buffer len 0

end I2C_eeprom

/-! ## A sample device -/

/-- A device with the geometry the driver object assumes, holding `fill` in
every cell, on a bus without faults and with a clock that stands at 0. -/
def sampleWorld (d : I2C_eeprom) (fill : Nat) : World :=
  { dev := { chip := { base := d._deviceAddress, idBase := d._idPageDeviceAddress,
                       twoWord := d._isAddressSizeTwoWords, size := d._deviceSize,
                       page := d._pageSize },
             mem := fun _ => fill, idmem := fun _ => fill },
    env := { status := fun _ => 0, rxLimit := fun _ => 255, clock := fun _ => 0 } }

def sampleSys (deviceSize : Nat) (fill : Nat) : Sys :=
  { drv := I2C_eeprom.new 80 deviceSize true,
    world := sampleWorld (I2C_eeprom.new 80 deviceSize true) fill }

/-! ## Assumptions about the device and the bus -/

/-- No transport fault is injected into any transaction and the transport can
deliver every byte a request may ask for (a request length is a `uint8_t`). -/
def Responsive (e : Env) : Prop :=
  (∀ k, e.status k = 0) ∧ ∀ k, 255 ≤ e.rxLimit k

/-- The device has the bus addresses, the address width and the page size the
driver object assumes, and at least as many cells as the driver's capacity. -/
def Attached (d : I2C_eeprom) (c : Chip) : Prop :=
  c.base = d._deviceAddress ∧ c.idBase = d._idPageDeviceAddress ∧
  c.twoWord = d._isAddressSizeTwoWords ∧ c.page = d._pageSize ∧ d._deviceSize ≤ c.size

/-- The cells of region `r` of the device: the identification page for
`r = true`, the main array for `r = false`. -/
def Device.bank (dv : Device) (r : Bool) : Nat → Nat :=
  if r then dv.idmem else dv.mem

/-- The `n` bytes stored from address `a` on in region `r`. -/
def Device.stored (dv : Device) (r : Bool) (a n : Nat) : List Nat :=
  (List.range n).map (fun i => dv.bank r (a + i))

/-- The span `[addr, addr + len)` lies inside region `IDPage` as the driver
object sees it: inside the capacity, and inside the page for the
identification page. -/
def InBounds (d : I2C_eeprom) (addr len : Nat) (IDPage : Bool) : Prop :=
  addr + len ≤ d._deviceSize ∧ (IDPage = true → addr + len ≤ d._pageSize)

/-- The two precondition checks of `_pageBlock` (lines 651 and 656) both pass. -/
def PassesChecks (p : Platform) (d : I2C_eeprom) (addr len : Nat) (IDPage : Bool) : Prop :=
  ¬(IDPage = true ∧ (addr + len) % 2 ^ intBits p > d._pageSize) ∧
  ¬((addr + len) % 2 ^ intBits p > d._deviceSize)

/-- The driver object and the device agree for operations on region `IDPage`:
the device is `Attached`, the page size fits a `uint8_t` and is not 0, the
capacity is addressable with 16 bits; in one-word mode the three low bits of
the bus address are free for address bits and the capacity needs no more than
those; and for the identification page the driver knows its bus address
(`hasIDPage` was set at construction). -/
structure Fit (d : I2C_eeprom) (c : Chip) (IDPage : Bool) : Prop where
  attached : Attached d c
  pagePos : 0 < d._pageSize
  pageLt : d._pageSize < 256
  cap : d._deviceSize ≤ 65536
  oneWord : d._isAddressSizeTwoWords = false →
    d._deviceAddress % 8 = 0 ∧ d._deviceSize ≤ 2048
  idPage : IDPage = true → d._idPageDeviceAddress = (d._deviceAddress + 8) % 256

/-- The number of cells of region `r` of the device. -/
def Device.span (dv : Device) (r : Bool) : Nat :=
  if r then dv.chip.page else dv.chip.size

/-- The bus is responsive and the device fits the driver object for
operations on region `IDPage`. -/
def Good (s : Sys) (IDPage : Bool) : Prop :=
  Responsive s.world.env ∧ Fit s.drv s.world.dev.chip IDPage

/-- What holds of the local variables of the per-byte branch of `updateBlock`
when its scan stands before index `i`, on a device that fits the driver
object `d0`: the last `diffCount` indices are the pending run, whose bytes
are at the front of `writeBuf` and whose first address is `startDiffAddr`;
the cells of the region before the pending run hold the bytes of the buffer,
every other cell what `bank0` and `other0` say. -/
structure ScanInv (d0 : I2C_eeprom) (bank0 other0 : Nat → Nat) (addr : Nat)
    (buffer : List Nat) (n : Nat) (IDPage : Bool) (i : Nat) (st : I2C_eeprom.Scan) : Prop where
  good : Good st.sys IDPage
  drv : st.sys.drv = { d0 with _lastWrite := st.sys.drv._lastWrite }
  pending : st.diffCount ≤ i
  room : n ≤ st.writeBuf.length
  start : 0 < st.diffCount → st.startDiffAddr = addr + (i - st.diffCount)
  run : ∀ j, j < st.diffCount → st.writeBuf.getD j 0 = buffer.getD (i - st.diffCount + j) 0
  bank : st.sys.world.dev.bank IDPage = fun x =>
    if addr ≤ x ∧ x < addr + (i - st.diffCount) then buffer.getD (x - addr) 0 else bank0 x
  other : st.sys.world.dev.bank (!IDPage) = other0

/-! ## Further operations of the driver -/

namespace I2C_eeprom

/-- The two-argument constructor (lines 41-44). It delegates to the
four-argument constructor with three arguments: `I2C_PAGESIZE_M24256` lands
in the parameter `deviceSize`, and the `wire` pointer, converted to `bool`,
in the parameter `hasIDPage`. `wire` says whether the pointer is non-null
(the header's default argument `&Wire` is). -/
def newDefault (deviceAddress : Nat) (wire : Bool) : I2C_eeprom :=
  new deviceAddress I2C_PAGESIZE_M24256 wire

/-- `I2C_eeprom::updateBlockVerify` (lines 361-366). -/
def updateBlockVerify (p : Platform) (fuel : Nat) (s : Sys) (memoryAddress : Nat)
    (buffer : List Nat) (length : Nat) (IDPage : Bool) (stack : Nat → Nat) :
    Option (Bool × Sys) :=
  match updateBlock p fuel s memoryAddress buffer length IDPage stack with
  | none => none
  | some (rv, s1) =>
    if rv ≠ length then some (false, s1)
    else verifyBlock p fuel s1 memoryAddress buffer length IDPage

/-- One pass of the `for` loop of `determineSize` (lines 399-426) and the
passes after it; the first argument counts the passes left. `size` is a
`uint32_t`; `readByte` and `writeByte` take it as `uint16_t`. The debug
block is empty, because the print macros expand to nothing. `rdata` is the
indeterminate initial value of the local variable of `readByte`. -/
def determineSizeLoop (fuel : Nat) (rdata : Nat) : Nat → Nat → Sys → Option (Nat × Sys)
  | 0, size, s => if size ≤ 65536 then none else some (0, s)
  | n + 1, size, s =>
    if ¬ size ≤ 65536 then some (0, s)
    else
      let addressSize := s.drv._isAddressSizeTwoWords
      let s0 : Sys := { s with drv := { s.drv with
        _isAddressSizeTwoWords := decide (size > I2C_DEVICESIZE_M24C16) } }
      match readByte fuel s0 (size % 65536) false rdata with
      | none => none
      | some (buf, s1) =>
      match writeByte fuel s1 (size % 65536) 0x55 false with
      | none => none
      | some (_, s2) =>
      match readByte fuel s2 0 false rdata with
      | none => none
      | some (r1, s3) =>
      let cnt := if r1 = 0x55 then 1 else 0
      match writeByte fuel s3 (size % 65536) 0xAA false with
      | none => none
      | some (_, s4) =>
      match readByte fuel s4 0 false rdata with
      | none => none
      | some (r2, s5) =>
      let cnt := if r2 = 0xAA then cnt + 1 else cnt
      let folded := decide (cnt = 2)
      match writeByte fuel s5 (size % 65536) buf false with
      | none => none
      | some (_, s6) =>
      let s7 : Sys := { s6 with drv := { s6.drv with _isAddressSizeTwoWords := addressSize } }
      if folded then some (size, s7)
      else determineSizeLoop fuel rdata n (size * 2 % 2 ^ 32) s7

/-- `I2C_eeprom::determineSize` (lines 390-428). The loop runs for the ten
sizes 128, 256, ..., 65536. -/
def determineSize (fuel : Nat) (s : Sys) (rdata : Nat) : Option (Nat × Sys) :=
  let c := isConnected s.drv s.world false
  if ¬ c.1 then some (0, { s with world := c.2 })
  else determineSizeLoop fuel rdata 10 128 { s with world := c.2 }

/-- The first loop of `determineSizeNoWrite` (lines 448-468) from position
`pos` on; the first argument counts the positions left. Returns
`(isModifiedFirstSector, dataIsDifferent)`. -/
def scanFirstBytes (data : List Nat) : Nat → Nat → Bool → Bool → Bool × Bool
  | 0, _, isModifiedFirstSector, dataIsDifferent => (isModifiedFirstSector, dataIsDifferent)
  | k + 1, pos, isModifiedFirstSector, dataIsDifferent =>
    let different :=
      if dataIsDifferent ∨ pos = 0 then dataIsDifferent
      else if data.getD (pos - 1) 0 ≠ data.getD pos 0 then true
      else dataIsDifferent
    let modified :=
      if data.getD pos 0 ≠ 0xFF ∧ data.getD pos 0 ≠ 0x00 then true
      else isModifiedFirstSector
    if different ∧ modified then (modified, different)
    else scanFirstBytes data k (pos + 1) modified different

/-- The second loop of `determineSizeNoWrite` (lines 484-497), for the sizes
32768, 16384, ..., 64; the first argument counts the passes left.
`dataMatch` is the content of the local array of that name, `addressSize`
the addressing mode saved at the start. `delay(2)` changes nothing of the
state: the time that passes shows in the next reading of the clock. -/
def noWriteLoop (p : Platform) (fuel : Nat) (dataFirstBytes : List Nat) (addressSize : Bool) :
    Nat → Nat → Sys → List Nat → Option (Nat × Sys)
  | 0, size, s, _ =>
    if size ≥ 64 then none
    else some (0, { s with drv := { s.drv with _isAddressSizeTwoWords := addressSize } })
  | n + 1, size, s, dataMatch =>
    if ¬ size ≥ 64 then
      some (0, { s with drv := { s.drv with _isAddressSizeTwoWords := addressSize } })
    else
      let s0 : Sys := { s with drv := { s.drv with
        _isAddressSizeTwoWords := decide (size ≥ I2C_DEVICESIZE_M24C16) } }
      match readBlock p fuel s0 (size % 65536) dataMatch 32 false with
      | none => none
      | some (bSize, dataMatch1, s1) =>
        if bSize = 32 ∧ dataFirstBytes.take 32 ≠ dataMatch1.take 32 then
          some (size * 2 % 2 ^ 32,
            { s1 with drv := { s1.drv with _isAddressSizeTwoWords := addressSize } })
        else noWriteLoop p fuel dataFirstBytes addressSize n (size / 2) s1 dataMatch1

/-- `I2C_eeprom::determineSizeNoWrite` (lines 433-501). `stack1` and
`stack2` give the indeterminate initial content of the local arrays
`dataFirstBytes` and `dataMatch`. -/
def determineSizeNoWrite (p : Platform) (fuel : Nat) (s : Sys) (stack1 stack2 : Nat → Nat) :
    Option (Nat × Sys) :=
  let c := isConnected s.drv s.world false
  if ¬ c.1 then some (0, { s with world := c.2 })
  else
    let addressSize := s.drv._isAddressSizeTwoWords
    let s0 : Sys := { drv := { s.drv with _isAddressSizeTwoWords := true }, world := c.2 }
    match readBlock p fuel s0 0 ((List.range 32).map stack1) 32 false with
    | none => none
    | some (_, dataFirstBytes, s1) =>
      let flags := scanFirstBytes dataFirstBytes 32 0 false false
      if ¬ flags.1 then
        some (1, { s1 with drv := { s1.drv with _isAddressSizeTwoWords := addressSize } })
      else if ¬ flags.2 then
        some (2, { s1 with drv := { s1.drv with _isAddressSizeTwoWords := addressSize } })
      else noWriteLoop p fuel dataFirstBytes addressSize 10 32768 s1 ((List.range 32).map stack2)

end I2C_eeprom

/-! ## Further sample devices and assumptions -/

/-- A bus on which transaction number `k` fails with transport status `code`
and no other transaction is disturbed, with a clock that advances by 10000
microseconds from one reading to the next. -/
def faultAt (k code : Nat) : Env :=
  { status := fun i => if i = k then code else 0,
    rxLimit := fun _ => 255,
    clock := fun i => (i + 1) * 10000 }

/-- The sample device and driver object on the bus `faultAt k code`. -/
def faultySys (deviceSize fill k code : Nat) : Sys :=
  { drv := I2C_eeprom.new 80 deviceSize true,
    world := { sampleWorld (I2C_eeprom.new 80 deviceSize true) fill with
      env := faultAt k code } }

/-- The waiting time of `_waitEEReady` (line 828), a 32-bit value. -/
def waitTime (d : I2C_eeprom) : Nat :=
  (I2C_WRITEDELAY + d._extraTWR * 1000) % 2 ^ 32

/-- The time from the clock reading `t0` to the clock reading `t1`, as the
32-bit subtraction of line 829 computes it. -/
def elapsed (t1 t0 : Nat) : Nat :=
  (t1 % 2 ^ 32 + 2 ^ 32 - t0 % 2 ^ 32) % 2 ^ 32

/-- Between any two consecutive readings of the clock more than `wt`
microseconds pass, and fewer than `2 ^ 32 - wt`. -/
def Ticking (e : Env) (wt : Nat) : Prop :=
  ∀ k, wt < elapsed (e.clock (k + 1)) (e.clock k) ∧
    elapsed (e.clock (k + 1)) (e.clock k) + wt < 2 ^ 32

/-- The sample device of capacity 32768 with `mainFill` in every cell of the
main array and `idFill` in every cell of the identification page, and the
driver object switched to chunk-wise comparison. -/
def bulkSys (mainFill idFill : Nat) : Sys :=
  { drv := I2C_eeprom.setPerByteCompare (I2C_eeprom.new 80 32768 true) false,
    world := { sampleWorld (I2C_eeprom.new 80 32768 true) mainFill with
      dev := { (sampleWorld (I2C_eeprom.new 80 32768 true) mainFill).dev with
        idmem := fun _ => idFill } } }

/-- A device at bus address 80 with `size` cells in the main array, the given
addressing mode and the content `mem`, on a bus without faults and with a
clock that stands at 0, together with the driver object the four-argument
constructor makes for `deviceSize`. -/
def probeSys (twoWord : Bool) (size : Nat) (mem : Nat → Nat) (deviceSize : Nat) : Sys :=
  { drv := I2C_eeprom.new 80 deviceSize true,
    world :=
      { dev := { chip := { base := 80, idBase := 88, twoWord := twoWord, size := size,
                           page := I2C_eeprom.getPageSize size },
                 mem := mem, idmem := fun _ => 255 },
        env := { status := fun _ => 0, rxLimit := fun _ => 255, clock := fun _ => 0 } } }

/-- A content in which cell `x` holds the low byte of `x`. -/
def ramp (x : Nat) : Nat := x % 256

/-- A content that is 255 everywhere but for the byte `b` in cell `a`. -/
def blankBut (a b : Nat) (x : Nat) : Nat := if x = a then b else 255

/-! ## Locking the identification page, and `setBlockVerify` -/

/-- The macro `ALLOW_IDPAGE_LOCK` (line 12). -/
def ALLOW_IDPAGE_LOCK : Nat := 0

/-- The macro `I_ACK_IDPAGE_CANT_BE_UNLOCKED` (line 13). -/
def I_ACK_IDPAGE_CANT_BE_UNLOCKED : Nat := 0

namespace I2C_eeprom

/-- `I2C_eeprom::lockIDPage` (lines 88-96), for given values of the two
macros it tests. The status of `_WriteBlock` is returned as a `uint8_t`. -/
def lockIDPageWith (allow ack : Nat) (fuel : Nat) (s : Sys) : Option (Nat × Sys) :=
  if allow ≠ 0 ∧ ack ≠ 0 then
    match _WriteBlock fuel s 0x400 [2] 1 true with
    | none => none
    | some (rv, s1) => some (rv % 256, s1)
  else some (13, s)

/-- `I2C_eeprom::lockIDPage` as compiled, with the macro values of lines
12-13. -/
def lockIDPage (fuel : Nat) (s : Sys) : Option (Nat × Sys) :=
  lockIDPageWith ALLOW_IDPAGE_LOCK I_ACK_IDPAGE_CANT_BE_UNLOCKED fuel s

/-- `I2C_eeprom::setBlockVerify` (lines 332-349). `heap` is `none` if
`malloc` returns `NULL`, and otherwise gives the indeterminate content of the
block it returns. `readBlock` is called without the `IDPage` argument, which
defaults to `false`. -/
def setBlockVerify (p : Platform) (fuel : Nat) (s : Sys) (memoryAddress : Nat) (value : Nat)
    (length : Nat) (IDPage : Bool) (heap : Option (Nat → Nat)) : Option (Bool × Sys) :=
  match setBlock p fuel s memoryAddress value length IDPage with
  | none => none
  | some (rv, s1) =>
    if rv ≠ 0 then some (false, s1)
    else
      match heap with
      | none => some (false, s1)
      | some content =>
        match readBlock p fuel s1 memoryAddress ((List.range length).map content) length
            false with
        | none => none
        | some (n, data, s2) =>
          if n ≠ length then some (false, s2)
          else some ((List.range length).all (fun i => decide (data.getD i 0 = value)), s2)

end I2C_eeprom

/-! ## Theorems -/

/-! ### Device size and addressing mode -/

/-- What the loop of `setDeviceSize` computes: with enough passes to carry
`size` beyond 65536, the result is `cur` if the first test fails, and else
the last `size * 2 ^ j` that is at most 65536 and at most `ds`. -/
theorem setDeviceSizeLoop_spec : ∀ (n size cur ds : Nat), 0 < size → 65536 < size * 2 ^ n →
    (¬(size ≤ 65536 ∧ size ≤ ds) → I2C_eeprom.setDeviceSizeLoop n size cur ds = cur) ∧
    (size ≤ 65536 ∧ size ≤ ds → ∃ j, I2C_eeprom.setDeviceSizeLoop n size cur ds = size * 2 ^ j ∧
      size * 2 ^ j ≤ 65536 ∧ size * 2 ^ j ≤ ds ∧
      (ds < size * 2 ^ (j + 1) ∨ 65536 < size * 2 ^ (j + 1))) := by
  intro n
  induction n with
  | zero =>
    intro size cur ds _ h
    simp only [pow_zero, mul_one] at h
    refine ⟨fun _ => rfl, fun hc => ?_⟩
    omega
  | succ n ih =>
    intro size cur ds hpos h
    refine ⟨fun hc => ?_, fun hc => ?_⟩
    · simp only [I2C_eeprom.setDeviceSizeLoop, if_neg hc]
    · have hs : size * 2 % 2 ^ 32 = size * 2 := by
        apply Nat.mod_eq_of_lt
        have := hc.1
        norm_num
        omega
      simp only [I2C_eeprom.setDeviceSizeLoop, if_pos hc, hs]
      have h2 : 65536 < size * 2 * 2 ^ n := by
        rw [pow_succ] at h
        nlinarith [h]
      obtain ⟨ihn, ihy⟩ := ih (size * 2) size ds (by omega) h2
      by_cases hc2 : size * 2 ≤ 65536 ∧ size * 2 ≤ ds
      · obtain ⟨j, hj, hj1, hj2, hj3⟩ := ihy hc2
        refine ⟨j + 1, ?_, ?_, ?_, ?_⟩
        · rw [hj, pow_succ]; ring
        · rw [pow_succ]; nlinarith [hj1]
        · rw [pow_succ]; nlinarith [hj2]
        · have e : size * 2 ^ (j + 1 + 1) = size * 2 * 2 ^ (j + 1) := by
            rw [pow_succ _ (j + 1)]; ring
          rw [e]; exact hj3
      · refine ⟨0, ?_, ?_, ?_, ?_⟩
        · rw [ihn hc2]; simp
        · simpa using hc.1
        · simpa using hc.2
        · simp only [zero_add, pow_one]
          omega

/-- For a requested size of at least 128 `setDeviceSize` stores and returns
the largest power of two not above the request, at most 65536. -/
theorem setDeviceSize_large (d : I2C_eeprom) (deviceSize : Nat) (h : 128 ≤ deviceSize) :
    ∃ k, 7 ≤ k ∧ k ≤ 16 ∧ (d.setDeviceSize deviceSize).1 = 2 ^ k ∧
      (d.setDeviceSize deviceSize).2._deviceSize = 2 ^ k ∧ 2 ^ k ≤ deviceSize ∧
      (deviceSize < 2 ^ (k + 1) ∨ k = 16) := by
  obtain ⟨j, hj, hj1, hj2, hj3⟩ :=
    (setDeviceSizeLoop_spec 32 128 d._deviceSize deviceSize (by norm_num) (by norm_num)).2
      ⟨by norm_num, h⟩
  have e : ∀ i, 128 * 2 ^ i = 2 ^ (7 + i) := fun i => by rw [pow_add]; norm_num
  rw [e] at hj hj1 hj2
  rw [e] at hj3
  have hk : 7 + j ≤ 16 := by
    by_contra hcon
    have : 2 ^ 17 ≤ 2 ^ (7 + j) := Nat.pow_le_pow_right (by norm_num) (by omega)
    norm_num at this
    omega
  refine ⟨7 + j, by omega, hk, hj, hj, hj2, ?_⟩
  rcases hj3 with h3 | h3
  · left; exact h3
  · right
    by_contra hcon
    have : 2 ^ (7 + (j + 1)) ≤ 2 ^ 16 := Nat.pow_le_pow_right (by norm_num) (by omega)
    norm_num at this
    omega

/-- For a requested size below 128 `setDeviceSize` leaves the stored size as
it was. -/
theorem setDeviceSize_small (d : I2C_eeprom) (deviceSize : Nat) (h : deviceSize < 128) :
    (d.setDeviceSize deviceSize).1 = d._deviceSize := by
  exact (setDeviceSizeLoop_spec 32 128 d._deviceSize deviceSize (by norm_num) (by norm_num)).1
    (by omega)

/-- After `setDeviceSize` the addressing mode is two-word exactly when the
stored capacity exceeds 2048. -/
theorem setDeviceSize_mode (d : I2C_eeprom) (deviceSize : Nat) :
    (d.setDeviceSize deviceSize).2._isAddressSizeTwoWords = true ↔
      (d.setDeviceSize deviceSize).2.getDeviceSize > 2048 := by
  simp [I2C_eeprom.setDeviceSize, I2C_eeprom.getDeviceSize, I2C_DEVICESIZE_M24C16]

/-- C9: the claim says that after construction the addressing mode is
two-word exactly when the stored capacity exceeds 2048. The constructor
called with `deviceSize = 3000` stores the capacity 2048 and page size 16 but
selects two-word addressing, because its last assignment tests the requested
size; `setDeviceSize` called with the same value selects one-word
addressing. -/
theorem C9_constructor_mode_from_requested_size :
    (I2C_eeprom.new 80 3000 true).getDeviceSize = 2048 ∧
    (I2C_eeprom.new 80 3000 true)._pageSize = 16 ∧
    (I2C_eeprom.new 80 3000 true)._isAddressSizeTwoWords = true ∧
    ((I2C_eeprom.new 80 3000 true).setDeviceSize 3000).2._isAddressSizeTwoWords = false := by
  decide

/-- C10: the claim says that the stored capacity is always a power of two
between 128 and 65536. The constructor called with `deviceSize = 100` stores
the capacity 0, and `setDeviceSize 100` on an object of capacity 32768 keeps
and returns 32768: the loop never runs for a request below 128. -/
theorem C10_request_below_128_not_clamped :
    (I2C_eeprom.new 80 100 true).getDeviceSize = 0 ∧
    ((I2C_eeprom.new 80 32768 true).setDeviceSize 100).1 = 32768 ∧
    ((I2C_eeprom.new 80 32768 true).setDeviceSize 100).2.getDeviceSize = 32768 := by
  decide

/-! ### The device -/

theorem Device.store_chip (dv : Device) (r : Bool) (a b : Nat) :
    (dv.store r a b).chip = dv.chip := by
  unfold Device.store; split <;> rfl

theorem Device.program_chip (r : Bool) : ∀ (data : List Nat) (dv : Device) (a : Nat),
    (Device.program r data dv a).chip = dv.chip := by
  intro data
  induction data with
  | nil => intro dv a; rfl
  | cons b rest ih =>
    intro dv a
    simp only [Device.program]
    rw [ih, Device.store_chip]

theorem Device.receive_chip (dv : Device) (busAddr : Nat) (bytes : List Nat) :
    (dv.receive busAddr bytes).chip = dv.chip := by
  unfold Device.receive
  split
  · exact Device.program_chip _ _ _ _
  · rfl

/-- A transaction without bytes leaves the device as it is. -/
theorem Device.receive_nil (dv : Device) (busAddr : Nat) : dv.receive busAddr [] = dv := by
  unfold Device.receive Device.decode
  cases dv.chip.twoWord <;> cases dv.select busAddr <;> simp

/-! ### The wait for the end of the write cycle -/

theorem Wire.endTransmission_frame (w : World) (stop : Bool) :
    (Wire.endTransmission w stop).2.env = w.env ∧
    (Wire.endTransmission w stop).2.writes = w.writes ∧
    (Wire.endTransmission w stop).2.dev.chip = w.dev.chip ∧
    (Wire.endTransmission w stop).2.gpio = w.gpio ∧
    (Wire.endTransmission w stop).2.tick = w.tick := by
  refine ⟨rfl, rfl, ?_, rfl, rfl⟩
  simp only [Wire.endTransmission]
  split_ifs <;> first | rfl | exact Device.receive_chip _ _ _

/-- Whenever the wait returns, it has changed neither the driver object, nor
the environment, nor the record of `_WriteBlock` calls, nor the geometry of
the device. -/
theorem _waitEEReady_frame : ∀ (fuel : Nat) (s s1 : Sys),
    I2C_eeprom._waitEEReady fuel s = some s1 →
    s1.drv = s.drv ∧ s1.world.env = s.world.env ∧ s1.world.writes = s.world.writes ∧
      s1.world.dev.chip = s.world.dev.chip := by
  intro fuel
  induction fuel with
  | zero => intro s s1 h; simp [I2C_eeprom._waitEEReady] at h
  | succ n ih =>
    intro s s1 h
    simp only [I2C_eeprom._waitEEReady] at h
    split at h
    · split at h
      · cases h
        obtain ⟨h1, h2, h3, -, -⟩ := Wire.endTransmission_frame
          (Wire.beginTransmission (micros s.world).2 s.drv._deviceAddress) true
        exact ⟨rfl, h1, h2, h3⟩
      · obtain ⟨e1, e2, e3, e4⟩ := ih _ _ h
        obtain ⟨h1, h2, h3, -, -⟩ := Wire.endTransmission_frame
          (Wire.beginTransmission (micros s.world).2 s.drv._deviceAddress) true
        exact ⟨e1, e2.trans h1, e3.trans h2, e4.trans h3⟩
    · cases h
      exact ⟨rfl, rfl, rfl, rfl⟩

/-! ### The address phase -/

/-- What `_beginTransmission` leaves in the transmit buffer of the transport:
everything else in the world is as before. -/
theorem _beginTransmission_eq (d : I2C_eeprom) (w : World) (memoryAddress : Nat)
    (IDPage : Bool) :
    I2C_eeprom._beginTransmission d w memoryAddress IDPage =
      { w with
        txAddress := if d._isAddressSizeTwoWords then
            (if IDPage then d._idPageDeviceAddress else d._deviceAddress)
          else (if IDPage then d._idPageDeviceAddress else d._deviceAddress) |||
            ((memoryAddress >>> 8) &&& 0x07),
        txBuf := if d._isAddressSizeTwoWords then
            [(memoryAddress >>> 8) % 256, (memoryAddress &&& 0xFF) % 256]
          else [(memoryAddress &&& 0xFF) % 256] } := by
  unfold I2C_eeprom._beginTransmission
  cases d._isAddressSizeTwoWords <;> simp [Wire.write, Wire.beginTransmission]

@[simp] theorem _beginTransmission_dev (d : I2C_eeprom) (w : World) (a : Nat) (r : Bool) :
    (I2C_eeprom._beginTransmission d w a r).dev = w.dev := by
  rw [_beginTransmission_eq]

@[simp] theorem _beginTransmission_env (d : I2C_eeprom) (w : World) (a : Nat) (r : Bool) :
    (I2C_eeprom._beginTransmission d w a r).env = w.env := by
  rw [_beginTransmission_eq]

@[simp] theorem _beginTransmission_writes (d : I2C_eeprom) (w : World) (a : Nat) (r : Bool) :
    (I2C_eeprom._beginTransmission d w a r).writes = w.writes := by
  rw [_beginTransmission_eq]

@[simp] theorem _beginTransmission_txn (d : I2C_eeprom) (w : World) (a : Nat) (r : Bool) :
    (I2C_eeprom._beginTransmission d w a r).txn = w.txn := by
  rw [_beginTransmission_eq]

@[simp] theorem _beginTransmission_bus (d : I2C_eeprom) (w : World) (a : Nat) (r : Bool) :
    (I2C_eeprom._beginTransmission d w a r).bus = w.bus := by
  rw [_beginTransmission_eq]

@[simp] theorem Wire.endTransmission_env (w : World) (stop : Bool) :
    (Wire.endTransmission w stop).2.env = w.env := rfl

@[simp] theorem Wire.endTransmission_writes (w : World) (stop : Bool) :
    (Wire.endTransmission w stop).2.writes = w.writes := rfl

@[simp] theorem Wire.endTransmission_chip (w : World) (stop : Bool) :
    (Wire.endTransmission w stop).2.dev.chip = w.dev.chip :=
  (Wire.endTransmission_frame w stop).2.2.1

@[simp] theorem Wire.writeBytes_env (w : World) (data : List Nat) :
    (Wire.writeBytes w data).env = w.env := rfl

@[simp] theorem Wire.writeBytes_dev (w : World) (data : List Nat) :
    (Wire.writeBytes w data).dev = w.dev := rfl

@[simp] theorem Wire.writeBytes_writes (w : World) (data : List Nat) :
    (Wire.writeBytes w data).writes = w.writes := rfl

@[simp] theorem micros_env (w : World) : (micros w).2.env = w.env := rfl

@[simp] theorem micros_dev (w : World) : (micros w).2.dev = w.dev := rfl

@[simp] theorem micros_writes (w : World) : (micros w).2.writes = w.writes := rfl

@[simp] theorem digitalWrite_env (c : Bool) (w : World) (pin : Int) (level : Bool) :
    (if c = true then digitalWrite w pin level else w).env = w.env := by
  cases c <;> rfl

@[simp] theorem digitalWrite_dev (c : Bool) (w : World) (pin : Int) (level : Bool) :
    (if c = true then digitalWrite w pin level else w).dev = w.dev := by
  cases c <;> rfl

@[simp] theorem digitalWrite_writes (c : Bool) (w : World) (pin : Int) (level : Bool) :
    (if c = true then digitalWrite w pin level else w).writes = w.writes := by
  cases c <;> rfl

/-! ### One write transaction -/

/-- Whenever `_WriteBlock` returns, it has appended exactly one record to the
record of calls, with the address, length and region it was called with and
the status it returns, and has changed nothing of the driver object but
`_lastWrite`. -/
theorem _WriteBlock_frame (fuel : Nat) (s : Sys) (memoryAddress : Nat) (buffer : List Nat)
    (length : Nat) (IDPage : Bool) (rv : Nat) (s1 : Sys)
    (h : I2C_eeprom._WriteBlock fuel s memoryAddress buffer length IDPage = some (rv, s1)) :
    s1.drv = { s.drv with _lastWrite := s1.drv._lastWrite } ∧
    s1.world.env = s.world.env ∧
    s1.world.dev.chip = s.world.dev.chip ∧
    s1.world.writes = s.world.writes ++
      [{ memoryAddress := memoryAddress, length := length, data := buffer.take length,
         IDPage := IDPage, status := rv }] := by
  unfold I2C_eeprom._WriteBlock at h
  cases hw : I2C_eeprom._waitEEReady fuel s with
  | none => simp [hw] at h
  | some s0 =>
    obtain ⟨e1, e2, e3, e4⟩ := _waitEEReady_frame fuel s s0 hw
    simp only [hw, Option.some.injEq, Prod.mk.injEq] at h
    obtain ⟨hrv, hs⟩ := h
    subst hs
    subst hrv
    refine ⟨?_, ?_, ?_, ?_⟩
    · simp [e1]
    · simp [e2]
    · simp [e4]
    · simp [e3]

/-- The device answers at its main bus address, in either addressing mode. -/
theorem Device.select_base (dv : Device) : dv.select dv.chip.base = some false := by
  unfold Device.select
  cases dv.chip.twoWord <;> simp

/-- On a responsive bus with the device at the driver's main address the wait
returns after at most one pass, and leaves the device as it is. -/
theorem _waitEEReady_responsive (fuel : Nat) (s : Sys) (hf : 0 < fuel)
    (hr : Responsive s.world.env) (hb : s.world.dev.chip.base = s.drv._deviceAddress) :
    ∃ s1, I2C_eeprom._waitEEReady fuel s = some s1 ∧ s1.drv = s.drv ∧
      s1.world.env = s.world.env ∧ s1.world.writes = s.world.writes ∧
      s1.world.dev = s.world.dev := by
  obtain ⟨n, rfl⟩ : ∃ n, fuel = n + 1 := ⟨fuel - 1, by omega⟩
  simp only [I2C_eeprom._waitEEReady]
  split
  · have hc : (I2C_eeprom.isConnected s.drv (micros s.world).2 false).1 = true := by
      simp [I2C_eeprom.isConnected, Wire.endTransmission, Wire.beginTransmission, micros,
        hr.1, ← hb, Device.select_base]
    refine ⟨{ s with world := (I2C_eeprom.isConnected s.drv (micros s.world).2 false).2 },
      by rw [if_pos hc], rfl, rfl, rfl, ?_⟩
    simp [I2C_eeprom.isConnected, Wire.endTransmission, Wire.beginTransmission, micros,
      hr.1, ← hb, Device.select_base, Device.receive_nil]
  · exact ⟨{ s with world := (micros s.world).2 }, rfl, rfl, rfl, rfl, rfl⟩

theorem I2C_BUFFERSIZE_pos (p : Platform) : 0 < I2C_BUFFERSIZE p := by
  cases p <;> decide

theorem I2C_BUFFERSIZE_le (p : Platform) : I2C_BUFFERSIZE p ≤ 128 := by
  cases p <;> decide

/-! ### The chunks of a block write -/

/-- A chunk of `_pageBlock` has at least one byte, at most the remaining
length, at most `I2C_BUFFERSIZE` and at most the bytes left in the page. -/
theorem pageChunk_bounds (p : Platform) (P addr len : Nat) (hP : 0 < P) (hP2 : P < 256)
    (hlen : 0 < len) :
    1 ≤ I2C_eeprom.pageChunk p P addr len ∧ I2C_eeprom.pageChunk p P addr len ≤ len ∧
    I2C_eeprom.pageChunk p P addr len ≤ I2C_BUFFERSIZE p ∧
    I2C_eeprom.pageChunk p P addr len ≤ P - addr % P := by
  have hB := I2C_BUFFERSIZE_pos p
  have hm : addr % P < P := Nat.mod_lt _ hP
  have hu : (P - addr % P) % 256 = P - addr % P := Nat.mod_eq_of_lt (by omega)
  unfold I2C_eeprom.pageChunk
  simp only [hu]
  split_ifs <;> omega

/-- The chunk is the least of the three bounds. -/
theorem pageChunk_eq (p : Platform) (P addr len : Nat) (hP : 0 < P) (hP2 : P < 256) :
    I2C_eeprom.pageChunk p P addr len = min (min (I2C_BUFFERSIZE p) len) (P - addr % P) := by
  have hm : addr % P < P := Nat.mod_lt _ hP
  have hu : (P - addr % P) % 256 = P - addr % P := Nat.mod_eq_of_lt (by omega)
  unfold I2C_eeprom.pageChunk
  simp only [hu]
  split_ifs <;> omega

/-- Whenever the loop of `_pageBlock` returns, the calls of `_WriteBlock` it
made are recorded behind the earlier ones; there are at most `len` of them,
each of a length between 1 and the least of `I2C_BUFFERSIZE` and the bytes
left in the page of its address, and if `len > 0` the first one is at `addr`
with the length `pageChunk` gives. -/
theorem pageLoop_chunks (p : Platform) (fuel : Nat) (incr IDPage : Bool) (P : Nat)
    (hP : 0 < P) (hP2 : P < 256) :
    ∀ (n : Nat) (s : Sys) (addr : Nat) (buffer : List Nat) (len : Nat) (rv : Nat) (s1 : Sys),
    s.drv._pageSize = P →
    I2C_eeprom.pageLoop p fuel incr IDPage n s addr buffer len = some (rv, s1) →
    ∃ new : List WriteRec, s1.world.writes = s.world.writes ++ new ∧ new.length ≤ len ∧
      (∀ r ∈ new, 1 ≤ r.length ∧ r.length ≤ I2C_BUFFERSIZE p ∧
        r.length ≤ P - r.memoryAddress % P) ∧
      (0 < len → ∃ r rest, new = r :: rest ∧ r.memoryAddress = addr ∧
        r.length = I2C_eeprom.pageChunk p P addr len) := by
  intro n
  induction n with
  | zero =>
    intro s addr buffer len rv s1 _ h
    simp only [I2C_eeprom.pageLoop] at h
    split at h
    · cases h
      exact ⟨[], by simp, by simp, by simp, by omega⟩
    · cases h
  | succ n ih =>
    intro s addr buffer len rv s1 hPs h
    simp only [I2C_eeprom.pageLoop] at h
    split at h
    · cases h
      exact ⟨[], by simp, by simp, by simp, by omega⟩
    · rename_i hlen
      have hlen : 0 < len := Nat.pos_of_ne_zero hlen
      obtain ⟨c1, c2, c3, c4⟩ := pageChunk_bounds p P addr len hP hP2 hlen
      rw [hPs] at h
      split at h
      · cases h
      · rename_i rv0 s0 hw
        obtain ⟨f1, -, -, f4⟩ := _WriteBlock_frame _ _ _ _ _ _ _ _ hw
        split at h
        · cases h
          refine ⟨_, f4, by simp; omega, ?_, fun _ => ⟨_, [], rfl, rfl, rfl⟩⟩
          intro r hr
          simp only [List.mem_singleton] at hr
          subst hr
          exact ⟨c1, c3, c4⟩
        · have hP0 : s0.drv._pageSize = P := by rw [f1]; exact hPs
          obtain ⟨new, g1, g2, g3, -⟩ := ih _ _ _ _ _ _ hP0 h
          refine ⟨(WriteRec.mk addr (I2C_eeprom.pageChunk p P addr len)
            (buffer.take (I2C_eeprom.pageChunk p P addr len)) IDPage rv0) :: new,
            ?_, ?_, ?_, fun _ => ⟨_, new, rfl, rfl, rfl⟩⟩
          · rw [g1, f4]; simp
          · simp only [List.length_cons]; omega
          · intro r hr
            rcases List.mem_cons.1 hr with hr | hr
            · subst hr
              exact ⟨c1, c3, c4⟩
            · exact g3 r hr

/-- On a responsive bus with the device at the driver's main address
`_WriteBlock` returns. -/
theorem _WriteBlock_returns (fuel : Nat) (s : Sys) (memoryAddress : Nat) (buffer : List Nat)
    (length : Nat) (IDPage : Bool) (hf : 0 < fuel) (hr : Responsive s.world.env)
    (hb : s.world.dev.chip.base = s.drv._deviceAddress) :
    ∃ rv s1, I2C_eeprom._WriteBlock fuel s memoryAddress buffer length IDPage = some (rv, s1) := by
  obtain ⟨s0, h0, -⟩ := _waitEEReady_responsive fuel s hf hr hb
  unfold I2C_eeprom._WriteBlock
  rw [h0]
  exact ⟨_, _, rfl⟩

/-- On a responsive bus with the device at the driver's main address the loop
of `_pageBlock` comes to an end within `len` passes. -/
theorem pageLoop_returns (p : Platform) (fuel : Nat) (incr IDPage : Bool) (P : Nat)
    (hP : 0 < P) (hP2 : P < 256) (hf : 0 < fuel) :
    ∀ (n : Nat) (s : Sys) (addr : Nat) (buffer : List Nat) (len : Nat),
    len ≤ n → s.drv._pageSize = P → Responsive s.world.env →
    s.world.dev.chip.base = s.drv._deviceAddress →
    ∃ rv s1, I2C_eeprom.pageLoop p fuel incr IDPage n s addr buffer len = some (rv, s1) := by
  intro n
  induction n with
  | zero =>
    intro s addr buffer len hn _ _ _
    have : len = 0 := by omega
    subst this
    exact ⟨0, s, by simp [I2C_eeprom.pageLoop]⟩
  | succ n ih =>
    intro s addr buffer len hn hPs hr hb
    simp only [I2C_eeprom.pageLoop]
    split
    · exact ⟨_, _, rfl⟩
    · rename_i hlen
      have hlen : 0 < len := Nat.pos_of_ne_zero hlen
      obtain ⟨c1, c2, -, -⟩ := pageChunk_bounds p P addr len hP hP2 hlen
      rw [hPs]
      obtain ⟨rv0, s0, hw⟩ := _WriteBlock_returns fuel s addr buffer
        (I2C_eeprom.pageChunk p P addr len) IDPage hf hr hb
      obtain ⟨f1, f2, f3, -⟩ := _WriteBlock_frame _ _ _ _ _ _ _ _ hw
      rw [hw]
      simp only
      split
      · exact ⟨_, _, rfl⟩
      · apply ih
        · omega
        · rw [f1]; exact hPs
        · rw [f2]; exact hr
        · rw [f3, f1]; exact hb

/-- C2: for every `writeBlock` or `setBlock` call that passes the two
precondition checks of `_pageBlock`, on any platform, with any address,
length and buffer and a page size of 16, 32, 64 or 128, and whatever the bus
and the device do: whenever the call returns, the `_WriteBlock` transactions
it issued (at most `length` of them) each have a length of at least 1, at
most `I2C_BUFFERSIZE` and at most `pageSize - (start mod pageSize)`, so none
crosses a page boundary; with capacity 32768, page size 64, address 40 and
length 100 the first transaction is at address 40 and has exactly 24 bytes.
On a responsive bus with the device at the driver's address the call does
return, that is, the loop comes to an end. -/
theorem C2_chunks_within_page_and_bus_limit (p : Platform) (fuel : Nat) (s : Sys)
    (address length data : Nat) (buffer : List Nat) (IDPage : Bool)
    (call : Option (Nat × Sys))
    (hcall : call = I2C_eeprom.writeBlock p fuel s address buffer length IDPage ∨
      call = I2C_eeprom.setBlock p fuel s address data length IDPage)
    (hP : s.drv._pageSize = 16 ∨ s.drv._pageSize = 32 ∨ s.drv._pageSize = 64 ∨
      s.drv._pageSize = 128)
    (hc : PassesChecks p s.drv address length IDPage) :
    (∀ rv s1, call = some (rv, s1) →
      ∃ new : List WriteRec, s1.world.writes = s.world.writes ++ new ∧ new.length ≤ length ∧
        (∀ r ∈ new, 1 ≤ r.length ∧
          r.length ≤ min (I2C_BUFFERSIZE p)
            (s.drv._pageSize - r.memoryAddress % s.drv._pageSize) ∧
          r.memoryAddress % s.drv._pageSize + r.length ≤ s.drv._pageSize) ∧
        (s.drv._deviceSize = 32768 → s.drv._pageSize = 64 → address = 40 → length = 100 →
          ∃ r rest, new = r :: rest ∧ r.memoryAddress = 40 ∧ r.length = 24)) ∧
    (0 < fuel → Responsive s.world.env → s.world.dev.chip.base = s.drv._deviceAddress →
      ∃ rv s1, call = some (rv, s1)) := by
  have hP1 : 0 < s.drv._pageSize := by omega
  have hP2 : s.drv._pageSize < 256 := by omega
  have hcall2 : ∃ (incr : Bool) (buf : List Nat),
      call = I2C_eeprom.pageLoop p fuel incr IDPage length s address buf length := by
    rcases hcall with h | h
    · refine ⟨true, buffer, ?_⟩
      rw [h]
      unfold I2C_eeprom.writeBlock I2C_eeprom._pageBlock
      simp only
      rw [if_neg hc.1, if_neg hc.2]
    · refine ⟨false, List.replicate (I2C_BUFFERSIZE p) data, ?_⟩
      rw [h]
      unfold I2C_eeprom.setBlock I2C_eeprom._pageBlock
      simp only
      rw [if_neg hc.1, if_neg hc.2]
  obtain ⟨incr, buf, hcall3⟩ := hcall2
  subst hcall3
  refine ⟨?_, ?_⟩
  · intro rv s1 h
    obtain ⟨new, h1, h2, h3, h4⟩ :=
      pageLoop_chunks p fuel incr IDPage _ hP1 hP2 length s address buf length rv s1 rfl h
    refine ⟨new, h1, h2, ?_, ?_⟩
    · intro r hr
      obtain ⟨a, b, c⟩ := h3 r hr
      have hm : r.memoryAddress % s.drv._pageSize < s.drv._pageSize := Nat.mod_lt _ hP1
      refine ⟨a, le_min b c, by omega⟩
    · intro _ hps ha hl
      obtain ⟨r, rest, e1, e2, e3⟩ := h4 (by omega)
      refine ⟨r, rest, e1, by omega, ?_⟩
      rw [e3, pageChunk_eq p _ _ _ hP1 hP2, hps, ha, hl]
      cases p <;> decide
  · intro hf hr hb
    exact pageLoop_returns p fuel incr IDPage _ hP1 hP2 hf length s address buf length
      (le_refl _) rfl hr hb

/-- C2, evaluated: on the sample device of capacity 32768 (page size 64) a
`writeBlock` of 100 bytes at address 40 returns and its first transaction has
24 bytes. -/
theorem C2_chunks_within_page_and_bus_limit_witness :
    ∃ rv s1 r rest, I2C_eeprom.writeBlock .avr 1 (sampleSys 32768 255) 40 (List.range 100) 100
        false = some (rv, s1) ∧
      s1.world.writes = r :: rest ∧ r.memoryAddress = 40 ∧ r.length = 24 := by
  have h := C2_chunks_within_page_and_bus_limit .avr 1 (sampleSys 32768 255) 40 100 0
    (List.range 100) false _ (Or.inl rfl) (by decide) (by unfold PassesChecks; decide)
  obtain ⟨rv, s1, h1⟩ := h.2 (by decide) ⟨fun _ => rfl, fun _ => le_refl _⟩ rfl
  obtain ⟨new, h2, -, -, h3⟩ := h.1 rv s1 h1
  obtain ⟨r, rest, e1, e2, e3⟩ := h3 (by decide) (by decide) rfl rfl
  refine ⟨rv, s1, r, rest, h1, ?_, e2, e3⟩
  rw [h2, e1]
  rfl

/-! ### The transactions of a read -/

theorem isConnected_bus (d : I2C_eeprom) (w : World) :
    (I2C_eeprom.isConnected d w false).2.bus = w.bus ++
      [Event.tx d._deviceAddress [] true
        (Wire.endTransmission (Wire.beginTransmission w d._deviceAddress) true).1] := by
  simp [I2C_eeprom.isConnected, Wire.endTransmission, Wire.beginTransmission]

/-- Whenever the wait returns, all it has put on the bus are probes: empty
transactions to the main address of the device. -/
theorem _waitEEReady_bus : ∀ (fuel : Nat) (s s1 : Sys),
    I2C_eeprom._waitEEReady fuel s = some s1 →
    ∃ probes : List Event, s1.world.bus = s.world.bus ++ probes ∧
      ∀ e ∈ probes, ∃ st, e = Event.tx s.drv._deviceAddress [] true st := by
  intro fuel
  induction fuel with
  | zero => intro s s1 h; simp [I2C_eeprom._waitEEReady] at h
  | succ n ih =>
    intro s s1 h
    simp only [I2C_eeprom._waitEEReady] at h
    split at h
    · split at h
      · cases h
        refine ⟨_, isConnected_bus s.drv (micros s.world).2, ?_⟩
        intro e he
        exact ⟨_, List.mem_singleton.1 he⟩
      · obtain ⟨probes, e1, e2⟩ := ih _ _ h
        refine ⟨Event.tx s.drv._deviceAddress [] true
          (Wire.endTransmission (Wire.beginTransmission (micros s.world).2
            s.drv._deviceAddress) true).1 :: probes, ?_, ?_⟩
        · rw [e1]
          show (I2C_eeprom.isConnected s.drv (micros s.world).2 false).2.bus ++ probes = _
          rw [isConnected_bus, List.append_assoc]
          rfl
        · intro e he
          rcases List.mem_cons.1 he with he | he
          · exact ⟨_, he⟩
          · exact e2 e he
    · cases h
      exact ⟨[], by simp [micros], by simp⟩

theorem readCopy_bus : ∀ (n : Nat) (w : World) (buffer : List Nat) (cnt : Nat),
    (I2C_eeprom.readCopy n w buffer cnt).2.bus = w.bus := by
  intro n
  induction n with
  | zero => intro w buffer cnt; rfl
  | succ n ih =>
    intro w buffer cnt
    simp only [I2C_eeprom.readCopy]
    rw [ih]
    unfold Wire.read
    split <;> rfl

theorem verifyCompare_bus : ∀ (n : Nat) (w : World) (buffer : List Nat) (cnt : Nat),
    (I2C_eeprom.verifyCompare n w buffer cnt).2.bus = w.bus := by
  intro n
  induction n with
  | zero => intro w buffer cnt; rfl
  | succ n ih =>
    intro w buffer cnt
    have hr : (Wire.read w).2.bus = w.bus := by
      unfold Wire.read
      split <;> rfl
    simp only [I2C_eeprom.verifyCompare]
    split
    · exact hr
    · rw [ih]; exact hr

theorem Wire.endTransmission_bus (w : World) (stop : Bool) :
    (Wire.endTransmission w stop).2.bus =
      w.bus ++ [Event.tx w.txAddress w.txBuf stop (Wire.endTransmission w stop).1] := rfl

theorem Wire.requestFrom_bus (w : World) (a q : Nat) :
    (Wire.requestFrom w a q).2.bus = w.bus ++ [Event.rx a q (Wire.requestFrom w a q).1] := rfl

/-- The request of `_ReadBlock` and `_verifyBlock` (lines 760-768 and
801-809) goes to the bus address `_beginTransmission` has chosen. -/
theorem requestFrom_address (d : I2C_eeprom) (w w0 : World) (memoryAddress q : Nat)
    (IDPage : Bool) :
    (if d._isAddressSizeTwoWords = true then
        Wire.requestFrom w (if IDPage = true then d._idPageDeviceAddress else d._deviceAddress) q
      else
        Wire.requestFrom w ((if IDPage = true then d._idPageDeviceAddress else d._deviceAddress) |||
          ((memoryAddress >>> 8) &&& 0x07)) q) =
      Wire.requestFrom w (I2C_eeprom._beginTransmission d w0 memoryAddress IDPage).txAddress q := by
  rw [_beginTransmission_eq]
  cases d._isAddressSizeTwoWords <;> simp

/-- Whenever `_ReadBlock` returns, what it has put on the bus are the probes
of the wait, then the address phase to the bus address and with the address
bytes of `_beginTransmission`, and, if that was acknowledged, one request for
`length` bytes from that same bus address. -/
theorem _ReadBlock_bus (fuel : Nat) (s : Sys) (memoryAddress : Nat) (buffer : List Nat)
    (length : Nat) (IDPage : Bool) (n : Nat) (out : List Nat) (s1 : Sys)
    (h : I2C_eeprom._ReadBlock fuel s memoryAddress buffer length IDPage = some (n, out, s1)) :
    ∃ (probes : List Event) (st : Nat),
      (∀ e ∈ probes, ∃ st1, e = Event.tx s.drv._deviceAddress [] true st1) ∧
      ((st ≠ 0 ∧ s1.world.bus = s.world.bus ++ probes ++
          [Event.tx (I2C_eeprom._beginTransmission s.drv s.world memoryAddress IDPage).txAddress
            (I2C_eeprom._beginTransmission s.drv s.world memoryAddress IDPage).txBuf false st]) ∨
       (st = 0 ∧ ∃ c, s1.world.bus = s.world.bus ++ probes ++
          [Event.tx (I2C_eeprom._beginTransmission s.drv s.world memoryAddress IDPage).txAddress
            (I2C_eeprom._beginTransmission s.drv s.world memoryAddress IDPage).txBuf false 0,
           Event.rx (I2C_eeprom._beginTransmission s.drv s.world memoryAddress IDPage).txAddress
            (length % 256) c])) := by
  unfold I2C_eeprom._ReadBlock at h
  cases hw : I2C_eeprom._waitEEReady fuel s with
  | none => simp [hw] at h
  | some s0 =>
    obtain ⟨e1, -, -, -⟩ := _waitEEReady_frame fuel s s0 hw
    obtain ⟨probes, b1, b2⟩ := _waitEEReady_bus fuel s s0 hw
    simp only [hw] at h
    rw [requestFrom_address s0.drv _ s0.world] at h
    have ha : (I2C_eeprom._beginTransmission s0.drv s0.world memoryAddress IDPage).txAddress =
        (I2C_eeprom._beginTransmission s.drv s.world memoryAddress IDPage).txAddress := by
      simp only [_beginTransmission_eq, e1]
    have hb : (I2C_eeprom._beginTransmission s0.drv s0.world memoryAddress IDPage).txBuf =
        (I2C_eeprom._beginTransmission s.drv s.world memoryAddress IDPage).txBuf := by
      simp only [_beginTransmission_eq, e1]
    refine ⟨probes, (Wire.endTransmission
      (I2C_eeprom._beginTransmission s0.drv s0.world memoryAddress IDPage) false).1, b2, ?_⟩
    split at h
    · rename_i hst
      left
      simp only [Option.some.injEq, Prod.mk.injEq] at h
      obtain ⟨-, -, hs⟩ := h
      subst hs
      refine ⟨hst, ?_⟩
      show (Wire.endTransmission _ false).2.bus = _
      rw [Wire.endTransmission_bus, ha, hb, _beginTransmission_bus, b1]
    · rename_i hst
      right
      simp only [Option.some.injEq, Prod.mk.injEq] at h
      obtain ⟨-, -, hs⟩ := h
      subst hs
      have hst0 : (Wire.endTransmission
          (I2C_eeprom._beginTransmission s0.drv s0.world memoryAddress IDPage) false).1 = 0 := by
        simpa using hst
      refine ⟨hst0, (Wire.requestFrom (Wire.endTransmission
        (I2C_eeprom._beginTransmission s0.drv s0.world memoryAddress IDPage) false).2
        (I2C_eeprom._beginTransmission s0.drv s0.world memoryAddress IDPage).txAddress
        (length % 256)).1, ?_⟩
      show (I2C_eeprom.readCopy _ _ _ _).2.bus = _
      rw [readCopy_bus, Wire.requestFrom_bus, Wire.endTransmission_bus, ha, hb,
        _beginTransmission_bus, b1, hst0]
      simp

/-- Whenever `_verifyBlock` returns, what it has put on the bus are the
probes of the wait, then the address phase to the bus address and with the
address bytes of `_beginTransmission`, and, if that was acknowledged, one
request for `length` bytes from that same bus address. -/
theorem _verifyBlock_bus (fuel : Nat) (s : Sys) (memoryAddress : Nat) (buffer : List Nat)
    (length : Nat) (IDPage : Bool) (ok : Bool) (s1 : Sys)
    (h : I2C_eeprom._verifyBlock fuel s memoryAddress buffer length IDPage = some (ok, s1)) :
    ∃ (probes : List Event) (st : Nat),
      (∀ e ∈ probes, ∃ st1, e = Event.tx s.drv._deviceAddress [] true st1) ∧
      ((st ≠ 0 ∧ s1.world.bus = s.world.bus ++ probes ++
          [Event.tx (I2C_eeprom._beginTransmission s.drv s.world memoryAddress IDPage).txAddress
            (I2C_eeprom._beginTransmission s.drv s.world memoryAddress IDPage).txBuf true st]) ∨
       (st = 0 ∧ ∃ c, s1.world.bus = s.world.bus ++ probes ++
          [Event.tx (I2C_eeprom._beginTransmission s.drv s.world memoryAddress IDPage).txAddress
            (I2C_eeprom._beginTransmission s.drv s.world memoryAddress IDPage).txBuf true 0,
           Event.rx (I2C_eeprom._beginTransmission s.drv s.world memoryAddress IDPage).txAddress
            (length % 256) c])) := by
  unfold I2C_eeprom._verifyBlock at h
  cases hw : I2C_eeprom._waitEEReady fuel s with
  | none => simp [hw] at h
  | some s0 =>
    obtain ⟨e1, -, -, -⟩ := _waitEEReady_frame fuel s s0 hw
    obtain ⟨probes, b1, b2⟩ := _waitEEReady_bus fuel s s0 hw
    simp only [hw] at h
    rw [requestFrom_address s0.drv _ s0.world] at h
    have ha : (I2C_eeprom._beginTransmission s0.drv s0.world memoryAddress IDPage).txAddress =
        (I2C_eeprom._beginTransmission s.drv s.world memoryAddress IDPage).txAddress := by
      simp only [_beginTransmission_eq, e1]
    have hb : (I2C_eeprom._beginTransmission s0.drv s0.world memoryAddress IDPage).txBuf =
        (I2C_eeprom._beginTransmission s.drv s.world memoryAddress IDPage).txBuf := by
      simp only [_beginTransmission_eq, e1]
    refine ⟨probes, (Wire.endTransmission
      (I2C_eeprom._beginTransmission s0.drv s0.world memoryAddress IDPage) true).1, b2, ?_⟩
    split at h
    · rename_i hst
      left
      simp only [Option.some.injEq, Prod.mk.injEq] at h
      obtain ⟨-, hs⟩ := h
      subst hs
      refine ⟨hst, ?_⟩
      show (Wire.endTransmission _ true).2.bus = _
      rw [Wire.endTransmission_bus, ha, hb, _beginTransmission_bus, b1]
    · rename_i hst
      right
      simp only [Option.some.injEq, Prod.mk.injEq] at h
      obtain ⟨-, hs⟩ := h
      subst hs
      have hst0 : (Wire.endTransmission
          (I2C_eeprom._beginTransmission s0.drv s0.world memoryAddress IDPage) true).1 = 0 := by
        simpa using hst
      refine ⟨hst0, (Wire.requestFrom (Wire.endTransmission
        (I2C_eeprom._beginTransmission s0.drv s0.world memoryAddress IDPage) true).2
        (I2C_eeprom._beginTransmission s0.drv s0.world memoryAddress IDPage).txAddress
        (length % 256)).1, ?_⟩
      show (I2C_eeprom.verifyCompare _ _ _ _).2.bus = _
      rw [verifyCompare_bus, Wire.requestFrom_bus, Wire.endTransmission_bus, ha, hb,
        _beginTransmission_bus, b1, hst0]
      simp

theorem shiftRight8_lt (a : Nat) (h : a < 65536) : a >>> 8 < 256 := by
  rw [Nat.shiftRight_eq_div_pow]
  omega

theorem and255_eq_mod (a : Nat) : a &&& 0xFF = a % 256 :=
  Nat.and_pow_two_sub_one_eq_mod a 8

theorem and7_eq_mod (a : Nat) : a &&& 0x07 = a % 8 :=
  Nat.and_pow_two_sub_one_eq_mod a 3

/-- C4: for every 16-bit memory address and either region,
`_beginTransmission` selects, in two-word mode, the base address of the
region as bus address and queues the address bytes
`[address >> 8, address & 0xFF]`; in one-word mode it selects
`regionBase | ((address >> 8) & 0x7)` and queues only `address & 0xFF`.
Whenever `_ReadBlock` or `_verifyBlock` returns, it has put on the bus (after
the probes of the wait) the address phase to exactly that bus address with
exactly those bytes and, if the address phase was acknowledged, one request
for bytes from that same bus address. -/
theorem C4_address_translation (d : I2C_eeprom) (w : World) (memoryAddress : Nat)
    (IDPage : Bool) (h16 : memoryAddress < 65536) :
    (d._isAddressSizeTwoWords = true →
      (I2C_eeprom._beginTransmission d w memoryAddress IDPage).txAddress =
        (if IDPage then d._idPageDeviceAddress else d._deviceAddress) ∧
      (I2C_eeprom._beginTransmission d w memoryAddress IDPage).txBuf =
        [memoryAddress >>> 8, memoryAddress &&& 0xFF]) ∧
    (d._isAddressSizeTwoWords = false →
      (I2C_eeprom._beginTransmission d w memoryAddress IDPage).txAddress =
        (if IDPage then d._idPageDeviceAddress else d._deviceAddress) |||
          ((memoryAddress >>> 8) &&& 0x7) ∧
      (I2C_eeprom._beginTransmission d w memoryAddress IDPage).txBuf =
        [memoryAddress &&& 0xFF]) ∧
    (∀ (fuel : Nat) (s : Sys) (buffer : List Nat) (length n : Nat) (out : List Nat) (s1 : Sys),
      s.drv = d →
      I2C_eeprom._ReadBlock fuel s memoryAddress buffer length IDPage = some (n, out, s1) →
      ∃ (probes : List Event) (st : Nat),
        (∀ e ∈ probes, ∃ st1, e = Event.tx d._deviceAddress [] true st1) ∧
        ((st ≠ 0 ∧ s1.world.bus = s.world.bus ++ probes ++
            [Event.tx (I2C_eeprom._beginTransmission d w memoryAddress IDPage).txAddress
              (I2C_eeprom._beginTransmission d w memoryAddress IDPage).txBuf false st]) ∨
         (st = 0 ∧ ∃ c, s1.world.bus = s.world.bus ++ probes ++
            [Event.tx (I2C_eeprom._beginTransmission d w memoryAddress IDPage).txAddress
              (I2C_eeprom._beginTransmission d w memoryAddress IDPage).txBuf false 0,
             Event.rx (I2C_eeprom._beginTransmission d w memoryAddress IDPage).txAddress
              (length % 256) c]))) ∧
    (∀ (fuel : Nat) (s : Sys) (buffer : List Nat) (length : Nat) (ok : Bool) (s1 : Sys),
      s.drv = d →
      I2C_eeprom._verifyBlock fuel s memoryAddress buffer length IDPage = some (ok, s1) →
      ∃ (probes : List Event) (st : Nat),
        (∀ e ∈ probes, ∃ st1, e = Event.tx d._deviceAddress [] true st1) ∧
        ((st ≠ 0 ∧ s1.world.bus = s.world.bus ++ probes ++
            [Event.tx (I2C_eeprom._beginTransmission d w memoryAddress IDPage).txAddress
              (I2C_eeprom._beginTransmission d w memoryAddress IDPage).txBuf true st]) ∨
         (st = 0 ∧ ∃ c, s1.world.bus = s.world.bus ++ probes ++
            [Event.tx (I2C_eeprom._beginTransmission d w memoryAddress IDPage).txAddress
              (I2C_eeprom._beginTransmission d w memoryAddress IDPage).txBuf true 0,
             Event.rx (I2C_eeprom._beginTransmission d w memoryAddress IDPage).txAddress
              (length % 256) c]))) := by
  have h1 : (memoryAddress >>> 8) % 256 = memoryAddress >>> 8 :=
    Nat.mod_eq_of_lt (shiftRight8_lt _ h16)
  have h2 : (memoryAddress &&& 0xFF) % 256 = memoryAddress &&& 0xFF := by
    rw [and255_eq_mod]; exact Nat.mod_mod _ _
  have hind : ∀ w0 : World,
      (I2C_eeprom._beginTransmission d w0 memoryAddress IDPage).txAddress =
        (I2C_eeprom._beginTransmission d w memoryAddress IDPage).txAddress ∧
      (I2C_eeprom._beginTransmission d w0 memoryAddress IDPage).txBuf =
        (I2C_eeprom._beginTransmission d w memoryAddress IDPage).txBuf := by
    intro w0
    simp only [_beginTransmission_eq, and_self]
  refine ⟨?_, ?_, ?_, ?_⟩
  · intro ht
    rw [_beginTransmission_eq]
    simp only [ht, if_true, h1, h2, and_self]
  · intro ht
    rw [_beginTransmission_eq]
    simp [ht, h2]
  · intro fuel s buffer length n out s1 hd hr
    subst hd
    have := _ReadBlock_bus fuel s memoryAddress buffer length IDPage n out s1 hr
    rw [(hind s.world).1, (hind s.world).2] at this
    exact this
  · intro fuel s buffer length ok s1 hd hr
    subst hd
    have := _verifyBlock_bus fuel s memoryAddress buffer length IDPage ok s1 hr
    rw [(hind s.world).1, (hind s.world).2] at this
    exact this

/-- C4, evaluated on the sample device of capacity 2048 (one-word mode) at
memory address 0x123 of the main array: the bus address is `80 | 1`, the only
address byte is `0x23`, and a one-byte `_ReadBlock` puts the address phase
and then one request to that bus address on the bus. -/
theorem C4_address_translation_witness :
    ((I2C_eeprom._beginTransmission (I2C_eeprom.new 80 2048 true)
        (sampleSys 2048 255).world 291 false).txAddress = 80 ||| ((291 >>> 8) &&& 0x7) ∧
      (I2C_eeprom._beginTransmission (I2C_eeprom.new 80 2048 true)
        (sampleSys 2048 255).world 291 false).txBuf = [291 &&& 0xFF]) ∧
    ∃ (n : Nat) (out : List Nat) (s1 : Sys) (probes : List Event) (st : Nat),
      I2C_eeprom._ReadBlock 1 (sampleSys 2048 255) 291 [0] 1 false = some (n, out, s1) ∧
      (∀ e ∈ probes, ∃ st1, e = Event.tx 80 [] true st1) ∧
      ((st ≠ 0 ∧ s1.world.bus = (sampleSys 2048 255).world.bus ++ probes ++
          [Event.tx (I2C_eeprom._beginTransmission (I2C_eeprom.new 80 2048 true)
              (sampleSys 2048 255).world 291 false).txAddress
            (I2C_eeprom._beginTransmission (I2C_eeprom.new 80 2048 true)
              (sampleSys 2048 255).world 291 false).txBuf false st]) ∨
       (st = 0 ∧ ∃ c, s1.world.bus = (sampleSys 2048 255).world.bus ++ probes ++
          [Event.tx (I2C_eeprom._beginTransmission (I2C_eeprom.new 80 2048 true)
              (sampleSys 2048 255).world 291 false).txAddress
            (I2C_eeprom._beginTransmission (I2C_eeprom.new 80 2048 true)
              (sampleSys 2048 255).world 291 false).txBuf false 0,
           Event.rx (I2C_eeprom._beginTransmission (I2C_eeprom.new 80 2048 true)
              (sampleSys 2048 255).world 291 false).txAddress (1 % 256) c])) := by
  have h := C4_address_translation (I2C_eeprom.new 80 2048 true) (sampleSys 2048 255).world
    291 false (by decide)
  refine ⟨h.2.1 (by decide), ?_⟩
  obtain ⟨probes, st, hp⟩ := h.2.2.1 1 (sampleSys 2048 255) [0] 1 _ _ _ rfl rfl
  exact ⟨_, _, _, probes, st, rfl, hp⟩

/-! ### The precondition checks of `_pageBlock` -/

/-- On the targets with a 32-bit `int`, and on AVR as long as
`address + length` stays below 65536, the two checks of `_pageBlock` reject,
in this order, an identification-page span beyond the page with error 11 and
a span beyond the capacity with error 12, and a rejected call returns the
state it was given: no bus transaction, no change of the stored content. -/
theorem _pageBlock_rejects (p : Platform) (fuel : Nat) (s : Sys)
    (address length : Nat) (buffer : List Nat) (incrBuffer IDPage : Bool)
    (ha : address < 65536) (hl : length < 65536)
    (hp : intBits p = 32 ∨ address + length < 65536) :
    (IDPage = true ∧ address + length > s.drv._pageSize →
      I2C_eeprom._pageBlock p fuel s address buffer length incrBuffer IDPage = some (11, s)) ∧
    (¬(IDPage = true ∧ address + length > s.drv._pageSize) →
      address + length > s.drv._deviceSize →
      I2C_eeprom._pageBlock p fuel s address buffer length incrBuffer IDPage = some (12, s)) := by
  have hm : (address + length) % 2 ^ intBits p = address + length := by
    apply Nat.mod_eq_of_lt
    rcases hp with hp | hp
    · rw [hp]
      norm_num
      omega
    · cases p <;> simp only [intBits] <;> norm_num <;> omega
  unfold I2C_eeprom._pageBlock
  simp only [hm]
  refine ⟨fun h => by rw [if_pos h], fun h1 h2 => by rw [if_neg h1, if_pos h2]⟩

/-- C3: the claim says that for every address and length an
identification-page write with `address + length > pageSize` returns error 11
and issues no bus transaction. On AVR the sum of the two `uint16_t` values is
taken modulo 65536: with capacity 32768 and page size 64, `writeBlock` at
address 65535 of length 2 on the identification page passes both checks
(the sum wraps to 1), returns 0 and issues two write transactions, at
addresses 65535 and 0, which overwrite cells 63 and 0 of the identification
page. On a target with a 32-bit `int` the same call returns 11 and leaves the
state as it was. -/
theorem C3_avr_sum_wraps_past_the_checks :
    (∃ s1, I2C_eeprom.writeBlock .avr 1 (sampleSys 32768 255) 65535 [1, 2] 2 true = some (0, s1) ∧
      s1.world.writes = [⟨65535, 1, [1], true, 0⟩, ⟨0, 1, [2], true, 0⟩] ∧
      s1.world.dev.idmem 63 = 1 ∧ s1.world.dev.idmem 0 = 2) ∧
    (sampleSys 32768 255).world.dev.idmem 63 = 255 ∧
    (I2C_eeprom.new 80 32768 true)._pageSize = 64 ∧
    (∃ s1, I2C_eeprom.writeBlock .stm32 1 (sampleSys 32768 255) 65535 [1, 2] 2 true =
      some (11, s1) ∧ s1.world.writes = [] ∧ s1.world.bus = []) := by
  refine ⟨⟨_, rfl, by decide, by decide, by decide⟩, by decide, by decide, ⟨_, rfl, by decide, by decide⟩⟩

/-! ### What a page write stores -/

theorem Device.store_bank_same (dv : Device) (r : Bool) (a b : Nat) :
    (dv.store r a b).bank r = Function.update (dv.bank r) (a % dv.span r) b := by
  cases r <;> simp [Device.store, Device.bank, Device.span]

theorem Device.store_bank_other (dv : Device) (r : Bool) (a b : Nat) :
    (dv.store r a b).bank (!r) = dv.bank (!r) := by
  cases r <;> simp [Device.store, Device.bank]

theorem Device.store_span (dv : Device) (r r1 : Bool) (a b : Nat) :
    (dv.store r a b).span r1 = dv.span r1 := by
  simp [Device.span, Device.store_chip]

/-- Inside a page the next address of a page write is the next address. -/
theorem Device.next_eq (dv : Device) (a : Nat) (h : a % dv.chip.page + 1 < dv.chip.page) :
    dv.next a = a + 1 := by
  unfold Device.next
  have hP : 1 < dv.chip.page := by omega
  have h1 : (a + 1) % dv.chip.page = a % dv.chip.page + 1 := by
    rw [Nat.add_mod, Nat.mod_eq_of_lt hP, Nat.mod_eq_of_lt h]
  rw [h1]
  have := Nat.div_add_mod a dv.chip.page
  rw [Nat.mul_comm] at this
  omega

/-- A page write that stays inside its page and inside its region stores the
data at consecutive addresses and changes no other cell. -/
theorem Device.program_bank (r : Bool) : ∀ (data : List Nat) (dv : Device) (a : Nat),
    a % dv.chip.page + data.length ≤ dv.chip.page → a + data.length ≤ dv.span r →
    (Device.program r data dv a).bank r =
      (fun x => if a ≤ x ∧ x < a + data.length then data.getD (x - a) 0 else dv.bank r x) ∧
    (Device.program r data dv a).bank (!r) = dv.bank (!r) := by
  intro data
  induction data with
  | nil =>
    intro dv a _ _
    refine ⟨?_, rfl⟩
    funext x
    have : ¬(a ≤ x ∧ x < a + ([] : List Nat).length) := by simp
    rw [if_neg this]
    rfl
  | cons b rest ih =>
    intro dv a h1 h2
    simp only [List.length_cons] at h1 h2
    simp only [Device.program]
    have ha : a % dv.span r = a := Nat.mod_eq_of_lt (by omega)
    cases rest with
    | nil =>
      simp only [Device.program]
      refine ⟨?_, Device.store_bank_other dv r a b⟩
      show (dv.store r a b).bank r = _
      rw [Device.store_bank_same, ha]
      funext x
      by_cases hx : x = a
      · subst hx
        simp
      · rw [Function.update_noteq hx]
        have : ¬(a ≤ x ∧ x < a + ([b] : List Nat).length) := by
          simp only [List.length_singleton]; omega
        rw [if_neg this]
    | cons c rest2 =>
      have hn : dv.next a = a + 1 := Device.next_eq dv a (by
        simp only [List.length_cons] at h1; omega)
      rw [hn]
      have hc : (dv.store r a b).chip = dv.chip := Device.store_chip dv r a b
      have hm : (a + 1) % dv.chip.page = a % dv.chip.page + 1 := by
        have hP : 1 < dv.chip.page := by simp only [List.length_cons] at h1; omega
        rw [Nat.add_mod, Nat.mod_eq_of_lt hP, Nat.mod_eq_of_lt (by
          simp only [List.length_cons] at h1; omega)]
      obtain ⟨i1, i2⟩ := ih (dv.store r a b) (a + 1) (by rw [hc, hm]; omega)
        (by rw [Device.store_span]; omega)
      refine ⟨?_, ?_⟩
      · rw [i1, Device.store_bank_same, ha]
        funext x
        by_cases hx : x = a
        · subst hx
          simp
        · by_cases hx2 : a + 1 ≤ x ∧ x < a + 1 + (c :: rest2).length
          · have hx3 : a ≤ x ∧ x < a + (b :: c :: rest2).length := by
              simp only [List.length_cons] at hx2 ⊢; omega
            rw [if_pos hx2, if_pos hx3]
            have : x - a = (x - (a + 1)) + 1 := by omega
            rw [this, List.getD_cons_succ]
          · have hx3 : ¬(a ≤ x ∧ x < a + (b :: c :: rest2).length) := by
              simp only [List.length_cons] at hx2 ⊢; omega
            rw [if_neg hx2, if_neg hx3, Function.update_noteq hx]
      · rw [i2, Device.store_bank_other]

/-! ### How the device decodes what the driver sends -/

theorem or_low_bits (b x : Nat) (hb : b % 8 = 0) (hx : x < 8) : b ||| x = b + x := by
  have h := Nat.mul_add_lt_is_or (i := 3) (b := x) (by simpa using hx) (b / 8)
  have hb2 : 2 ^ 3 * (b / 8) = b := by
    have := Nat.div_add_mod b 8
    norm_num
    omega
  rw [hb2] at h
  exact h.symm

theorem shiftRight8_eq_div (a : Nat) : a >>> 8 = a / 256 := by
  rw [Nat.shiftRight_eq_div_pow]

/-- The bus address `_beginTransmission` chooses for an address inside the
region selects that region on the device. -/
theorem Fit.select {d : I2C_eeprom} {dv : Device} {IDPage : Bool}
    (hf : Fit d dv.chip IDPage) (w : World) (a : Nat) (ha : a < d._deviceSize)
    (hid : IDPage = true → a < d._pageSize) :
    dv.select (I2C_eeprom._beginTransmission d w a IDPage).txAddress = some IDPage := by
  obtain ⟨⟨hbase, hidb, htw, hpage, hsize⟩, hpp, hpl, hcap, hone, hidp⟩ := hf
  rw [_beginTransmission_eq]
  unfold Device.select
  rw [htw, hbase, hidb]
  cases h2 : d._isAddressSizeTwoWords
  · obtain ⟨h8, hsmall⟩ := hone h2
    simp only [Bool.false_eq_true, if_false, shiftRight8_eq_div, and7_eq_mod]
    cases IDPage
    · simp only [Bool.false_eq_true, if_false]
      rw [or_low_bits _ _ h8 (Nat.mod_lt _ (by norm_num))]
      have : (d._deviceAddress + a / 256 % 8) / 8 = d._deviceAddress / 8 := by omega
      rw [if_pos this]
    · have hi := hidp rfl
      have ha2 := hid rfl
      simp only [if_true]
      have h0 : a / 256 % 8 = 0 := by omega
      rw [h0, hi]
      simp only [Nat.or_zero]
      rw [if_neg (by omega)]
      simp
  · simp only [if_true]
    cases IDPage
    · simp
    · have hi := hidp rfl
      simp only [if_true]
      rw [if_neg (by rw [hi]; omega)]

/-- The device decodes the address bytes `_beginTransmission` sends, followed
by `data`, into the memory address and `data`. -/
theorem Fit.decode {d : I2C_eeprom} {dv : Device} {IDPage : Bool}
    (hf : Fit d dv.chip IDPage) (w : World) (a : Nat) (data : List Nat)
    (ha : a < d._deviceSize) (hid : IDPage = true → a < d._pageSize) :
    dv.decode (I2C_eeprom._beginTransmission d w a IDPage).txAddress
      ((I2C_eeprom._beginTransmission d w a IDPage).txBuf ++ data) = some (a, data) := by
  obtain ⟨⟨hbase, hidb, htw, hpage, hsize⟩, hpp, hpl, hcap, hone, hidp⟩ := hf
  rw [_beginTransmission_eq]
  unfold Device.decode
  rw [htw]
  cases h2 : d._isAddressSizeTwoWords
  · obtain ⟨h8, hsmall⟩ := hone h2
    simp only [Bool.false_eq_true, if_false, shiftRight8_eq_div, and7_eq_mod, and255_eq_mod,
      List.singleton_append, Nat.mod_mod]
    cases IDPage
    · simp only [Bool.false_eq_true, if_false]
      rw [or_low_bits _ _ h8 (Nat.mod_lt _ (by norm_num))]
      have : (d._deviceAddress + a / 256 % 8) % 8 * 256 + a % 256 = a := by omega
      rw [this]
    · have hi := hidp rfl
      have ha2 := hid rfl
      simp only [if_true]
      have h0 : a / 256 % 8 = 0 := by omega
      rw [h0, hi]
      simp only [Nat.or_zero]
      have : (d._deviceAddress + 8) % 256 % 8 * 256 + a % 256 = a := by omega
      rw [this]
  · simp only [if_true, shiftRight8_eq_div, and255_eq_mod, Nat.mod_mod, List.cons_append,
      List.nil_append]
    have : a / 256 % 256 * 256 + a % 256 = a := by omega
    rw [this]

/-! ### Transactions with a fitting device on a responsive bus -/

theorem Fit.lastWrite {d : I2C_eeprom} {c : Chip} {IDPage : Bool} (hf : Fit d c IDPage)
    (t : Nat) : Fit { d with _lastWrite := t } c IDPage :=
  ⟨hf.attached, hf.pagePos, hf.pageLt, hf.cap, hf.oneWord, hf.idPage⟩

/-- A state that differs from a good one only in `_lastWrite` and in the
content of the device and of the transport is good. -/
theorem Good.frame {s s1 : Sys} {IDPage : Bool} (hg : Good s IDPage)
    (h1 : s1.drv = { s.drv with _lastWrite := s1.drv._lastWrite })
    (h2 : s1.world.env = s.world.env) (h3 : s1.world.dev.chip = s.world.dev.chip) :
    Good s1 IDPage := by
  unfold Good
  rw [h2, h3, h1]
  exact ⟨hg.1, hg.2.lastWrite _⟩

/-- A write transaction to a fitting device on a responsive bus is
acknowledged and is a page write of the data at the memory address. -/
theorem Wire.endTransmission_fit (d : I2C_eeprom) (w : World) (a : Nat) (IDPage : Bool)
    (data : List Nat) (stop : Bool) (hr : Responsive w.env) (hf : Fit d w.dev.chip IDPage)
    (ha : a < d._deviceSize) (hid : IDPage = true → a < d._pageSize) :
    (Wire.endTransmission (Wire.writeBytes (I2C_eeprom._beginTransmission d w a IDPage) data)
      stop).1 = 0 ∧
    (Wire.endTransmission (Wire.writeBytes (I2C_eeprom._beginTransmission d w a IDPage) data)
      stop).2.dev = Device.program IDPage data w.dev a := by
  have hs := hf.select w a ha hid
  have hd := hf.decode w a data ha hid
  simp only [Wire.endTransmission, Wire.writeBytes, _beginTransmission_dev, _beginTransmission_env,
    _beginTransmission_txn, hr.1, ne_eq, not_true_eq_false, if_false, hs, Option.isSome_some,
    if_true, Device.receive, hd, true_and]

/-- The address phase of a read: acknowledged, and it sets the address
counter of the device. -/
theorem Wire.endTransmission_fit_address (d : I2C_eeprom) (w : World) (a : Nat)
    (IDPage : Bool) (stop : Bool) (hr : Responsive w.env) (hf : Fit d w.dev.chip IDPage)
    (ha : a < d._deviceSize) (hid : IDPage = true → a < d._pageSize) :
    (Wire.endTransmission (I2C_eeprom._beginTransmission d w a IDPage) stop).1 = 0 ∧
    (Wire.endTransmission (I2C_eeprom._beginTransmission d w a IDPage) stop).2.dev =
      { w.dev with ptr := a } := by
  have h := Wire.endTransmission_fit d w a IDPage [] stop hr hf ha hid
  have e : Wire.writeBytes (I2C_eeprom._beginTransmission d w a IDPage) [] =
      I2C_eeprom._beginTransmission d w a IDPage := by
    unfold Wire.writeBytes
    simp only [List.append_nil]
  rw [e] at h
  exact h

theorem Fit.span_le {d : I2C_eeprom} {dv : Device} {IDPage : Bool}
    (hf : Fit d dv.chip IDPage) (n : Nat) (h1 : n ≤ d._deviceSize)
    (h2 : IDPage = true → n ≤ d._pageSize) : n ≤ dv.span IDPage := by
  obtain ⟨⟨-, -, -, hpage, hsize⟩, -⟩ := hf
  unfold Device.span
  cases IDPage
  · simp only [Bool.false_eq_true, if_false]; omega
  · simp only [if_true]; rw [hpage]; exact h2 rfl

/-- On a responsive bus and a fitting device, a `_WriteBlock` whose payload
stays inside one page and inside the region returns 0 and stores the payload
at consecutive addresses of the region from `memoryAddress` on; no other cell
changes. -/
theorem _WriteBlock_ok (fuel : Nat) (s : Sys) (a : Nat) (buffer : List Nat) (cnt : Nat)
    (IDPage : Bool) (hfu : 0 < fuel) (hg : Good s IDPage) (ha : a < s.drv._deviceSize)
    (hid : IDPage = true → a < s.drv._pageSize)
    (hpage : a % s.drv._pageSize + (buffer.take cnt).length ≤ s.drv._pageSize)
    (hspan : a + (buffer.take cnt).length ≤ s.drv._deviceSize)
    (hspanid : IDPage = true → a + (buffer.take cnt).length ≤ s.drv._pageSize) :
    ∃ s1, I2C_eeprom._WriteBlock fuel s a buffer cnt IDPage = some (0, s1) ∧
      s1.drv = { s.drv with _lastWrite := s1.drv._lastWrite } ∧
      s1.world.env = s.world.env ∧ s1.world.dev.chip = s.world.dev.chip ∧
      s1.world.dev.bank IDPage = (fun x =>
        if a ≤ x ∧ x < a + (buffer.take cnt).length then (buffer.take cnt).getD (x - a) 0
        else s.world.dev.bank IDPage x) ∧
      s1.world.dev.bank (!IDPage) = s.world.dev.bank (!IDPage) := by
  obtain ⟨hr, hf⟩ := hg
  obtain ⟨s0, hw, d0, v0, -, dv0⟩ := _waitEEReady_responsive fuel s hfu hr hf.attached.1
  have hr1 : Responsive (if s0.drv._autoWriteProtect = true then
      digitalWrite s0.world s0.drv._writeProtectPin false else s0.world).env := by
    rw [digitalWrite_env, v0]; exact hr
  have hf1 : Fit s0.drv (if s0.drv._autoWriteProtect = true then
      digitalWrite s0.world s0.drv._writeProtectPin false else s0.world).dev.chip IDPage := by
    rw [digitalWrite_dev, dv0, d0]; exact hf
  obtain ⟨t1, t2⟩ := Wire.endTransmission_fit s0.drv _ a IDPage (buffer.take cnt) true hr1 hf1
    (by rw [d0]; exact ha) (by rw [d0]; exact hid)
  rw [digitalWrite_dev, dv0] at t2
  have hprog := Device.program_bank IDPage (buffer.take cnt) s.world.dev a
    (by rw [hf.attached.2.2.2.1]; exact hpage) (hf.span_le _ hspan hspanid)
  cases hres : I2C_eeprom._WriteBlock fuel s a buffer cnt IDPage with
  | none =>
    unfold I2C_eeprom._WriteBlock at hres
    rw [hw] at hres
    simp at hres
  | some res =>
    obtain ⟨rv, s1⟩ := res
    obtain ⟨f1, f2, f3, -⟩ := _WriteBlock_frame _ _ _ _ _ _ _ _ hres
    unfold I2C_eeprom._WriteBlock at hres
    rw [hw] at hres
    simp only [Option.some.injEq, Prod.mk.injEq] at hres
    obtain ⟨hrv, hs⟩ := hres
    rw [t1] at hrv
    subst hrv
    refine ⟨s1, rfl, f1, f2, f3, ?_, ?_⟩
    · rw [← hs]
      simp only [micros_dev, digitalWrite_dev, t2]
      exact hprog.1
    · rw [← hs]
      simp only [micros_dev, digitalWrite_dev, t2]
      exact hprog.2

theorem getD_take (l : List Nat) (n i : Nat) (h : i < n) :
    (l.take n).getD i 0 = l.getD i 0 := by
  simp [List.getD_eq_getElem?_getD, List.getElem?_take, h]

theorem getD_drop (l : List Nat) (n i : Nat) :
    (l.drop n).getD i 0 = l.getD (n + i) 0 := by
  simp [List.getD_eq_getElem?_getD, List.getElem?_drop]

/-- Changing only `_lastWrite`, twice. -/
theorem lastWrite_trans {d d0 d1 : I2C_eeprom}
    (h0 : d0 = { d with _lastWrite := d0._lastWrite })
    (h1 : d1 = { d0 with _lastWrite := d1._lastWrite }) :
    d1 = { d with _lastWrite := d1._lastWrite } := by
  rw [h1, h0]

/-! ### A block write on a fitting device -/

/-- On a responsive bus and a fitting device the loop of `_pageBlock`, with
the buffer advancing, returns 0 and stores `buffer[0 .. len)` at the
addresses `addr .. addr + len - 1` of the region; no other cell changes. -/
theorem pageLoop_ok (p : Platform) (fuel : Nat) (IDPage : Bool) (hfu : 0 < fuel) :
    ∀ (n : Nat) (s : Sys) (addr : Nat) (buffer : List Nat) (len : Nat),
    len ≤ n → Good s IDPage → len ≤ buffer.length →
    (0 < len → addr + len ≤ s.drv._deviceSize ∧
      (IDPage = true → addr + len ≤ s.drv._pageSize)) →
    ∃ s1, I2C_eeprom.pageLoop p fuel true IDPage n s addr buffer len = some (0, s1) ∧
      s1.drv = { s.drv with _lastWrite := s1.drv._lastWrite } ∧
      s1.world.env = s.world.env ∧ s1.world.dev.chip = s.world.dev.chip ∧
      s1.world.dev.bank IDPage = (fun x =>
        if addr ≤ x ∧ x < addr + len then buffer.getD (x - addr) 0
        else s.world.dev.bank IDPage x) ∧
      s1.world.dev.bank (!IDPage) = s.world.dev.bank (!IDPage) := by
  intro n
  induction n with
  | zero =>
    intro s addr buffer len hn _ _ _
    have : len = 0 := by omega
    subst this
    refine ⟨s, by simp [I2C_eeprom.pageLoop], rfl, rfl, rfl, ?_, rfl⟩
    funext x
    rw [if_neg (by omega)]
  | succ n ih =>
    intro s addr buffer len hn hg hbuf hin
    simp only [I2C_eeprom.pageLoop]
    by_cases hlen : len = 0
    · subst hlen
      refine ⟨s, by simp, rfl, rfl, rfl, ?_, rfl⟩
      funext x
      rw [if_neg (by omega)]
    · rw [if_neg hlen]
      have hlen : 0 < len := Nat.pos_of_ne_zero hlen
      obtain ⟨hin1, hin2⟩ := hin hlen
      have hP := hg.2.pagePos
      have hP2 := hg.2.pageLt
      have hcap := hg.2.cap
      obtain ⟨c1, c2, c3, c4⟩ := pageChunk_bounds p s.drv._pageSize addr len hP hP2 hlen
      have hm : addr % s.drv._pageSize < s.drv._pageSize := Nat.mod_lt _ hP
      have htl : (buffer.take (I2C_eeprom.pageChunk p s.drv._pageSize addr len)).length =
          I2C_eeprom.pageChunk p s.drv._pageSize addr len := by
        rw [List.length_take]; omega
      obtain ⟨s0, hw, w1, w2, w3, w4, w5⟩ := _WriteBlock_ok fuel s addr buffer
        (I2C_eeprom.pageChunk p s.drv._pageSize addr len) IDPage hfu hg (by omega)
        (fun h => by have := hin2 h; omega) (by rw [htl]; omega) (by rw [htl]; omega)
        (fun h => by have := hin2 h; rw [htl]; omega)
      rw [hw]
      simp only [ne_eq, not_true_eq_false, if_false, if_true]
      have hg0 : Good s0 IDPage := hg.frame w1 w2 w3
      have hds : s0.drv._deviceSize = s.drv._deviceSize := by rw [w1]
      have hps : s0.drv._pageSize = s.drv._pageSize := by rw [w1]
      obtain ⟨s1, i0, i1, i2, i3, i4, i5⟩ := ih s0
        ((addr + I2C_eeprom.pageChunk p s.drv._pageSize addr len) % 65536)
        (buffer.drop (I2C_eeprom.pageChunk p s.drv._pageSize addr len))
        (len - I2C_eeprom.pageChunk p s.drv._pageSize addr len) (by omega) hg0
        (by rw [List.length_drop]; omega)
        (fun h => by
          have e : (addr + I2C_eeprom.pageChunk p s.drv._pageSize addr len) % 65536 =
              addr + I2C_eeprom.pageChunk p s.drv._pageSize addr len :=
            Nat.mod_eq_of_lt (by omega)
          rw [e, hds, hps]
          exact ⟨by omega, fun hi => by have := hin2 hi; omega⟩)
      refine ⟨s1, i0, lastWrite_trans w1 i1, i2.trans w2, i3.trans w3, ?_, i5.trans w5⟩
      rw [i4, w4, htl]
      funext x
      beta_reduce
      by_cases hrest : 0 < len - I2C_eeprom.pageChunk p s.drv._pageSize addr len
      · have e : (addr + I2C_eeprom.pageChunk p s.drv._pageSize addr len) % 65536 =
            addr + I2C_eeprom.pageChunk p s.drv._pageSize addr len :=
          Nat.mod_eq_of_lt (by omega)
        rw [e]
        by_cases hx : addr + I2C_eeprom.pageChunk p s.drv._pageSize addr len ≤ x ∧
            x < addr + I2C_eeprom.pageChunk p s.drv._pageSize addr len +
              (len - I2C_eeprom.pageChunk p s.drv._pageSize addr len)
        · rw [if_pos hx, if_pos (by omega), getD_drop]
          congr 1
          omega
        · rw [if_neg hx]
          by_cases hx2 : addr ≤ x ∧ x < addr + I2C_eeprom.pageChunk p s.drv._pageSize addr len
          · rw [if_pos hx2, if_pos (by omega), getD_take _ _ _ (by omega)]
          · rw [if_neg hx2, if_neg (by omega)]
      · rw [if_neg (by omega)]
        by_cases hx2 : addr ≤ x ∧ x < addr + I2C_eeprom.pageChunk p s.drv._pageSize addr len
        · rw [if_pos hx2, if_pos (by omega), getD_take _ _ _ (by omega)]
        · rw [if_neg hx2, if_neg (by omega)]

/-! ### One read transaction -/

theorem toNat_mod_256 (b : Nat) : ((b : Int) % 256).toNat = b % 256 := by
  omega

/-- The copy loop of `_ReadBlock` overwrites `n` bytes of the buffer, from
index `cnt` on, with the first `n` received bytes, and takes them out of the
receive buffer. -/
theorem readCopy_spec : ∀ (n : Nat) (w : World) (pre mid post data : List Nat),
    mid.length = n → n ≤ data.length → w.rxBuf = data →
    I2C_eeprom.readCopy n w (pre ++ mid ++ post) pre.length =
      (pre ++ (data.take n).map (· % 256) ++ post, { w with rxBuf := data.drop n }) := by
  intro n
  induction n with
  | zero =>
    intro w pre mid post data hm _ hd
    have : mid = [] := List.length_eq_zero.1 hm
    subst this
    simp [I2C_eeprom.readCopy, ← hd]
  | succ n ih =>
    intro w pre mid post data hm hn hd
    obtain ⟨m, mid1, rfl⟩ : ∃ m mid1, mid = m :: mid1 := by
      cases mid with
      | nil => simp at hm
      | cons m mid1 => exact ⟨m, mid1, rfl⟩
    obtain ⟨b, rest, rfl⟩ : ∃ b rest, data = b :: rest := by
      cases data with
      | nil => simp at hn
      | cons b rest => exact ⟨b, rest, rfl⟩
    simp only [List.length_cons, Nat.add_right_cancel_iff] at hm
    simp only [List.length_cons, Nat.add_le_add_iff_right] at hn
    have hread : Wire.read w = ((b : Int), { w with rxBuf := rest }) := by
      unfold Wire.read
      rw [hd]
    simp only [I2C_eeprom.readCopy, hread, toNat_mod_256]
    have hset : (pre ++ m :: mid1 ++ post).set pre.length (b % 256) =
        (pre ++ [b % 256]) ++ mid1 ++ post := by
      simp [List.set_append]
    rw [hset]
    have hl : pre.length + 1 = (pre ++ [b % 256]).length := by simp
    rw [hl, ih { w with rxBuf := rest } (pre ++ [b % 256]) mid1 post rest hm hn rfl]
    simp

theorem Device.cell_eq_bank (dv : Device) (r : Bool) (a : Nat) :
    dv.cell r a = dv.bank r (a % dv.span r) := by
  cases r <;> simp [Device.cell, Device.bank, Device.span]

/-- A sequential read that stays inside the region delivers the stored bytes. -/
theorem Device.fetch_eq_stored (dv : Device) (r : Bool) (n : Nat)
    (h : dv.ptr + n ≤ dv.span r) : dv.fetch r n = dv.stored r dv.ptr n := by
  unfold Device.fetch Device.stored
  apply List.map_congr_left
  intro i hi
  rw [List.mem_range] at hi
  rw [Device.cell_eq_bank, Nat.mod_eq_of_lt (by omega)]

/-- A request to a fitting device on a responsive bus delivers all the bytes
asked for, from the address counter on. -/
theorem Wire.requestFrom_fit (d : I2C_eeprom) (w w0 : World) (a : Nat) (IDPage : Bool)
    (q : Nat) (hr : Responsive w.env) (hf : Fit d w.dev.chip IDPage)
    (ha : a < d._deviceSize) (hid : IDPage = true → a < d._pageSize) (hq : q ≤ 255)
    (hspan : w.dev.ptr + q ≤ w.dev.span IDPage) :
    (Wire.requestFrom w (I2C_eeprom._beginTransmission d w0 a IDPage).txAddress q).1 = q ∧
    (Wire.requestFrom w (I2C_eeprom._beginTransmission d w0 a IDPage).txAddress q).2.rxBuf =
      w.dev.stored IDPage w.dev.ptr q ∧
    (Wire.requestFrom w (I2C_eeprom._beginTransmission d w0 a IDPage).txAddress q).2.dev =
      { w.dev with ptr := w.dev.ptr + q } := by
  have hs := hf.select w0 a ha hid
  have hl := hr.2 w.txn
  have hmin : min q (w.env.rxLimit w.txn) = q := by omega
  simp only [Wire.requestFrom, hr.1, ne_eq, not_true_eq_false, if_false, hs, hmin, true_and,
    and_true]
  exact Device.fetch_eq_stored _ _ _ hspan

@[simp] theorem Wire.requestFrom_env (w : World) (a q : Nat) :
    (Wire.requestFrom w a q).2.env = w.env := rfl

@[simp] theorem Wire.requestFrom_writes (w : World) (a q : Nat) :
    (Wire.requestFrom w a q).2.writes = w.writes := rfl

theorem Device.stored_length (dv : Device) (r : Bool) (a n : Nat) :
    (dv.stored r a n).length = n := by
  simp [Device.stored]

/-- On a responsive bus and a fitting device, a `_ReadBlock` of at most 255
bytes inside the region returns `length` and overwrites the first `length`
bytes of the buffer with the stored bytes (as bytes, modulo 256); the driver
object, the stored content and the record of writes are as before. -/
theorem _ReadBlock_ok (fuel : Nat) (s : Sys) (a : Nat) (buffer : List Nat) (cnt : Nat)
    (IDPage : Bool) (hfu : 0 < fuel) (hg : Good s IDPage) (ha : a < s.drv._deviceSize)
    (hid : IDPage = true → a < s.drv._pageSize) (hq : cnt ≤ 255)
    (hbuf : cnt ≤ buffer.length)
    (hspan : a + cnt ≤ s.drv._deviceSize)
    (hspanid : IDPage = true → a + cnt ≤ s.drv._pageSize) :
    ∃ s1, I2C_eeprom._ReadBlock fuel s a buffer cnt IDPage =
        some (cnt, (s.world.dev.stored IDPage a cnt).map (· % 256) ++ buffer.drop cnt, s1) ∧
      s1.drv = s.drv ∧ s1.world.env = s.world.env ∧ s1.world.dev.chip = s.world.dev.chip ∧
      (∀ r, s1.world.dev.bank r = s.world.dev.bank r) ∧
      s1.world.writes = s.world.writes := by
  obtain ⟨hr, hf⟩ := hg
  obtain ⟨s0, hw, d0, v0, wr0, dv0⟩ := _waitEEReady_responsive fuel s hfu hr hf.attached.1
  have hr0 : Responsive s0.world.env := by rw [v0]; exact hr
  have hf0 : Fit s0.drv s0.world.dev.chip IDPage := by rw [dv0, d0]; exact hf
  have ha0 : a < s0.drv._deviceSize := by rw [d0]; exact ha
  have hid0 : IDPage = true → a < s0.drv._pageSize := by rw [d0]; exact hid
  obtain ⟨t1, t2⟩ := Wire.endTransmission_fit_address s0.drv s0.world a IDPage false hr0 hf0
    ha0 hid0
  have hr1 : Responsive (Wire.endTransmission
      (I2C_eeprom._beginTransmission s0.drv s0.world a IDPage) false).2.env := by
    rw [Wire.endTransmission_env, _beginTransmission_env]; exact hr0
  have hf1 : Fit s0.drv (Wire.endTransmission
      (I2C_eeprom._beginTransmission s0.drv s0.world a IDPage) false).2.dev.chip IDPage := by
    rw [t2]; exact hf0
  have hsp : (Wire.endTransmission
      (I2C_eeprom._beginTransmission s0.drv s0.world a IDPage) false).2.dev.ptr + cnt ≤
      (Wire.endTransmission
      (I2C_eeprom._beginTransmission s0.drv s0.world a IDPage) false).2.dev.span IDPage := by
    rw [t2]
    show a + cnt ≤ s0.world.dev.span IDPage
    rw [dv0]
    exact hf.span_le _ hspan hspanid
  obtain ⟨q1, q2, q3⟩ := Wire.requestFrom_fit s0.drv _ s0.world a IDPage cnt hr1 hf1 ha0 hid0
    hq hsp
  rw [t2] at q2 q3
  have hc256 : cnt % 256 = cnt := Nat.mod_eq_of_lt (by omega)
  have hcopy := readCopy_spec cnt (Wire.requestFrom (Wire.endTransmission
      (I2C_eeprom._beginTransmission s0.drv s0.world a IDPage) false).2
      (I2C_eeprom._beginTransmission s0.drv s0.world a IDPage).txAddress cnt).2
    [] (buffer.take cnt) (buffer.drop cnt) _ (by rw [List.length_take]; omega)
    (by rw [Device.stored_length]) q2
  simp only [List.nil_append, List.take_append_drop, List.length_nil] at hcopy
  have hst : (({ s0.world.dev with ptr := a } : Device).stored IDPage
      ({ s0.world.dev with ptr := a } : Device).ptr cnt) = s.world.dev.stored IDPage a cnt := by
    rw [← dv0]; rfl
  rw [hst] at hcopy
  have htake : (s.world.dev.stored IDPage a cnt).take cnt = s.world.dev.stored IDPage a cnt := by
    apply List.take_of_length_le
    rw [Device.stored_length]
  rw [htake] at hcopy
  refine ⟨{ s0 with world := { (Wire.requestFrom (Wire.endTransmission
      (I2C_eeprom._beginTransmission s0.drv s0.world a IDPage) false).2
      (I2C_eeprom._beginTransmission s0.drv s0.world a IDPage).txAddress cnt).2 with
      rxBuf := (s.world.dev.stored IDPage a cnt).drop cnt } }, ?_, ?_, ?_, ?_, ?_, ?_⟩
  · unfold I2C_eeprom._ReadBlock
    rw [hw]
    simp only
    rw [requestFrom_address s0.drv _ s0.world, t1, hc256, q1, hc256, hcopy]
    simp only [ne_eq, not_true_eq_false, if_false]
  · exact d0
  · simp only [Wire.requestFrom_env, Wire.endTransmission_env, _beginTransmission_env, v0]
  · simp only [q3]
    rw [dv0]
  · intro r
    simp only [q3]
    rw [← dv0]
    rfl
  · simp only [Wire.requestFrom_writes, Wire.endTransmission_writes, _beginTransmission_writes,
      wr0]

/-! ### A block read on a fitting device -/

theorem Device.stored_split (dv : Device) (r : Bool) (a m k : Nat) :
    dv.stored r a (m + k) = dv.stored r a m ++ dv.stored r (a + m) k := by
  simp [Device.stored, List.range_add, Nat.add_assoc, Function.comp_def]

theorem Device.stored_congr (dv dv1 : Device) (h : ∀ r, dv1.bank r = dv.bank r)
    (r : Bool) (a n : Nat) : dv1.stored r a n = dv.stored r a n := by
  simp [Device.stored, h]

theorem busChunk_bounds (p : Platform) (len : Nat) (hlen : 0 < len) :
    1 ≤ I2C_eeprom.busChunk p len ∧ I2C_eeprom.busChunk p len ≤ len ∧
    I2C_eeprom.busChunk p len ≤ I2C_BUFFERSIZE p := by
  have hB := I2C_BUFFERSIZE_pos p
  unfold I2C_eeprom.busChunk
  simp only
  split_ifs <;> omega

/-- On a responsive bus and a fitting device the loop of `readBlock`
returns the number of bytes asked for and fills the buffer with the stored
bytes of the span (as bytes, modulo 256). -/
theorem readLoop_ok (p : Platform) (fuel : Nat) (IDPage : Bool) (hfu : 0 < fuel) :
    ∀ (n : Nat) (s : Sys) (addr : Nat) (buffer : List Nat) (len rv : Nat),
    len ≤ n → Good s IDPage → len ≤ buffer.length →
    (0 < len → addr + len ≤ s.drv._deviceSize ∧
      (IDPage = true → addr + len ≤ s.drv._pageSize)) →
    rv + len < 65536 →
    ∃ s1, I2C_eeprom.readLoop p fuel IDPage n s addr buffer len rv =
        some (rv + len,
          (s.world.dev.stored IDPage addr len).map (· % 256) ++ buffer.drop len, s1) ∧
      s1.drv = s.drv ∧ s1.world.env = s.world.env ∧ s1.world.dev.chip = s.world.dev.chip ∧
      (∀ r, s1.world.dev.bank r = s.world.dev.bank r) ∧
      s1.world.writes = s.world.writes := by
  intro n
  induction n with
  | zero =>
    intro s addr buffer len rv hn _ _ _ _
    have : len = 0 := by omega
    subst this
    exact ⟨s, by simp [I2C_eeprom.readLoop, Device.stored], rfl, rfl, rfl, fun _ => rfl, rfl⟩
  | succ n ih =>
    intro s addr buffer len rv hn hg hbuf hin hrv
    simp only [I2C_eeprom.readLoop]
    by_cases hlen : len = 0
    · subst hlen
      exact ⟨s, by simp [Device.stored], rfl, rfl, rfl, fun _ => rfl, rfl⟩
    · rw [if_neg hlen]
      have hlen : 0 < len := Nat.pos_of_ne_zero hlen
      obtain ⟨hin1, hin2⟩ := hin hlen
      have hcap := hg.2.cap
      obtain ⟨c1, c2, c3⟩ := busChunk_bounds p len hlen
      have hB := I2C_BUFFERSIZE_le p
      obtain ⟨s0, hw, w1, w2, w3, w4, w5⟩ := _ReadBlock_ok fuel s addr buffer
        (I2C_eeprom.busChunk p len) IDPage hfu hg (by omega)
        (fun h => by have := hin2 h; omega) (by omega) (by omega) (by omega)
        (fun h => by have := hin2 h; omega)
      rw [hw]
      simp only
      have hg0 : Good s0 IDPage := by
        unfold Good
        rw [w1, w2, w3]
        exact hg
      have hsl : ((s.world.dev.stored IDPage addr (I2C_eeprom.busChunk p len)).map
          (· % 256)).length = I2C_eeprom.busChunk p len := by
        rw [List.length_map, Device.stored_length]
      have hdrop : ((s.world.dev.stored IDPage addr (I2C_eeprom.busChunk p len)).map (· % 256) ++
          buffer.drop (I2C_eeprom.busChunk p len)).drop (I2C_eeprom.busChunk p len) =
          buffer.drop (I2C_eeprom.busChunk p len) := by
        rw [List.drop_append_of_le_length (by omega), List.drop_of_length_le (by omega)]
        simp
      have htake : ((s.world.dev.stored IDPage addr (I2C_eeprom.busChunk p len)).map (· % 256) ++
          buffer.drop (I2C_eeprom.busChunk p len)).take (I2C_eeprom.busChunk p len) =
          (s.world.dev.stored IDPage addr (I2C_eeprom.busChunk p len)).map (· % 256) := by
        rw [List.take_append_of_le_length (by omega), List.take_of_length_le (by omega)]
      rw [hdrop, htake]
      have hrv2 : (rv + I2C_eeprom.busChunk p len) % 65536 = rv + I2C_eeprom.busChunk p len :=
        Nat.mod_eq_of_lt (by omega)
      rw [hrv2]
      obtain ⟨s1, i0, i1, i2, i3, i4, i5⟩ := ih s0
        ((addr + I2C_eeprom.busChunk p len) % 65536)
        (buffer.drop (I2C_eeprom.busChunk p len))
        (len - I2C_eeprom.busChunk p len) (rv + I2C_eeprom.busChunk p len) (by omega) hg0
        (by rw [List.length_drop]; omega)
        (fun h => by
          have e : (addr + I2C_eeprom.busChunk p len) % 65536 =
              addr + I2C_eeprom.busChunk p len := Nat.mod_eq_of_lt (by omega)
          rw [e, w1]
          exact ⟨by omega, fun hi => by have := hin2 hi; omega⟩)
        (by omega)
      rw [i0]
      refine ⟨s1, ?_, i1.trans w1, i2.trans w2, i3.trans w3,
        fun r => (i4 r).trans (w4 r), i5.trans w5⟩
      simp only [Option.some.injEq, Prod.mk.injEq, and_true]
      refine ⟨by omega, ?_⟩
      rw [Device.stored_congr s.world.dev s0.world.dev w4, List.drop_drop]
      have hsum : I2C_eeprom.busChunk p len + (len - I2C_eeprom.busChunk p len) = len := by
        omega
      rw [hsum]
      rw [← List.append_assoc, ← List.map_append]
      congr 2
      by_cases hrest : 0 < len - I2C_eeprom.busChunk p len
      · have e : (addr + I2C_eeprom.busChunk p len) % 65536 =
            addr + I2C_eeprom.busChunk p len := Nat.mod_eq_of_lt (by omega)
        rw [e, ← Device.stored_split, hsum]
      · have h0 : len - I2C_eeprom.busChunk p len = 0 := by omega
        have h1 : I2C_eeprom.busChunk p len = len := by omega
        rw [h0, h1]
        simp [Device.stored]

/-! ### What the constructor establishes -/

theorem getPageSize_mem (n : Nat) :
    I2C_eeprom.getPageSize n = 16 ∨ I2C_eeprom.getPageSize n = 32 ∨
    I2C_eeprom.getPageSize n = 64 ∨ I2C_eeprom.getPageSize n = 128 := by
  unfold I2C_eeprom.getPageSize
  split_ifs <;> simp

/-- The fields the four-argument constructor sets. -/
theorem new_fields (deviceAddress deviceSize : Nat) (hasIDPage : Bool) :
    (I2C_eeprom.new deviceAddress deviceSize hasIDPage)._deviceAddress = deviceAddress ∧
    (I2C_eeprom.new deviceAddress deviceSize hasIDPage)._idPageDeviceAddress =
      (if hasIDPage then (deviceAddress + 8) % 256 else 0) ∧
    (I2C_eeprom.new deviceAddress deviceSize hasIDPage)._deviceSize =
      I2C_eeprom.setDeviceSizeLoop 32 128 0 deviceSize ∧
    (I2C_eeprom.new deviceAddress deviceSize hasIDPage)._pageSize =
      I2C_eeprom.getPageSize (I2C_eeprom.setDeviceSizeLoop 32 128 0 deviceSize) ∧
    (I2C_eeprom.new deviceAddress deviceSize hasIDPage)._isAddressSizeTwoWords =
      decide (deviceSize > 2048) := by
  cases hasIDPage <;>
    simp [I2C_eeprom.new, I2C_eeprom.setDeviceSize, I2C_DEVICESIZE_M24C16]

/-- The capacity the constructor stores is 0 or a power of two from 128 to
65536, and never above the requested size. -/
theorem new_deviceSize_le (deviceAddress deviceSize : Nat) (hasIDPage : Bool) :
    (I2C_eeprom.new deviceAddress deviceSize hasIDPage)._deviceSize ≤ 65536 ∧
    (I2C_eeprom.new deviceAddress deviceSize hasIDPage)._deviceSize ≤ deviceSize := by
  rw [(new_fields deviceAddress deviceSize hasIDPage).2.2.1]
  have h := setDeviceSizeLoop_spec 32 128 0 deviceSize (by norm_num) (by norm_num)
  by_cases hc : 128 ≤ 65536 ∧ 128 ≤ deviceSize
  · obtain ⟨j, hj, h1, h2, -⟩ := h.2 hc
    rw [hj]
    exact ⟨h1, h2⟩
  · rw [h.1 hc]
    exact ⟨by norm_num, Nat.zero_le _⟩

/-- A driver object fresh from the constructor fits every device that is
attached to it, provided that in one-word mode the three low bits of the
device address are clear, and, for the identification page, that the object
was constructed with `hasIDPage`. -/
theorem new_fit (deviceAddress deviceSize : Nat) (hasIDPage : Bool) (c : Chip)
    (IDPage : Bool)
    (hatt : Attached (I2C_eeprom.new deviceAddress deviceSize hasIDPage) c)
    (hwire : (I2C_eeprom.new deviceAddress deviceSize hasIDPage)._isAddressSizeTwoWords = false →
      deviceAddress % 8 = 0)
    (hreg : IDPage = true → hasIDPage = true) :
    Fit (I2C_eeprom.new deviceAddress deviceSize hasIDPage) c IDPage := by
  obtain ⟨f1, f2, f3, f4, f5⟩ := new_fields deviceAddress deviceSize hasIDPage
  obtain ⟨g1, g2⟩ := new_deviceSize_le deviceAddress deviceSize hasIDPage
  have hp := getPageSize_mem (I2C_eeprom.setDeviceSizeLoop 32 128 0 deviceSize)
  rw [← f4] at hp
  refine ⟨hatt, by omega, by omega, g1, ?_, ?_⟩
  · intro h2
    refine ⟨by rw [f1]; exact hwire h2, ?_⟩
    rw [f5] at h2
    simp only [gt_iff_lt, decide_eq_false_iff_not, not_lt] at h2
    omega
  · intro hi
    rw [f2, f1, hreg hi]
    rfl

/-! ### Single bytes -/

theorem readCopy_tx : ∀ (n : Nat) (w : World) (buffer : List Nat) (cnt : Nat),
    (I2C_eeprom.readCopy n w buffer cnt).2.txAddress = w.txAddress ∧
    (I2C_eeprom.readCopy n w buffer cnt).2.txBuf = w.txBuf ∧
    (I2C_eeprom.readCopy n w buffer cnt).2.dev = w.dev ∧
    (I2C_eeprom.readCopy n w buffer cnt).2.env = w.env ∧
    (I2C_eeprom.readCopy n w buffer cnt).2.txn = w.txn := by
  intro n
  induction n with
  | zero => intro w buffer cnt; exact ⟨rfl, rfl, rfl, rfl, rfl⟩
  | succ n ih =>
    intro w buffer cnt
    have hr : (Wire.read w).2.txAddress = w.txAddress ∧ (Wire.read w).2.txBuf = w.txBuf ∧
        (Wire.read w).2.dev = w.dev ∧ (Wire.read w).2.env = w.env ∧
        (Wire.read w).2.txn = w.txn := by
      unfold Wire.read
      split <;> exact ⟨rfl, rfl, rfl, rfl, rfl⟩
    simp only [I2C_eeprom.readCopy]
    obtain ⟨a1, a2, a3, a4, a5⟩ := ih (Wire.read w).2
      (buffer.set cnt ((Wire.read w).1 % 256).toNat) (cnt + 1)
    exact ⟨a1.trans hr.1, a2.trans hr.2.1, a3.trans hr.2.2.1, a4.trans hr.2.2.2.1,
      a5.trans hr.2.2.2.2⟩

/-- Whenever `_ReadBlock` returns, the transport still holds the bus address
of the address phase and an empty transmit buffer. -/
theorem _ReadBlock_tx (fuel : Nat) (s : Sys) (a : Nat) (buffer : List Nat) (length : Nat)
    (IDPage : Bool) (n : Nat) (out : List Nat) (s1 : Sys)
    (h : I2C_eeprom._ReadBlock fuel s a buffer length IDPage = some (n, out, s1)) :
    s1.world.txAddress = (I2C_eeprom._beginTransmission s.drv s.world a IDPage).txAddress ∧
    s1.world.txBuf = [] := by
  unfold I2C_eeprom._ReadBlock at h
  cases hw : I2C_eeprom._waitEEReady fuel s with
  | none => simp [hw] at h
  | some s0 =>
    obtain ⟨e1, -, -, -⟩ := _waitEEReady_frame fuel s s0 hw
    simp only [hw] at h
    rw [requestFrom_address s0.drv _ s0.world] at h
    have ha : (I2C_eeprom._beginTransmission s0.drv s0.world a IDPage).txAddress =
        (I2C_eeprom._beginTransmission s.drv s.world a IDPage).txAddress := by
      simp only [_beginTransmission_eq, e1]
    split at h
    · simp only [Option.some.injEq, Prod.mk.injEq] at h
      obtain ⟨-, -, hs⟩ := h
      subst hs
      exact ⟨ha, rfl⟩
    · simp only [Option.some.injEq, Prod.mk.injEq] at h
      obtain ⟨-, -, hs⟩ := h
      subst hs
      obtain ⟨a1, a2, -⟩ := readCopy_tx ((Wire.requestFrom (Wire.endTransmission
        (I2C_eeprom._beginTransmission s0.drv s0.world a IDPage) false).2
        (I2C_eeprom._beginTransmission s0.drv s0.world a IDPage).txAddress
        (length % 256)).1 % 256) (Wire.requestFrom (Wire.endTransmission
        (I2C_eeprom._beginTransmission s0.drv s0.world a IDPage) false).2
        (I2C_eeprom._beginTransmission s0.drv s0.world a IDPage).txAddress
        (length % 256)).2 buffer 0
      exact ⟨a1.trans ha, a2⟩

/-- On a responsive bus and a fitting device `readByte` returns the byte
stored at an address inside the region. -/
theorem readByte_ok (fuel : Nat) (s : Sys) (a : Nat) (IDPage : Bool) (rdata : Nat)
    (hfu : 0 < fuel) (hg : Good s IDPage) (ha : a < s.drv._deviceSize)
    (hid : IDPage = true → a < s.drv._pageSize) :
    ∃ s1, I2C_eeprom.readByte fuel s a IDPage rdata =
      some (s.world.dev.bank IDPage a % 256, s1) := by
  obtain ⟨s0, hw, w1, w2, w3, w4, w5⟩ := _ReadBlock_ok fuel s a [rdata] 1 IDPage hfu hg ha hid
    (by norm_num) (by simp) (by omega) (fun h => by have := hid h; omega)
  obtain ⟨t1, t2⟩ := _ReadBlock_tx _ _ _ _ _ _ _ _ _ hw
  have hsel : s0.world.dev.select s0.world.txAddress = some IDPage := by
    rw [t1]
    have hf : Fit s.drv s0.world.dev.chip IDPage := by rw [w3]; exact hg.2
    exact hf.select s.world a ha hid
  have hst : s0.world.env.status s0.world.txn = 0 := by rw [w2]; exact hg.1.1 _
  have hrv : (Wire.endTransmission s0.world true).1 = 0 := by
    simp [Wire.endTransmission, hst, hsel]
  unfold I2C_eeprom.readByte
  rw [hw]
  simp only [hrv, ne_eq, not_true_eq_false, if_false]
  refine ⟨{ drv := s0.drv, world := (Wire.endTransmission s0.world true).2 }, ?_⟩
  simp [Device.stored]

/-! ### Write, then read back -/

/-- A span inside the bounds passes both checks of `_pageBlock` on every
platform: the sum evaluated in the width of `int` is never above the sum. -/
theorem InBounds.passes {d : I2C_eeprom} {addr len : Nat} {IDPage : Bool} (p : Platform)
    (hin : InBounds d addr len IDPage) :
    PassesChecks p d addr len IDPage := by
  obtain ⟨h1, h2⟩ := hin
  have hmod : (addr + len) % 2 ^ intBits p ≤ addr + len := Nat.mod_le _ _
  refine ⟨?_, ?_⟩
  · rintro ⟨hi, hgt⟩
    have := h2 hi
    omega
  · intro hgt
    omega

theorem map_stored_after_write (f : Nat → Nat) (buffer : List Nat) (addr len : Nat)
    (hlen : buffer.length = len) (hbytes : ∀ b ∈ buffer, b < 256)
    (hf : ∀ x, addr ≤ x ∧ x < addr + len → f x = buffer.getD (x - addr) 0) :
    ((List.range len).map (fun i => f (addr + i))).map (· % 256) = buffer := by
  apply List.ext_getElem
  · simp [hlen]
  · intro i h1 h2
    simp only [List.length_map, List.length_range] at h1
    simp only [List.getElem_map, List.getElem_range]
    rw [hf (addr + i) ⟨by omega, by omega⟩]
    have e : addr + i - addr = i := by omega
    rw [e, List.getD_eq_getElem _ _ h2]
    exact Nat.mod_eq_of_lt (hbytes _ (List.getElem_mem _))

/-- On a responsive bus and a fitting device, `writeBlock` of a buffer of
bytes to a span inside the region returns 0, and `readBlock` of the span
then returns the length and the buffer. -/
theorem writeBlock_readBlock (p : Platform) (fuel : Nat) (s : Sys) (address length : Nat)
    (buffer out : List Nat) (IDPage : Bool) (hfu : 0 < fuel) (hg : Good s IDPage)
    (hin : InBounds s.drv address length IDPage) (hlen : buffer.length = length)
    (hout : out.length = length) (h16 : length < 65536) (hbytes : ∀ b ∈ buffer, b < 256) :
    ∃ s1 s2, I2C_eeprom.writeBlock p fuel s address buffer length IDPage = some (0, s1) ∧
      I2C_eeprom.readBlock p fuel s1 address out length IDPage = some (length, buffer, s2) := by
  obtain ⟨c1, c2⟩ := hin.passes p
  obtain ⟨s1, hw, d1, e1, k1, b1, -⟩ := pageLoop_ok p fuel IDPage hfu length s address buffer
    length (le_refl _) hg (by omega) (fun _ => hin)
  have hg1 : Good s1 IDPage := hg.frame d1 e1 k1
  have hsz : s1.drv._deviceSize = s.drv._deviceSize := by rw [d1]
  have hpg : s1.drv._pageSize = s.drv._pageSize := by rw [d1]
  obtain ⟨s2, hr, -⟩ := readLoop_ok p fuel IDPage hfu length s1 address out length 0
    (le_refl _) hg1 (by omega) (fun _ => by rw [hsz, hpg]; exact hin) (by omega)
  refine ⟨s1, s2, ?_, ?_⟩
  · unfold I2C_eeprom.writeBlock I2C_eeprom._pageBlock
    simp only
    rw [if_neg c1, if_neg c2]
    exact hw
  · unfold I2C_eeprom.readBlock
    rw [hr]
    have e : out.drop length = [] := List.drop_eq_nil_of_le (by omega)
    have hs : (s1.world.dev.stored IDPage address length).map (· % 256) = buffer := by
      unfold Device.stored
      apply map_stored_after_write _ buffer address length hlen hbytes
      intro x hx
      rw [b1]
      simp only [hx, and_self, if_true]
    rw [e, hs, Nat.zero_add, List.append_nil]

/-- On a responsive bus and a fitting device, `writeByte` of a byte to an
address inside the region returns 0, and `readByte` at the address then
returns the byte. -/
theorem writeByte_readByte (fuel : Nat) (s : Sys) (address data rdata : Nat) (IDPage : Bool)
    (hfu : 0 < fuel) (hg : Good s IDPage) (hin : InBounds s.drv address 1 IDPage)
    (hdata : data < 256) :
    ∃ s1 s2, I2C_eeprom.writeByte fuel s address data IDPage = some (0, s1) ∧
      I2C_eeprom.readByte fuel s1 address IDPage rdata = some (data, s2) := by
  have hP := hg.2.pagePos
  have hm : address % s.drv._pageSize < s.drv._pageSize := Nat.mod_lt _ hP
  obtain ⟨h1, h2⟩ := hin
  obtain ⟨s1, hw, d1, e1, k1, b1, -⟩ := _WriteBlock_ok fuel s address [data] 1 IDPage hfu hg
    (by omega) (fun h => by have := h2 h; omega) (by simpa using hm) (by simpa using h1)
    (fun h => by simpa using h2 h)
  have hg1 : Good s1 IDPage := hg.frame d1 e1 k1
  have hsz : s1.drv._deviceSize = s.drv._deviceSize := by rw [d1]
  have hpg : s1.drv._pageSize = s.drv._pageSize := by rw [d1]
  obtain ⟨s2, hr⟩ := readByte_ok fuel s1 address IDPage rdata hfu hg1 (by omega)
    (fun h => by have := h2 h; omega)
  refine ⟨s1, s2, hw, ?_⟩
  rw [hr, b1]
  simp [Nat.mod_eq_of_lt hdata]

/-- C1 (round trip). For a driver object fresh from the constructor (any
device address, any requested size, hence every capacity the constructor can
set), a responsive bus and a device with the geometry the object assumes
(in one-word mode a device address with its three low bits clear; for the
identification page an object constructed with `hasIDPage`), every region,
every span `address .. address + length` inside the bounds of the region and
every buffer of `length` bytes: `writeBlock` returns 0 and a following
`readBlock` of the span returns `length` and leaves exactly the buffer in the
output; and for a span of one byte, `writeByte` returns 0 and a following
`readByte` returns the byte written. -/
theorem C1_write_then_read_round_trip (p : Platform) (fuel : Nat) (s : Sys)
    (deviceAddress deviceSize : Nat) (hasIDPage IDPage : Bool) (address length : Nat)
    (buffer out : List Nat) (hfu : 0 < fuel)
    (hdrv : s.drv = I2C_eeprom.new deviceAddress deviceSize hasIDPage)
    (hr : Responsive s.world.env) (hatt : Attached s.drv s.world.dev.chip)
    (hwire : s.drv._isAddressSizeTwoWords = false → deviceAddress % 8 = 0)
    (hreg : IDPage = true → hasIDPage = true)
    (hlen : buffer.length = length) (hout : out.length = length) (h16 : length < 65536)
    (hbytes : ∀ b ∈ buffer, b < 256)
    (hin : InBounds s.drv address length IDPage) :
    (∃ s1 s2, I2C_eeprom.writeBlock p fuel s address buffer length IDPage = some (0, s1) ∧
      I2C_eeprom.readBlock p fuel s1 address out length IDPage = some (length, buffer, s2)) ∧
    (length = 1 → ∀ rdata, ∃ s1 s2,
      I2C_eeprom.writeByte fuel s address (buffer.getD 0 0) IDPage = some (0, s1) ∧
      I2C_eeprom.readByte fuel s1 address IDPage rdata = some (buffer.getD 0 0, s2)) := by
  have hf : Fit s.drv s.world.dev.chip IDPage := by
    rw [hdrv] at hatt hwire ⊢
    exact new_fit deviceAddress deviceSize hasIDPage _ IDPage hatt hwire hreg
  have hg : Good s IDPage := ⟨hr, hf⟩
  refine ⟨writeBlock_readBlock p fuel s address length buffer out IDPage hfu hg hin hlen hout
    h16 hbytes, ?_⟩
  intro h1 rdata
  subst h1
  have hb : buffer.getD 0 0 < 256 := by
    rw [List.getD_eq_getElem _ _ (by omega)]
    exact hbytes _ (List.getElem_mem _)
  exact writeByte_readByte fuel s address (buffer.getD 0 0) rdata IDPage hfu hg
    hin hb

/-- Witness for C1: on the sample device of capacity 32768 (page size 64) a
block of four bytes written at address 62, across the page boundary at 64,
reads back as written. -/
theorem C1_write_then_read_round_trip_witness :
    ∃ s1 s2, I2C_eeprom.writeBlock .avr 1 (sampleSys 32768 255) 62 [1, 2, 3, 4] 4 false =
        some (0, s1) ∧
      I2C_eeprom.readBlock .avr 1 s1 62 [0, 0, 0, 0] 4 false = some (4, [1, 2, 3, 4], s2) :=
  (C1_write_then_read_round_trip .avr 1 (sampleSys 32768 255) 80 32768 true false 62 4
    [1, 2, 3, 4] [0, 0, 0, 0] (by decide) rfl ⟨fun _ => rfl, fun _ => le_refl _⟩
    ⟨rfl, rfl, rfl, rfl, le_refl _⟩ (by decide) (by decide) rfl rfl (by decide) (by decide)
    (by unfold InBounds; decide)).1

/-! ### Verification against the stored content -/

theorem verifyCompare_frame : ∀ (n : Nat) (w : World) (buffer : List Nat) (cnt : Nat),
    (I2C_eeprom.verifyCompare n w buffer cnt).2.dev = w.dev ∧
    (I2C_eeprom.verifyCompare n w buffer cnt).2.env = w.env ∧
    (I2C_eeprom.verifyCompare n w buffer cnt).2.writes = w.writes := by
  intro n
  induction n with
  | zero => intro w buffer cnt; exact ⟨rfl, rfl, rfl⟩
  | succ n ih =>
    intro w buffer cnt
    have hr : (Wire.read w).2.dev = w.dev ∧ (Wire.read w).2.env = w.env ∧
        (Wire.read w).2.writes = w.writes := by
      unfold Wire.read
      split <;> exact ⟨rfl, rfl, rfl⟩
    simp only [I2C_eeprom.verifyCompare]
    split
    · exact hr
    · obtain ⟨a1, a2, a3⟩ := ih (Wire.read w).2 buffer (cnt + 1)
      exact ⟨a1.trans hr.1, a2.trans hr.2.1, a3.trans hr.2.2⟩

/-- The compare loop answers whether the next `n` bytes of the buffer equal
the next `n` received bytes. -/
theorem verifyCompare_spec : ∀ (n : Nat) (w : World) (buffer : List Nat) (cnt : Nat)
    (data : List Nat), w.rxBuf = data → n ≤ data.length → cnt + n ≤ buffer.length →
    (I2C_eeprom.verifyCompare n w buffer cnt).1 =
      decide (data.take n = (buffer.drop cnt).take n) := by
  intro n
  induction n with
  | zero =>
    intro w buffer cnt data _ _ _
    simp [I2C_eeprom.verifyCompare]
  | succ n ih =>
    intro w buffer cnt data hd hn hb
    obtain ⟨b, rest, rfl⟩ : ∃ b rest, data = b :: rest := by
      cases data with
      | nil => simp at hn
      | cons b rest => exact ⟨b, rest, rfl⟩
    simp only [List.length_cons, Nat.add_le_add_iff_right] at hn
    have hread : Wire.read w = ((b : Int), { w with rxBuf := rest }) := by
      unfold Wire.read
      rw [hd]
    have hlt : cnt < buffer.length := by omega
    have hdrop : buffer.drop cnt = buffer[cnt] :: buffer.drop (cnt + 1) :=
      List.drop_eq_getElem_cons hlt
    have hget : buffer.getD cnt 0 = buffer[cnt] := List.getD_eq_getElem _ _ hlt
    simp only [I2C_eeprom.verifyCompare, hread, hget, hdrop, List.take_succ_cons,
      List.cons.injEq, ne_eq, Nat.cast_inj]
    by_cases hm : buffer[cnt] = b
    · rw [if_neg (by simpa using hm)]
      rw [ih { w with rxBuf := rest } buffer (cnt + 1) rest rfl hn (by omega)]
      simp [hm]
    · rw [if_pos hm]
      have : ¬ (b = buffer[cnt]) := fun h => hm h.symm
      simp [this]

/-- On a responsive bus and a fitting device, a `_verifyBlock` of at most
255 bytes inside the region answers whether the stored bytes equal the first
`length` bytes of the buffer; the driver object, the stored content and the
record of writes are as before. -/
theorem _verifyBlock_ok (fuel : Nat) (s : Sys) (a : Nat) (buffer : List Nat) (cnt : Nat)
    (IDPage : Bool) (hfu : 0 < fuel) (hg : Good s IDPage) (ha : a < s.drv._deviceSize)
    (hid : IDPage = true → a < s.drv._pageSize) (hq : cnt ≤ 255)
    (hbuf : cnt ≤ buffer.length)
    (hspan : a + cnt ≤ s.drv._deviceSize)
    (hspanid : IDPage = true → a + cnt ≤ s.drv._pageSize) :
    ∃ s1, I2C_eeprom._verifyBlock fuel s a buffer cnt IDPage =
        some (decide (s.world.dev.stored IDPage a cnt = buffer.take cnt), s1) ∧
      s1.drv = s.drv ∧ s1.world.env = s.world.env ∧ s1.world.dev.chip = s.world.dev.chip ∧
      (∀ r, s1.world.dev.bank r = s.world.dev.bank r) ∧
      s1.world.writes = s.world.writes := by
  obtain ⟨hr, hf⟩ := hg
  obtain ⟨s0, hw, d0, v0, wr0, dv0⟩ := _waitEEReady_responsive fuel s hfu hr hf.attached.1
  have hr0 : Responsive s0.world.env := by rw [v0]; exact hr
  have hf0 : Fit s0.drv s0.world.dev.chip IDPage := by rw [dv0, d0]; exact hf
  have ha0 : a < s0.drv._deviceSize := by rw [d0]; exact ha
  have hid0 : IDPage = true → a < s0.drv._pageSize := by rw [d0]; exact hid
  obtain ⟨t1, t2⟩ := Wire.endTransmission_fit_address s0.drv s0.world a IDPage true hr0 hf0
    ha0 hid0
  have hr1 : Responsive (Wire.endTransmission
      (I2C_eeprom._beginTransmission s0.drv s0.world a IDPage) true).2.env := by
    rw [Wire.endTransmission_env, _beginTransmission_env]; exact hr0
  have hf1 : Fit s0.drv (Wire.endTransmission
      (I2C_eeprom._beginTransmission s0.drv s0.world a IDPage) true).2.dev.chip IDPage := by
    rw [t2]; exact hf0
  have hsp : (Wire.endTransmission
      (I2C_eeprom._beginTransmission s0.drv s0.world a IDPage) true).2.dev.ptr + cnt ≤
      (Wire.endTransmission
      (I2C_eeprom._beginTransmission s0.drv s0.world a IDPage) true).2.dev.span IDPage := by
    rw [t2]
    show a + cnt ≤ s0.world.dev.span IDPage
    rw [dv0]
    exact hf.span_le _ hspan hspanid
  obtain ⟨q1, q2, q3⟩ := Wire.requestFrom_fit s0.drv _ s0.world a IDPage cnt hr1 hf1 ha0 hid0
    hq hsp
  rw [t2] at q2 q3
  have hc256 : cnt % 256 = cnt := Nat.mod_eq_of_lt (by omega)
  have hst : (({ s0.world.dev with ptr := a } : Device).stored IDPage
      ({ s0.world.dev with ptr := a } : Device).ptr cnt) = s.world.dev.stored IDPage a cnt := by
    rw [← dv0]; rfl
  rw [hst] at q2
  have hcmp := verifyCompare_spec cnt (Wire.requestFrom (Wire.endTransmission
      (I2C_eeprom._beginTransmission s0.drv s0.world a IDPage) true).2
      (I2C_eeprom._beginTransmission s0.drv s0.world a IDPage).txAddress cnt).2
    buffer 0 _ q2 (by rw [Device.stored_length]) (by omega)
  have htake : (s.world.dev.stored IDPage a cnt).take cnt = s.world.dev.stored IDPage a cnt := by
    apply List.take_of_length_le
    rw [Device.stored_length]
  rw [htake, List.drop_zero] at hcmp
  obtain ⟨f1, f2, f3⟩ := verifyCompare_frame cnt (Wire.requestFrom (Wire.endTransmission
      (I2C_eeprom._beginTransmission s0.drv s0.world a IDPage) true).2
      (I2C_eeprom._beginTransmission s0.drv s0.world a IDPage).txAddress cnt).2 buffer 0
  refine ⟨{ s0 with world := (I2C_eeprom.verifyCompare cnt (Wire.requestFrom
      (Wire.endTransmission (I2C_eeprom._beginTransmission s0.drv s0.world a IDPage) true).2
      (I2C_eeprom._beginTransmission s0.drv s0.world a IDPage).txAddress cnt).2 buffer 0).2 },
      ?_, ?_, ?_, ?_, ?_, ?_⟩
  · unfold I2C_eeprom._verifyBlock
    rw [hw]
    simp only
    rw [requestFrom_address s0.drv _ s0.world, t1, hc256, q1, hc256, hcmp]
    simp only [ne_eq, not_true_eq_false, if_false]
  · exact d0
  · simp only [f2, Wire.requestFrom_env, Wire.endTransmission_env, _beginTransmission_env, v0]
  · simp only [f1, q3]
    rw [dv0]
  · intro r
    simp only [f1, q3]
    rw [← dv0]
    rfl
  · simp only [f3, Wire.requestFrom_writes, Wire.endTransmission_writes,
      _beginTransmission_writes, wr0]

theorem append_eq_append_of_length {α : Type} (a b c d : List α) (h : a.length = c.length) :
    (a ++ b = c ++ d) ↔ (a = c ∧ b = d) :=
  ⟨fun e => List.append_inj e h, fun e => by rw [e.1, e.2]⟩

/-- On a responsive bus and a fitting device the loop of `verifyBlock`
answers whether the stored bytes of the span equal the first `len` bytes of
the buffer. -/
theorem verifyLoop_ok (p : Platform) (fuel : Nat) (IDPage : Bool) (hfu : 0 < fuel) :
    ∀ (n : Nat) (s : Sys) (addr : Nat) (buffer : List Nat) (len : Nat),
    len ≤ n → Good s IDPage → len ≤ buffer.length →
    (0 < len → addr + len ≤ s.drv._deviceSize ∧
      (IDPage = true → addr + len ≤ s.drv._pageSize)) →
    ∃ s1, I2C_eeprom.verifyLoop p fuel IDPage n s addr buffer len =
        some (decide (s.world.dev.stored IDPage addr len = buffer.take len), s1) ∧
      s1.drv = s.drv ∧ s1.world.env = s.world.env ∧ s1.world.dev.chip = s.world.dev.chip ∧
      (∀ r, s1.world.dev.bank r = s.world.dev.bank r) ∧
      s1.world.writes = s.world.writes := by
  intro n
  induction n with
  | zero =>
    intro s addr buffer len hn _ _ _
    have : len = 0 := by omega
    subst this
    exact ⟨s, by simp [I2C_eeprom.verifyLoop, Device.stored], rfl, rfl, rfl, fun _ => rfl, rfl⟩
  | succ n ih =>
    intro s addr buffer len hn hg hbuf hin
    simp only [I2C_eeprom.verifyLoop]
    by_cases hlen : len = 0
    · subst hlen
      exact ⟨s, by simp [Device.stored], rfl, rfl, rfl, fun _ => rfl, rfl⟩
    · rw [if_neg hlen]
      have hlen : 0 < len := Nat.pos_of_ne_zero hlen
      obtain ⟨hin1, hin2⟩ := hin hlen
      have hcap := hg.2.cap
      obtain ⟨c1, c2, c3⟩ := busChunk_bounds p len hlen
      have hB := I2C_BUFFERSIZE_le p
      obtain ⟨s0, hw, w1, w2, w3, w4, w5⟩ := _verifyBlock_ok fuel s addr buffer
        (I2C_eeprom.busChunk p len) IDPage hfu hg (by omega)
        (fun h => by have := hin2 h; omega) (by omega) (by omega) (by omega)
        (fun h => by have := hin2 h; omega)
      rw [hw]
      simp only
      have hsum : I2C_eeprom.busChunk p len + (len - I2C_eeprom.busChunk p len) = len := by
        omega
      have hsplit : s.world.dev.stored IDPage addr len =
          s.world.dev.stored IDPage addr (I2C_eeprom.busChunk p len) ++
          s.world.dev.stored IDPage (addr + I2C_eeprom.busChunk p len)
            (len - I2C_eeprom.busChunk p len) := by
        rw [← Device.stored_split, hsum]
      have hbsplit : buffer.take len = buffer.take (I2C_eeprom.busChunk p len) ++
          (buffer.drop (I2C_eeprom.busChunk p len)).take (len - I2C_eeprom.busChunk p len) := by
        rw [← List.take_add, hsum]
      have hiff := append_eq_append_of_length
        (s.world.dev.stored IDPage addr (I2C_eeprom.busChunk p len))
        (s.world.dev.stored IDPage (addr + I2C_eeprom.busChunk p len)
            (len - I2C_eeprom.busChunk p len))
        (buffer.take (I2C_eeprom.busChunk p len))
        ((buffer.drop (I2C_eeprom.busChunk p len)).take (len - I2C_eeprom.busChunk p len))
        (by rw [Device.stored_length, List.length_take]; omega)
      by_cases hfirst : s.world.dev.stored IDPage addr (I2C_eeprom.busChunk p len) =
          buffer.take (I2C_eeprom.busChunk p len)
      · have hg0 : Good s0 IDPage := by
          unfold Good
          rw [w1, w2, w3]
          exact hg
        obtain ⟨s1, i0, i1, i2, i3, i4, i5⟩ := ih s0
          ((addr + I2C_eeprom.busChunk p len) % 65536)
          (buffer.drop (I2C_eeprom.busChunk p len))
          (len - I2C_eeprom.busChunk p len) (by omega) hg0
          (by rw [List.length_drop]; omega)
          (fun h => by
            have e : (addr + I2C_eeprom.busChunk p len) % 65536 =
                addr + I2C_eeprom.busChunk p len := Nat.mod_eq_of_lt (by omega)
            rw [e, w1]
            exact ⟨by omega, fun hi => by have := hin2 hi; omega⟩)
        refine ⟨s1, ?_, i1.trans w1, i2.trans w2, i3.trans w3,
          fun r => (i4 r).trans (w4 r), i5.trans w5⟩
        rw [if_neg (by simp [hfirst]), i0, Device.stored_congr s.world.dev s0.world.dev w4]
        simp only [Option.some.injEq, Prod.mk.injEq, and_true, decide_eq_decide]
        rw [hsplit, hbsplit, hiff]
        by_cases hrest : 0 < len - I2C_eeprom.busChunk p len
        · have e : (addr + I2C_eeprom.busChunk p len) % 65536 =
              addr + I2C_eeprom.busChunk p len := Nat.mod_eq_of_lt (by omega)
          rw [e]
          simp [hfirst]
        · have h0 : len - I2C_eeprom.busChunk p len = 0 := by omega
          have z : ∀ a, s.world.dev.stored IDPage a 0 = [] := fun a => by
            simp [Device.stored]
          rw [h0, z, z]
          simp [hfirst]
      · refine ⟨s0, ?_, w1, w2, w3, w4, w5⟩
        rw [if_pos (by simp [hfirst])]
        simp only [Option.some.injEq, Prod.mk.injEq, and_true]
        rw [hsplit, hbsplit]
        simp [hiff, hfirst]

/-- C8 (verification). On a responsive bus and a device that fits the driver
object, for every region, every span `address .. address + length` inside
the bounds of the region and every buffer of `length` bytes, `verifyBlock`
returns, and it returns true if and only if the bytes stored in the span
equal the buffer, byte for byte; this covers spans longer than
`I2C_BUFFERSIZE`, which the loop compares in several chunks. -/
theorem C8_verifyBlock_true_iff_stored_equals_buffer (p : Platform) (fuel : Nat) (s : Sys)
    (address length : Nat) (buffer : List Nat) (IDPage : Bool) (hfu : 0 < fuel)
    (hg : Good s IDPage) (hin : InBounds s.drv address length IDPage)
    (hlen : buffer.length = length) :
    ∃ ok s1, I2C_eeprom.verifyBlock p fuel s address buffer length IDPage = some (ok, s1) ∧
      (ok = true ↔ s.world.dev.stored IDPage address length = buffer) := by
  obtain ⟨s1, h, -⟩ := verifyLoop_ok p fuel IDPage hfu length s address buffer length
    (le_refl _) hg (by omega) (fun _ => hin)
  refine ⟨_, s1, h, ?_⟩
  rw [List.take_of_length_le (by omega)]
  simp

/-- Witness for C8: on the sample device of capacity 32768 holding 255 in
every cell, the hypotheses hold for a span of 40 bytes at address 10, which
on AVR (bus limit 30) is compared in two chunks. -/
theorem C8_verifyBlock_true_iff_stored_equals_buffer_witness :
    Good (sampleSys 32768 255) false ∧
    ∃ ok s1, I2C_eeprom.verifyBlock .avr 1 (sampleSys 32768 255) 10 (List.replicate 40 255) 40
        false = some (ok, s1) ∧
      (ok = true ↔ (sampleSys 32768 255).world.dev.stored false 10 40 =
        List.replicate 40 255) :=
  have hg : Good (sampleSys 32768 255) false :=
    ⟨⟨fun _ => rfl, fun _ => le_refl _⟩,
      ⟨⟨rfl, rfl, rfl, rfl, le_refl _⟩, by decide, by decide, by decide, by decide,
        by decide⟩⟩
  ⟨hg, C8_verifyBlock_true_iff_stored_equals_buffer .avr 1 (sampleSys 32768 255) 10 40
    (List.replicate 40 255) false (by decide) hg (by unfold InBounds; decide) rfl⟩

/-! ### What `updateBlock` returns under per-byte comparison -/

/-- Whenever the loop of `_pageBlock` returns, it has changed nothing of the
driver object but `_lastWrite`, and nothing of the environment and of the
geometry of the device. -/
theorem pageLoop_frame (p : Platform) (fuel : Nat) (incr IDPage : Bool) :
    ∀ (n : Nat) (s : Sys) (addr : Nat) (buffer : List Nat) (len : Nat) (rv : Nat) (s1 : Sys),
    I2C_eeprom.pageLoop p fuel incr IDPage n s addr buffer len = some (rv, s1) →
    s1.drv = { s.drv with _lastWrite := s1.drv._lastWrite } ∧
    s1.world.env = s.world.env ∧ s1.world.dev.chip = s.world.dev.chip := by
  intro n
  induction n with
  | zero =>
    intro s addr buffer len rv s1 h
    simp only [I2C_eeprom.pageLoop] at h
    split at h
    · cases h
      exact ⟨rfl, rfl, rfl⟩
    · cases h
  | succ n ih =>
    intro s addr buffer len rv s1 h
    simp only [I2C_eeprom.pageLoop] at h
    split at h
    · cases h
      exact ⟨rfl, rfl, rfl⟩
    · cases hw : I2C_eeprom._WriteBlock fuel s addr buffer
          (I2C_eeprom.pageChunk p s.drv._pageSize addr len) IDPage with
      | none => simp [hw] at h
      | some res =>
        obtain ⟨rv0, s0⟩ := res
        obtain ⟨f1, f2, f3, -⟩ := _WriteBlock_frame _ _ _ _ _ _ _ _ hw
        simp only [hw] at h
        split at h
        · cases h
          exact ⟨f1, f2, f3⟩
        · obtain ⟨g1, g2, g3⟩ := ih _ _ _ _ _ _ h
          exact ⟨lastWrite_trans f1 g1, g2.trans f2, g3.trans f3⟩

/-- On a responsive bus with the device at the driver's main address and a
page size from 1 to 255, `_pageBlock` returns; it changes nothing of the
driver object but `_lastWrite`. -/
theorem _pageBlock_returns (p : Platform) (fuel : Nat) (s : Sys) (addr : Nat)
    (buffer : List Nat) (len : Nat) (incr IDPage : Bool) (hfu : 0 < fuel)
    (hr : Responsive s.world.env) (hb : s.world.dev.chip.base = s.drv._deviceAddress)
    (hP : 0 < s.drv._pageSize) (hP2 : s.drv._pageSize < 256) :
    ∃ rv s1, I2C_eeprom._pageBlock p fuel s addr buffer len incr IDPage = some (rv, s1) ∧
      s1.drv = { s.drv with _lastWrite := s1.drv._lastWrite } ∧
      s1.world.env = s.world.env ∧ s1.world.dev.chip = s.world.dev.chip := by
  unfold I2C_eeprom._pageBlock
  simp only
  split
  · exact ⟨11, s, rfl, rfl, rfl, rfl⟩
  · split
    · exact ⟨12, s, rfl, rfl, rfl, rfl⟩
    · obtain ⟨rv, s1, h⟩ := pageLoop_returns p fuel incr IDPage s.drv._pageSize hP hP2 hfu len
        s addr buffer len (le_refl _) rfl hr hb
      exact ⟨rv, s1, h, pageLoop_frame p fuel incr IDPage _ _ _ _ _ _ _ h⟩

/-- Whenever `_ReadBlock` returns, the driver object, the environment and
the geometry of the device are as before. -/
theorem _ReadBlock_frame (fuel : Nat) (s : Sys) (a : Nat) (buffer : List Nat) (length : Nat)
    (IDPage : Bool) (n : Nat) (out : List Nat) (s1 : Sys)
    (h : I2C_eeprom._ReadBlock fuel s a buffer length IDPage = some (n, out, s1)) :
    s1.drv = s.drv ∧ s1.world.env = s.world.env ∧ s1.world.dev.chip = s.world.dev.chip := by
  unfold I2C_eeprom._ReadBlock at h
  cases hw : I2C_eeprom._waitEEReady fuel s with
  | none => simp [hw] at h
  | some s0 =>
    obtain ⟨e1, e2, -, e4⟩ := _waitEEReady_frame fuel s s0 hw
    simp only [hw] at h
    rw [requestFrom_address s0.drv _ s0.world] at h
    split at h
    · simp only [Option.some.injEq, Prod.mk.injEq] at h
      obtain ⟨-, -, hs⟩ := h
      subst hs
      refine ⟨e1, ?_, ?_⟩
      · simp only [Wire.endTransmission_env, _beginTransmission_env, e2]
      · simp only [Wire.endTransmission_chip, _beginTransmission_dev, e4]
    · simp only [Option.some.injEq, Prod.mk.injEq] at h
      obtain ⟨-, -, hs⟩ := h
      subst hs
      obtain ⟨-, -, a3, a4, -⟩ := readCopy_tx ((Wire.requestFrom (Wire.endTransmission
        (I2C_eeprom._beginTransmission s0.drv s0.world a IDPage) false).2
        (I2C_eeprom._beginTransmission s0.drv s0.world a IDPage).txAddress
        (length % 256)).1 % 256) (Wire.requestFrom (Wire.endTransmission
        (I2C_eeprom._beginTransmission s0.drv s0.world a IDPage) false).2
        (I2C_eeprom._beginTransmission s0.drv s0.world a IDPage).txAddress
        (length % 256)).2 buffer 0
      refine ⟨e1, ?_, ?_⟩
      · simp only [a4, Wire.requestFrom_env, Wire.endTransmission_env, _beginTransmission_env,
          e2]
      · simp only [a3]
        show (Wire.endTransmission
          (I2C_eeprom._beginTransmission s0.drv s0.world a IDPage) false).2.dev.chip = _
        simp only [Wire.endTransmission_chip, _beginTransmission_dev, e4]

/-- On a responsive bus with the device at the driver's main address
`_ReadBlock` returns. -/
theorem _ReadBlock_returns (fuel : Nat) (s : Sys) (a : Nat) (buffer : List Nat)
    (length : Nat) (IDPage : Bool) (hf : 0 < fuel) (hr : Responsive s.world.env)
    (hb : s.world.dev.chip.base = s.drv._deviceAddress) :
    ∃ n out s1, I2C_eeprom._ReadBlock fuel s a buffer length IDPage = some (n, out, s1) := by
  obtain ⟨s0, h0, -⟩ := _waitEEReady_responsive fuel s hf hr hb
  unfold I2C_eeprom._ReadBlock
  rw [h0]
  simp only
  split
  · exact ⟨_, _, _, rfl⟩
  · exact ⟨_, _, _, rfl⟩

theorem countP_range_succ (f : Nat → Bool) (i k : Nat) :
    (List.range (k + 1)).countP (fun j => f (i + j)) =
      (if f i = true then 1 else 0) + (List.range k).countP (fun j => f (i + 1 + j)) := by
  rw [List.range_succ_eq_map, List.countP_cons, List.countP_map]
  have e : ((fun j => f (i + j)) ∘ Nat.succ) = (fun j => f (i + 1 + j)) := by
    funext j
    simp only [Function.comp, Nat.succ_eq_add_one]
    congr 1
    omega
  rw [e, Nat.add_comm]
  simp only [Nat.add_zero]

/-- On a responsive bus the scan of `updateBlock` comes to an end, and the
bytes it has counted, written or still pending, are the indices at which the
buffer differs from `origBuf`, whatever `origBuf` holds. -/
theorem updateScan_rv (p : Platform) (fuel : Nat) (addr : Nat) (buffer origBuf : List Nat)
    (IDPage : Bool) (hfu : 0 < fuel) :
    ∀ (k i : Nat) (st : I2C_eeprom.Scan), Responsive st.sys.world.env →
    st.sys.world.dev.chip.base = st.sys.drv._deviceAddress →
    0 < st.sys.drv._pageSize → st.sys.drv._pageSize < 256 →
    st.rv + st.diffCount + k < 65536 →
    ∃ st1, I2C_eeprom.updateScan p fuel addr buffer origBuf IDPage k i st = some st1 ∧
      st1.rv + st1.diffCount = st.rv + st.diffCount +
        (List.range k).countP (fun j => decide (buffer.getD (i + j) 0 ≠ origBuf.getD (i + j) 0)) ∧
      st1.sys.drv = { st.sys.drv with _lastWrite := st1.sys.drv._lastWrite } ∧
      st1.sys.world.env = st.sys.world.env ∧
      st1.sys.world.dev.chip = st.sys.world.dev.chip := by
  intro k
  induction k with
  | zero =>
    intro i st _ _ _ _ _
    exact ⟨st, rfl, by simp, rfl, rfl, rfl⟩
  | succ k ih =>
    intro i st hr hb hP hP2 hsum
    rw [countP_range_succ (fun j => decide (buffer.getD j 0 ≠ origBuf.getD j 0)) i k]
    simp only [I2C_eeprom.updateScan]
    by_cases hd : buffer.getD i 0 ≠ origBuf.getD i 0
    · rw [if_pos hd]
      have hm : (st.diffCount + 1) % 65536 = st.diffCount + 1 := Nat.mod_eq_of_lt (by omega)
      obtain ⟨st1, h, c, f1, f2, f3⟩ := ih (i + 1)
        { st with startDiffAddr := if st.diffCount = 0 then (addr + i) % 65536
                    else st.startDiffAddr,
                  writeBuf := st.writeBuf.set st.diffCount (buffer.getD i 0),
                  diffCount := (st.diffCount + 1) % 65536 } hr hb hP hP2
        (by simp only [hm]; omega)
      refine ⟨st1, h, ?_, f1, f2, f3⟩
      rw [c]
      simp only [hm, hd, decide_True, if_true, ne_eq, not_false_eq_true]
      omega
    · rw [if_neg hd]
      by_cases hc : st.diffCount > 0
      · rw [if_pos hc]
        obtain ⟨rv0, s1, hw, g1, g2, g3⟩ := _pageBlock_returns p fuel st.sys st.startDiffAddr
          st.writeBuf st.diffCount true IDPage hfu hr hb hP hP2
        rw [hw]
        simp only
        have hm : (st.rv + st.diffCount) % 65536 = st.rv + st.diffCount :=
          Nat.mod_eq_of_lt (by omega)
        obtain ⟨st1, h, c, f1, f2, f3⟩ := ih (i + 1)
          { st with sys := s1, rv := (st.rv + st.diffCount) % 65536, diffCount := 0,
                    writeCnt := (st.writeCnt + 1) % 65536 }
          (by rw [g2]; exact hr) (by rw [g3, g1]; exact hb) (by rw [g1]; exact hP)
          (by rw [g1]; exact hP2) (by simp only [hm]; omega)
        refine ⟨st1, h, ?_, lastWrite_trans g1 f1, f2.trans g2, f3.trans g3⟩
        rw [c]
        simp only [hm, hd, decide_False, ne_eq]
        simp
      · rw [if_neg hc]
        obtain ⟨st1, h, c, f1, f2, f3⟩ := ih (i + 1) st hr hb hP hP2 (by omega)
        refine ⟨st1, h, ?_, f1, f2, f3⟩
        rw [c]
        simp only [hd, decide_False, ne_eq]
        simp

/-- On a responsive bus, under per-byte comparison, `updateBlock` returns
the number of indices below `length` at which the buffer differs from what
`_ReadBlock` left in `origBuf`. -/
theorem updateBlock_rv (p : Platform) (fuel : Nat) (s : Sys) (address : Nat)
    (buffer : List Nat) (length : Nat) (IDPage : Bool) (stack : Nat → Nat) (hfu : 0 < fuel)
    (hper : s.drv._perByteCompare = true) (hr : Responsive s.world.env)
    (hb : s.world.dev.chip.base = s.drv._deviceAddress)
    (hP : 0 < s.drv._pageSize) (hP2 : s.drv._pageSize < 256) (h16 : length < 65536) :
    ∃ n origBuf s0 s1,
      I2C_eeprom._ReadBlock fuel s address ((List.range length).map stack) (length % 256)
        IDPage = some (n, origBuf, s0) ∧
      I2C_eeprom.updateBlock p fuel s address buffer length IDPage stack =
        some ((List.range length).countP
          (fun j => decide (buffer.getD j 0 ≠ origBuf.getD j 0)), s1) ∧
      s1.drv = { s.drv with _lastWrite := s1.drv._lastWrite } ∧
      s1.world.env = s.world.env ∧ s1.world.dev.chip = s.world.dev.chip := by
  obtain ⟨n, origBuf, s0, hread⟩ := _ReadBlock_returns fuel s address
    ((List.range length).map stack) (length % 256) IDPage hfu hr hb
  obtain ⟨e1, e2, e3⟩ := _ReadBlock_frame _ _ _ _ _ _ _ _ _ hread
  obtain ⟨st, hs, c, f1, f2, f3⟩ := updateScan_rv p fuel address buffer origBuf IDPage hfu
    length 0
    { sys := s0, writeBuf := List.replicate length 0, diffCount := 0, startDiffAddr := 0,
      rv := 0, writeCnt := 0 }
    (by rw [e2]; exact hr) (by rw [e3, e1]; exact hb) (by rw [e1]; exact hP)
    (by rw [e1]; exact hP2) (by simpa using h16)
  simp only [Nat.zero_add] at c f1 f2 f3
  have hle : (List.range length).countP
      (fun j => decide (buffer.getD j 0 ≠ origBuf.getD j 0)) ≤ length := by
    have := List.countP_le_length (fun j => decide (buffer.getD j 0 ≠ origBuf.getD j 0))
      (l := List.range length)
    simpa using this
  rw [e1] at f1
  by_cases hc : st.diffCount > 0
  · obtain ⟨rv0, s2, hw, g1, g2, g3⟩ := _pageBlock_returns p fuel st.sys st.startDiffAddr
      st.writeBuf st.diffCount true IDPage hfu (by rw [f2, e2]; exact hr)
      (by rw [f3, e3, f1]; exact hb) (by rw [f1]; exact hP) (by rw [f1]; exact hP2)
    refine ⟨n, origBuf, s0, s2, hread, ?_, lastWrite_trans f1 g1, g2.trans (f2.trans e2),
      g3.trans (f3.trans e3)⟩
    unfold I2C_eeprom.updateBlock
    simp only [hper, if_true, hread, hs, hw, if_pos hc]
    rw [c, Nat.mod_eq_of_lt (by omega)]
  · refine ⟨n, origBuf, s0, st.sys, hread, ?_, f1, f2.trans e2, f3.trans e3⟩
    unfold I2C_eeprom.updateBlock
    simp only [hper, if_true, hread, hs, if_neg hc]
    have : st.diffCount = 0 := by omega
    rw [← c, this, Nat.add_zero]

/-- A `_ReadBlock` whose length is a multiple of 256 asks for no byte and
leaves the buffer as it was. -/
theorem _ReadBlock_none_requested (fuel : Nat) (s : Sys) (a : Nat) (buffer : List Nat)
    (length : Nat) (IDPage : Bool) (n : Nat) (out : List Nat) (s1 : Sys)
    (h0 : length % 256 = 0)
    (h : I2C_eeprom._ReadBlock fuel s a buffer length IDPage = some (n, out, s1)) :
    out = buffer := by
  unfold I2C_eeprom._ReadBlock at h
  cases hw : I2C_eeprom._waitEEReady fuel s with
  | none => simp [hw] at h
  | some s0 =>
    simp only [hw] at h
    rw [requestFrom_address s0.drv _ s0.world, h0] at h
    have hq : ∀ (w : World) (b : Nat), (Wire.requestFrom w b 0).1 = 0 := by
      intro w b
      unfold Wire.requestFrom
      simp only
      split
      · rfl
      · split <;> simp
    rw [hq] at h
    split at h
    · simp only [Option.some.injEq, Prod.mk.injEq] at h
      exact h.2.1.symm
    · simp only [Nat.zero_mod, I2C_eeprom.readCopy, Option.some.injEq, Prod.mk.injEq] at h
      exact h.2.1.symm

/-- On a responsive bus and a fitting device, under per-byte comparison and
for a span of at most 255 bytes inside the region, `updateBlock` returns the
number of indices at which the buffer differs from the stored bytes. -/
theorem updateBlock_rv_short (p : Platform) (fuel : Nat) (s : Sys) (address : Nat)
    (buffer : List Nat) (length : Nat) (IDPage : Bool) (stack : Nat → Nat) (hfu : 0 < fuel)
    (hper : s.drv._perByteCompare = true) (hg : Good s IDPage)
    (hin : InBounds s.drv address length IDPage) (hlen : length ≤ 255) :
    ∃ s1, I2C_eeprom.updateBlock p fuel s address buffer length IDPage stack =
      some ((List.range length).countP (fun j => decide (buffer.getD j 0 ≠
        ((s.world.dev.stored IDPage address length).map (· % 256)).getD j 0)), s1) := by
  obtain ⟨n, origBuf, s0, s1, hread, hu, -⟩ := updateBlock_rv p fuel s address buffer length
    IDPage stack hfu hper hg.1 hg.2.attached.1 hg.2.pagePos hg.2.pageLt (by omega)
  refine ⟨s1, ?_⟩
  rw [hu]
  by_cases h0 : length = 0
  · subst h0
    simp
  · obtain ⟨hin1, hin2⟩ := hin
    obtain ⟨s2, hok, -⟩ := _ReadBlock_ok fuel s address ((List.range length).map stack) length
      IDPage hfu hg (by omega) (fun h => by have := hin2 h; omega) hlen (by simp) hin1 hin2
    rw [Nat.mod_eq_of_lt (by omega), hok] at hread
    simp only [Option.some.injEq, Prod.mk.injEq] at hread
    rw [← hread.2.1, List.drop_of_length_le (by simp), List.append_nil]

/-! ### `updateBlock` with a length of 256 or more

`updateBlock` takes a 16-bit `length` and hands it to `_ReadBlock`, whose
`length` parameter is a `uint8_t` (line 247). For `length = 256` the read
asks for 0 bytes and the local array `origBuf` keeps its indeterminate
content, with which the buffer is then compared. -/

theorem countP_getD_map_range (f : Nat → Nat → Bool) (stack : Nat → Nat) (n : Nat) :
    (List.range n).countP (fun j => f j (((List.range n).map stack).getD j 0)) =
      (List.range n).countP (fun j => f j (stack j)) := by
  apply List.countP_congr
  intro j hj
  rw [List.mem_range] at hj
  have e : ((List.range n).map stack).getD j 0 = stack j := by
    rw [List.getD_eq_getElem _ _ (by simpa using hj)]
    simp
  rw [e]

theorem countP_getD_replicate (f : Nat → Nat → Bool) (b n : Nat) :
    (List.range n).countP (fun j => f j ((List.replicate n b).getD j 0)) =
      (List.range n).countP (fun j => f j b) := by
  apply List.countP_congr
  intro j hj
  rw [List.mem_range] at hj
  have e : (List.replicate n b).getD j 0 = b := by
    rw [List.getD_eq_getElem _ _ (by simpa using hj)]
    simp
  rw [e]

/-- With a length that is a multiple of 256, on a responsive bus,
`updateBlock` returns the number of indices at which the buffer differs from
the indeterminate content of `origBuf`; the stored bytes play no part. -/
theorem updateBlock_rv_256 (p : Platform) (fuel : Nat) (s : Sys) (address : Nat)
    (buffer : List Nat) (length : Nat) (IDPage : Bool) (stack : Nat → Nat) (hfu : 0 < fuel)
    (hper : s.drv._perByteCompare = true) (hr : Responsive s.world.env)
    (hb : s.world.dev.chip.base = s.drv._deviceAddress)
    (hP : 0 < s.drv._pageSize) (hP2 : s.drv._pageSize < 256)
    (h0 : length % 256 = 0) (h16 : length < 65536) :
    ∃ s1, I2C_eeprom.updateBlock p fuel s address buffer length IDPage stack =
        some ((List.range length).countP (fun j => decide (buffer.getD j 0 ≠ stack j)), s1) ∧
      s1.drv = { s.drv with _lastWrite := s1.drv._lastWrite } ∧
      s1.world.env = s.world.env ∧ s1.world.dev.chip = s.world.dev.chip := by
  obtain ⟨n, origBuf, s0, s1, hread, hu, f⟩ := updateBlock_rv p fuel s address buffer length
    IDPage stack hfu hper hr hb hP hP2 h16
  have ho := _ReadBlock_none_requested _ _ _ _ _ _ _ _ _ (by rw [Nat.mod_mod]; exact h0) hread
  refine ⟨s1, ?_, f⟩
  rw [hu, ho, countP_getD_map_range (fun j x => decide (buffer.getD j 0 ≠ x)) stack length]

set_option maxRecDepth 100000 in
/-- C5: the claim says that for every 16-bit length `updateBlock` reads the
full target range and returns the number of indices at which the buffer
differs from the stored bytes. With 256 stored bytes 255 at address 100 and
a buffer of 256 bytes 7 all 256 indices differ. On every platform and
whatever the local array `origBuf` holds before the call, `updateBlock` with
length 256 returns the number of indices at which `origBuf` is not 7; with an
`origBuf` that holds 7 everywhere it asks the device for 0 bytes, returns 0
and writes nothing. -/
theorem C5_updateBlock_length_256_reads_nothing (p : Platform) (stack : Nat → Nat) :
    (sampleSys 32768 255).world.dev.stored false 100 256 = List.replicate 256 255 ∧
    (∃ s1, I2C_eeprom.updateBlock p 1 (sampleSys 32768 255) 100 (List.replicate 256 7) 256
        false stack =
      some ((List.range 256).countP (fun j => decide (stack j ≠ 7)), s1)) ∧
    (I2C_eeprom.updateBlock p 1 (sampleSys 32768 255) 100 (List.replicate 256 7) 256 false
      (fun _ => 7)).map (fun r => (r.1, r.2.world.writes, r.2.world.bus)) =
    some (0, [], [Event.tx 80 [] true 0, Event.tx 80 [0, 100] false 0, Event.rx 80 0 0]) := by
  refine ⟨by decide, ?_, by cases p <;> decide⟩
  obtain ⟨s1, h, -⟩ := updateBlock_rv_256 p 1 (sampleSys 32768 255) 100 (List.replicate 256 7)
    256 false stack (by decide) rfl ⟨fun _ => rfl, fun _ => le_refl _⟩ rfl (by decide)
    (by decide) (by decide) (by decide)
  refine ⟨s1, ?_⟩
  rw [h, countP_getD_replicate (fun j x => decide (x ≠ stack j)) 7 256]
  simp only [ne_eq, eq_comm]

set_option maxRecDepth 100000 in
/-- C6: the scenario of the claim holds: with 10 stored bytes 255 and a
buffer that differs only at index 5 (0x42), `updateBlock` returns 1 and
issues one write, of the byte 0x42 at address + 5. The general statement
fails for a length of 256: with 256 stored bytes 255 and a buffer of 256
bytes 255 no byte differs and there is no run, yet with a local array
`origBuf` whose indeterminate content is 255 except for a 0 at index 3,
`updateBlock` returns 1 and transmits the byte at index 3, which did not
differ. -/
theorem C6_updateBlock_length_256_writes_equal_byte :
    (I2C_eeprom.updateBlock .avr 1 (sampleSys 32768 255) 100
      ((List.replicate 10 255).set 5 66) 10 false
      (fun _ => 0)).map (fun r => (r.1, r.2.world.writes)) =
      some (1, [⟨105, 1, [66], false, 0⟩]) ∧
    (sampleSys 32768 255).world.dev.stored false 100 256 = List.replicate 256 255 ∧
    (I2C_eeprom.updateBlock .avr 1 (sampleSys 32768 255) 100 (List.replicate 256 255) 256 false
      (fun i => if i = 3 then 0 else 255)).map (fun r => (r.1, r.2.world.writes)) =
      some (1, [⟨103, 1, [255], false, 0⟩]) := by
  decide

set_option maxRecDepth 100000 in
/-- C7: the claim says that the second of two `updateBlock` calls with the
same arguments returns 0 and issues no write. With 256 stored bytes 255 at
address 100, a buffer of 256 bytes 9 and length 256, on every platform and
whatever the local array `origBuf` holds before each of the two calls, the
second call returns the number of indices at which its `origBuf` is not 9,
whatever the first call has stored. With an `origBuf` that in both calls
holds 9 except for a 0 at index 3, the first call returns 1 and writes one
byte at address 103, and the second call returns 1 and writes that byte
again. -/
theorem C7_updateBlock_length_256_second_call_writes (p : Platform)
    (stack1 stack2 : Nat → Nat) :
    (∃ rv1 s1 s2, I2C_eeprom.updateBlock p 1 (sampleSys 32768 255) 100 (List.replicate 256 9)
        256 false stack1 = some (rv1, s1) ∧
      I2C_eeprom.updateBlock p 1 s1 100 (List.replicate 256 9) 256 false stack2 =
        some ((List.range 256).countP (fun j => decide (stack2 j ≠ 9)), s2)) ∧
    (I2C_eeprom.updateBlock .avr 1 (sampleSys 32768 255) 100 (List.replicate 256 9) 256 false
      (fun i => if i = 3 then 0 else 9)).bind (fun r =>
        (I2C_eeprom.updateBlock .avr 1 r.2 100 (List.replicate 256 9) 256 false
          (fun i => if i = 3 then 0 else 9)).map (fun r2 =>
            (r.1, r.2.world.writes, r2.1, r2.2.world.writes.drop r.2.world.writes.length))) =
      some (1, [⟨103, 1, [9], false, 0⟩], 1, [⟨103, 1, [9], false, 0⟩]) := by
  refine ⟨?_, by decide⟩
  obtain ⟨s1, h1, d1, e1, c1⟩ := updateBlock_rv_256 p 1 (sampleSys 32768 255) 100
    (List.replicate 256 9) 256 false stack1 (by decide) rfl
    ⟨fun _ => rfl, fun _ => le_refl _⟩ rfl (by decide) (by decide) (by decide) (by decide)
  obtain ⟨s2, h2, -⟩ := updateBlock_rv_256 p 1 s1 100 (List.replicate 256 9) 256 false stack2
    (by decide) (by rw [d1]; rfl) (by rw [e1]; exact ⟨fun _ => rfl, fun _ => le_refl _⟩)
    (by rw [c1, d1]; rfl)
    (by rw [d1]; show 0 < (sampleSys 32768 255).drv._pageSize; decide)
    (by rw [d1]; show (sampleSys 32768 255).drv._pageSize < 256; decide)
    (by decide) (by decide)
  refine ⟨_, s1, s2, h1, ?_⟩
  rw [h2, countP_getD_replicate (fun j x => decide (x ≠ stack2 j)) 9 256]
  simp only [ne_eq, eq_comm]

/-! ### What `updateBlock` stores, for lengths up to 255 -/

/-- On a responsive bus and a fitting device, `_pageBlock` with the buffer
advancing, for a span inside the region, returns 0 and stores the first
`len` bytes of the buffer in the span; no other cell changes. -/
theorem _pageBlock_ok (p : Platform) (fuel : Nat) (s : Sys) (addr : Nat) (buffer : List Nat)
    (len : Nat) (IDPage : Bool) (hfu : 0 < fuel) (hg : Good s IDPage)
    (hin : InBounds s.drv addr len IDPage) (hlen : len ≤ buffer.length) :
    ∃ s1, I2C_eeprom._pageBlock p fuel s addr buffer len true IDPage = some (0, s1) ∧
      s1.drv = { s.drv with _lastWrite := s1.drv._lastWrite } ∧
      s1.world.env = s.world.env ∧ s1.world.dev.chip = s.world.dev.chip ∧
      s1.world.dev.bank IDPage = (fun x =>
        if addr ≤ x ∧ x < addr + len then buffer.getD (x - addr) 0
        else s.world.dev.bank IDPage x) ∧
      s1.world.dev.bank (!IDPage) = s.world.dev.bank (!IDPage) := by
  obtain ⟨c1, c2⟩ := hin.passes p
  obtain ⟨s1, hw, h⟩ := pageLoop_ok p fuel IDPage hfu len s addr buffer len (le_refl _) hg hlen
    (fun _ => hin)
  refine ⟨s1, ?_, h⟩
  unfold I2C_eeprom._pageBlock
  simp only
  rw [if_neg c1, if_neg c2]
  exact hw

/-- The scan of `updateBlock` keeps its invariant and comes to an end. -/
theorem updateScan_inv (p : Platform) (fuel : Nat) (d0 : I2C_eeprom) (bank0 other0 : Nat → Nat)
    (addr : Nat) (buffer origBuf : List Nat) (n : Nat) (IDPage : Bool) (hfu : 0 < fuel)
    (hn : addr + n ≤ d0._deviceSize) (hnid : IDPage = true → addr + n ≤ d0._pageSize)
    (h16 : n < 65536)
    (hsame : ∀ j, j < n → buffer.getD j 0 = origBuf.getD j 0 →
      bank0 (addr + j) = buffer.getD j 0) :
    ∀ (k i : Nat) (st : I2C_eeprom.Scan), i + k = n →
    ScanInv d0 bank0 other0 addr buffer n IDPage i st →
    ∃ st1, I2C_eeprom.updateScan p fuel addr buffer origBuf IDPage k i st = some st1 ∧
      ScanInv d0 bank0 other0 addr buffer n IDPage n st1 := by
  intro k
  induction k with
  | zero =>
    intro i st hik hinv
    have : i = n := by omega
    subst this
    exact ⟨st, rfl, hinv⟩
  | succ k ih =>
    intro i st hik hinv
    obtain ⟨hg, hd, hpend, hroom, hstart, hrun, hbank, hother⟩ := hinv
    have hsz : st.sys.drv._deviceSize = d0._deviceSize := by rw [hd]
    have hpg : st.sys.drv._pageSize = d0._pageSize := by rw [hd]
    have hcap := hg.2.cap
    simp only [I2C_eeprom.updateScan]
    by_cases hdiff : buffer.getD i 0 ≠ origBuf.getD i 0
    · rw [if_pos hdiff]
      have hm : (st.diffCount + 1) % 65536 = st.diffCount + 1 := Nat.mod_eq_of_lt (by omega)
      apply ih (i + 1) _ (by omega)
      refine ⟨hg, hd, ?_, ?_, ?_, ?_, ?_, hother⟩
      · simp only [hm]; omega
      · simp only [List.length_set]; exact hroom
      · intro _
        simp only [hm]
        by_cases h0 : st.diffCount = 0
        · rw [if_pos h0, h0, Nat.mod_eq_of_lt (by omega)]
          omega
        · rw [if_neg h0, hstart (by omega)]
          omega
      · intro j hj
        simp only [hm] at hj ⊢
        by_cases hjd : j = st.diffCount
        · subst hjd
          rw [List.getD_eq_getElem _ _ (by rw [List.length_set]; omega)]
          simp only [List.getElem_set_self]
          congr 1
          omega
        · have hlt : j < st.diffCount := by omega
          rw [List.getD_eq_getElem?_getD, List.getElem?_set_ne (by omega),
            ← List.getD_eq_getElem?_getD, hrun j hlt]
          congr 1
          omega
      · simp only [hm]
        rw [hbank]
        have e : i + 1 - (st.diffCount + 1) = i - st.diffCount := by omega
        rw [e]
    · rw [if_neg hdiff]
      have heq : buffer.getD i 0 = origBuf.getD i 0 := by
        by_contra h
        exact hdiff h
      have hcell : bank0 (addr + i) = buffer.getD i 0 := hsame i (by omega) heq
      by_cases hc : st.diffCount > 0
      · rw [if_pos hc]
        have hs := hstart hc
        obtain ⟨s1, hw, g1, g2, g3, g4, g5⟩ := _pageBlock_ok p fuel st.sys st.startDiffAddr
          st.writeBuf st.diffCount IDPage hfu hg
          ⟨by rw [hsz, hs]; omega, fun h => by rw [hpg, hs]; have := hnid h; omega⟩
          (by omega)
        rw [hw]
        simp only
        apply ih (i + 1) _ (by omega)
        refine ⟨hg.frame g1 g2 g3, lastWrite_trans hd g1, Nat.zero_le _, hroom,
          fun h => absurd h (Nat.lt_irrefl 0), fun j hj => absurd hj (Nat.not_lt_zero j), ?_,
          g5.trans hother⟩
        simp only [Nat.sub_zero]
        rw [g4, hbank, hs]
        funext x
        beta_reduce
        by_cases hx1 : addr + (i - st.diffCount) ≤ x ∧ x < addr + (i - st.diffCount) + st.diffCount
        · rw [if_pos hx1, if_pos ⟨by omega, by omega⟩, hrun _ (by omega)]
          congr 1
          omega
        · rw [if_neg hx1]
          by_cases hx2 : addr ≤ x ∧ x < addr + (i - st.diffCount)
          · rw [if_pos hx2, if_pos ⟨by omega, by omega⟩]
          · rw [if_neg hx2]
            by_cases hx3 : x = addr + i
            · rw [if_pos ⟨by omega, by omega⟩, hx3, hcell]
              congr 1
              omega
            · rw [if_neg (by omega)]
      · rw [if_neg hc]
        have h0 : st.diffCount = 0 := by omega
        apply ih (i + 1) _ (by omega)
        refine ⟨hg, hd, by omega, hroom, fun h => absurd h hc,
          fun j hj => absurd hj (by omega), ?_, hother⟩
        rw [hbank, h0]
        funext x
        beta_reduce
        simp only [Nat.sub_zero]
        by_cases hx2 : addr ≤ x ∧ x < addr + i
        · rw [if_pos hx2, if_pos ⟨by omega, by omega⟩]
        · rw [if_neg hx2]
          by_cases hx3 : x = addr + i
          · rw [if_pos ⟨by omega, by omega⟩, hx3, hcell]
            congr 1
            omega
          · rw [if_neg (by omega)]

/-- On a responsive bus and a fitting device whose cells hold bytes, under
per-byte comparison and for a span of 1 to 255 bytes inside the region,
`updateBlock` returns the number of indices at which the buffer differs from
the stored bytes and leaves the bytes of the buffer in the span; no other
cell changes. -/
theorem updateBlock_ok_short (p : Platform) (fuel : Nat) (s : Sys) (address : Nat)
    (buffer : List Nat) (length : Nat) (IDPage : Bool) (stack : Nat → Nat) (hfu : 0 < fuel)
    (hper : s.drv._perByteCompare = true) (hg : Good s IDPage)
    (hin : InBounds s.drv address length IDPage) (hpos : 0 < length) (hlen : length ≤ 255)
    (hcells : ∀ j, j < length → s.world.dev.bank IDPage (address + j) < 256) :
    ∃ s1, I2C_eeprom.updateBlock p fuel s address buffer length IDPage stack =
        some ((List.range length).countP (fun j => decide (buffer.getD j 0 ≠
          ((s.world.dev.stored IDPage address length).map (· % 256)).getD j 0)), s1) ∧
      Good s1 IDPage ∧ s1.drv = { s.drv with _lastWrite := s1.drv._lastWrite } ∧
      s1.world.dev.bank IDPage = (fun x =>
        if address ≤ x ∧ x < address + length then buffer.getD (x - address) 0
        else s.world.dev.bank IDPage x) ∧
      s1.world.dev.bank (!IDPage) = s.world.dev.bank (!IDPage) := by
  obtain ⟨s9, hrv⟩ := updateBlock_rv_short p fuel s address buffer length IDPage stack hfu hper
    hg hin hlen
  obtain ⟨hin1, hin2⟩ := hin
  obtain ⟨s0, hread, w1, w2, w3, w4, -⟩ := _ReadBlock_ok fuel s address
    ((List.range length).map stack) length IDPage hfu hg (by omega)
    (fun h => by have := hin2 h; omega) hlen (by simp) hin1 hin2
  rw [List.drop_of_length_le (by simp), List.append_nil] at hread
  have hg0 : Good s0 IDPage := by
    unfold Good
    rw [w1, w2, w3]
    exact hg
  have horig : ∀ j, j < length →
      ((s.world.dev.stored IDPage address length).map (· % 256)).getD j 0 =
        s.world.dev.bank IDPage (address + j) := by
    intro j hj
    rw [List.getD_eq_getElem _ _ (by simpa [Device.stored] using hj)]
    simp only [Device.stored, List.getElem_map, List.getElem_range]
    exact Nat.mod_eq_of_lt (hcells j hj)
  obtain ⟨st, hs, hinv⟩ := updateScan_inv p fuel s.drv (s.world.dev.bank IDPage)
    (s.world.dev.bank (!IDPage)) address buffer
    ((s.world.dev.stored IDPage address length).map (· % 256)) length IDPage hfu hin1 hin2
    (by omega) (fun j hj he => by rw [he, horig j hj]) length 0
    { sys := s0, writeBuf := List.replicate length 0, diffCount := 0, startDiffAddr := 0,
      rv := 0, writeCnt := 0 } (by omega)
    ⟨hg0, by rw [w1], le_refl _, by simp, fun h => absurd h (Nat.lt_irrefl 0),
      fun j hj => absurd hj (Nat.not_lt_zero j), by
        show s0.world.dev.bank IDPage = _
        rw [w4]
        funext x
        rw [if_neg (by omega)], w4 _⟩
  obtain ⟨g, hd, hpend, hroom, hstart, hrun, hbank, hother⟩ := hinv
  have key : ∃ v s1, I2C_eeprom.updateBlock p fuel s address buffer length IDPage stack =
        some (v, s1) ∧
      Good s1 IDPage ∧ s1.drv = { s.drv with _lastWrite := s1.drv._lastWrite } ∧
      s1.world.dev.bank IDPage = (fun x =>
        if address ≤ x ∧ x < address + length then buffer.getD (x - address) 0
        else s.world.dev.bank IDPage x) ∧
      s1.world.dev.bank (!IDPage) = s.world.dev.bank (!IDPage) := by
    have hsz : st.sys.drv._deviceSize = s.drv._deviceSize := by rw [hd]
    have hpg : st.sys.drv._pageSize = s.drv._pageSize := by rw [hd]
    by_cases hc : st.diffCount > 0
    · have hst := hstart hc
      obtain ⟨s2, hw, g1, g2, g3, g4, g5⟩ := _pageBlock_ok p fuel st.sys st.startDiffAddr
        st.writeBuf st.diffCount IDPage hfu g
        ⟨by rw [hsz, hst]; omega, fun h => by rw [hpg, hst]; have := hin2 h; omega⟩
        (by omega)
      refine ⟨(st.rv + st.diffCount) % 65536, s2, ?_, g.frame g1 g2 g3, lastWrite_trans hd g1, ?_, g5.trans hother⟩
      · unfold I2C_eeprom.updateBlock
        simp only [hper, if_true, Nat.mod_eq_of_lt (show length < 256 by omega), hread, hs, hw,
          if_pos hc]
      · rw [g4, hbank, hst]
        funext x
        beta_reduce
        by_cases hx1 : address + (length - st.diffCount) ≤ x ∧
            x < address + (length - st.diffCount) + st.diffCount
        · rw [if_pos hx1, if_pos ⟨by omega, by omega⟩, hrun _ (by omega)]
          congr 1
          omega
        · rw [if_neg hx1]
          by_cases hx2 : address ≤ x ∧ x < address + (length - st.diffCount)
          · rw [if_pos hx2, if_pos ⟨by omega, by omega⟩]
          · rw [if_neg hx2, if_neg (by omega)]
    · have h0 : st.diffCount = 0 := by omega
      refine ⟨st.rv, st.sys, ?_, g, hd, ?_, hother⟩
      · unfold I2C_eeprom.updateBlock
        simp only [hper, if_true, Nat.mod_eq_of_lt (show length < 256 by omega), hread, hs,
          if_neg hc]
      · rw [hbank, h0]
        simp only [Nat.sub_zero]
  obtain ⟨v, s1, hu, k1, k2, k3, k4⟩ := key
  rw [hu] at hrv
  simp only [Option.some.injEq, Prod.mk.injEq] at hrv
  refine ⟨s1, ?_, k1, k2, k3, k4⟩
  rw [hu, hrv.1]

/-- Where the buffer equals `origBuf` and no run is pending, the scan of
`updateBlock` changes nothing. -/
theorem updateScan_same (p : Platform) (fuel : Nat) (addr : Nat) (buffer origBuf : List Nat)
    (IDPage : Bool) :
    ∀ (k i : Nat) (st : I2C_eeprom.Scan), st.diffCount = 0 →
    (∀ j, i ≤ j → j < i + k → buffer.getD j 0 = origBuf.getD j 0) →
    I2C_eeprom.updateScan p fuel addr buffer origBuf IDPage k i st = some st := by
  intro k
  induction k with
  | zero => intro i st _ _; rfl
  | succ k ih =>
    intro i st h0 heq
    simp only [I2C_eeprom.updateScan]
    rw [if_neg (by simpa using heq i (le_refl _) (by omega)), if_neg (by omega)]
    exact ih (i + 1) st h0 (fun j h1 h2 => heq j (by omega) (by omega))

/-- On a responsive bus and a fitting device, under per-byte comparison and
for a span of 1 to 255 bytes inside the region that already holds the bytes
of the buffer, `updateBlock` returns 0 and issues no write. -/
theorem updateBlock_same_short (p : Platform) (fuel : Nat) (s : Sys) (address : Nat)
    (buffer : List Nat) (length : Nat) (IDPage : Bool) (stack : Nat → Nat) (hfu : 0 < fuel)
    (hper : s.drv._perByteCompare = true) (hg : Good s IDPage)
    (hin : InBounds s.drv address length IDPage) (hpos : 0 < length) (hlen : length ≤ 255)
    (hbytes : ∀ j, j < length → buffer.getD j 0 < 256)
    (hstored : ∀ j, j < length → s.world.dev.bank IDPage (address + j) = buffer.getD j 0) :
    ∃ s1, I2C_eeprom.updateBlock p fuel s address buffer length IDPage stack = some (0, s1) ∧
      s1.world.writes = s.world.writes ∧
      ∀ r, s1.world.dev.bank r = s.world.dev.bank r := by
  obtain ⟨hin1, hin2⟩ := hin
  obtain ⟨s0, hread, -, -, -, w4, w5⟩ := _ReadBlock_ok fuel s address
    ((List.range length).map stack) length IDPage hfu hg (by omega)
    (fun h => by have := hin2 h; omega) hlen (by simp) hin1 hin2
  rw [List.drop_of_length_le (by simp), List.append_nil] at hread
  have horig : ∀ j, 0 ≤ j → j < 0 + length → buffer.getD j 0 =
      ((s.world.dev.stored IDPage address length).map (· % 256)).getD j 0 := by
    intro j _ hj
    have hj : j < length := by omega
    have e : ((s.world.dev.stored IDPage address length).map (· % 256)).getD j 0 =
        buffer.getD j 0 := by
      rw [List.getD_eq_getElem _ _ (by simpa [Device.stored] using hj)]
      simp only [Device.stored, List.getElem_map, List.getElem_range]
      rw [hstored j hj, Nat.mod_eq_of_lt (hbytes j hj)]
    exact e.symm
  have hs := updateScan_same p fuel address buffer
    ((s.world.dev.stored IDPage address length).map (· % 256)) IDPage length 0
    { sys := s0, writeBuf := List.replicate length 0, diffCount := 0, startDiffAddr := 0,
      rv := 0, writeCnt := 0 } rfl horig
  refine ⟨s0, ?_, w5, w4⟩
  unfold I2C_eeprom.updateBlock
  simp only [hper, if_true, Nat.mod_eq_of_lt (show length < 256 by omega), hread, hs,
    gt_iff_lt, Nat.lt_irrefl, if_false]

/-- On a responsive bus and a fitting device whose cells hold bytes, under
per-byte comparison and for a span of 1 to 255 bytes inside the region, the
second of two `updateBlock` calls with the same address, buffer and length
returns 0 and issues no write. -/
theorem updateBlock_twice_short (p : Platform) (fuel : Nat) (s : Sys) (address : Nat)
    (buffer : List Nat) (length : Nat) (IDPage : Bool) (stack1 stack2 : Nat → Nat)
    (hfu : 0 < fuel) (hper : s.drv._perByteCompare = true) (hg : Good s IDPage)
    (hin : InBounds s.drv address length IDPage) (hpos : 0 < length) (hlen : length ≤ 255)
    (hcells : ∀ j, j < length → s.world.dev.bank IDPage (address + j) < 256)
    (hbytes : ∀ j, j < length → buffer.getD j 0 < 256) :
    ∃ rv1 s1 s2,
      I2C_eeprom.updateBlock p fuel s address buffer length IDPage stack1 = some (rv1, s1) ∧
      I2C_eeprom.updateBlock p fuel s1 address buffer length IDPage stack2 = some (0, s2) ∧
      s2.world.writes = s1.world.writes := by
  obtain ⟨s1, h1, g1, d1, b1, -⟩ := updateBlock_ok_short p fuel s address buffer length IDPage
    stack1 hfu hper hg hin hpos hlen hcells
  obtain ⟨s2, h2, w2, -⟩ := updateBlock_same_short p fuel s1 address buffer length IDPage stack2
    hfu (by rw [d1]; exact hper) g1 (by rw [d1]; exact hin) hpos hlen hbytes
    (fun j hj => by
      rw [b1]
      beta_reduce
      rw [if_pos ⟨by omega, by omega⟩]
      congr 1
      omega)
  exact ⟨_, s1, s2, h1, h2, w2⟩


/-! ### Page size and the default constructor -/

/-- C11: for every `deviceSize`, `getPageSize(deviceSize)` is 16 up to 2048,
32 above 2048 up to 8192, 64 above 8192 up to 32768 and 128 above that, hence
one of 16, 32, 64 and 128; and after construction, by either constructor,
the stored page size is `getPageSize` of the stored capacity. -/
theorem C11_page_size_lookup (deviceSize deviceAddress : Nat) (hasIDPage wire : Bool) :
    I2C_eeprom.getPageSize deviceSize =
      (if deviceSize ≤ 2048 then 16 else if deviceSize ≤ 8192 then 32
       else if deviceSize ≤ 32768 then 64 else 128) ∧
    (I2C_eeprom.getPageSize deviceSize = 16 ∨ I2C_eeprom.getPageSize deviceSize = 32 ∨
      I2C_eeprom.getPageSize deviceSize = 64 ∨ I2C_eeprom.getPageSize deviceSize = 128) ∧
    (I2C_eeprom.new deviceAddress deviceSize hasIDPage)._pageSize =
      I2C_eeprom.getPageSize (I2C_eeprom.new deviceAddress deviceSize hasIDPage).getDeviceSize ∧
    (I2C_eeprom.newDefault deviceAddress wire)._pageSize =
      I2C_eeprom.getPageSize (I2C_eeprom.newDefault deviceAddress wire).getDeviceSize := by
  have h : ∀ (a n : Nat) (b : Bool), (I2C_eeprom.new a n b)._pageSize =
      I2C_eeprom.getPageSize (I2C_eeprom.new a n b).getDeviceSize := by
    intro a n b
    obtain ⟨-, -, f3, f4, -⟩ := new_fields a n b
    rw [I2C_eeprom.getDeviceSize, f4, f3]
  exact ⟨rfl, getPageSize_mem deviceSize, h _ _ _, h _ _ _⟩

/-- C12: the header documents the two-argument constructor as initialising
"with a default deviceSize of I2C_DEVICESIZE_M24256 (32K EEPROM)". The
constructor passes the page size constant `I2C_PAGESIZE_M24256` = 64 where
the device size belongs, and the `wire` pointer where `hasIDPage` belongs:
for every device address the capacity is 0, the page size 16, the addressing
mode one-word and `_hasIDPage` true, where the four-argument constructor
with `I2C_DEVICESIZE_M24256` gives 32768, 64 and two-word. -/
theorem C12_default_constructor_capacity (deviceAddress : Nat) :
    (I2C_eeprom.newDefault deviceAddress true).getDeviceSize = 0 ∧
    (I2C_eeprom.newDefault deviceAddress true)._pageSize = 16 ∧
    (I2C_eeprom.newDefault deviceAddress true)._isAddressSizeTwoWords = false ∧
    (I2C_eeprom.newDefault deviceAddress true)._hasIDPage = true ∧
    (I2C_eeprom.new deviceAddress I2C_DEVICESIZE_M24256 false).getDeviceSize = 32768 ∧
    (I2C_eeprom.new deviceAddress I2C_DEVICESIZE_M24256 false)._pageSize = 64 ∧
    (I2C_eeprom.new deviceAddress I2C_DEVICESIZE_M24256 false)._isAddressSizeTwoWords = true := by
  refine ⟨rfl, rfl, rfl, rfl, rfl, rfl, rfl⟩

/-! ### `updateBlockVerify` -/

theorem sampleSys_good (IDPage : Bool) : Good (sampleSys 32768 255) IDPage :=
  ⟨⟨fun _ => rfl, fun _ => le_refl _⟩,
    ⟨⟨rfl, rfl, rfl, rfl, le_refl _⟩, by decide, by decide, by decide, by decide,
      fun _ => by decide⟩⟩

/-- C13: the header says of the verify variants "return false if write or
verify failed". `updateBlockVerify` returns false whenever `updateBlock`
returns a count different from `length`, that is, whenever some byte of the
range already had the wanted value. With 10 stored bytes 255 and a buffer
that differs only at index 5 (0x42), on every platform and whatever the
local array of `updateBlock` holds: `updateBlock` returns 1,
`updateBlockVerify` returns false, the stored bytes equal the buffer after
the call, and `verifyBlock` on the state it leaves returns true. -/
theorem C13_updateBlockVerify_false_after_good_update (p : Platform) (stack : Nat → Nat) :
    ∃ s0 s1 s2,
      I2C_eeprom.updateBlock p 1 (sampleSys 32768 255) 100 ((List.replicate 10 255).set 5 66) 10
        false stack = some (1, s0) ∧
      I2C_eeprom.updateBlockVerify p 1 (sampleSys 32768 255) 100
        ((List.replicate 10 255).set 5 66) 10 false stack = some (false, s1) ∧
      s1.world.dev.stored false 100 10 = (List.replicate 10 255).set 5 66 ∧
      I2C_eeprom.verifyBlock p 1 s1 100 ((List.replicate 10 255).set 5 66) 10 false =
        some (true, s2) := by
  obtain ⟨s1, hu, g1, d1, b1, -⟩ := updateBlock_ok_short p 1 (sampleSys 32768 255) 100
    ((List.replicate 10 255).set 5 66) 10 false stack (by decide) rfl (sampleSys_good false)
    (by unfold InBounds; decide) (by decide) (by decide)
    (fun j _ => (by decide : (255 : Nat) < 256))
  have hc : (List.range 10).countP (fun j => decide (((List.replicate 10 255).set 5 66).getD j 0 ≠
      (((sampleSys 32768 255).world.dev.stored false 100 10).map (· % 256)).getD j 0)) = 1 := by
    decide
  rw [hc] at hu
  have hs : s1.world.dev.stored false 100 10 = (List.replicate 10 255).set 5 66 := by
    unfold Device.stored
    rw [b1]
    decide
  obtain ⟨s2, hv, -⟩ := verifyLoop_ok p 1 false (by decide) 10 s1 100
    ((List.replicate 10 255).set 5 66) 10 (le_refl _) g1 (by decide)
    (fun _ => by
      rw [d1]
      refine ⟨?_, fun h => by cases h⟩
      show 100 + 10 ≤ (sampleSys 32768 255).drv._deviceSize
      decide)
  refine ⟨s1, s1, s2, hu, ?_, hs, ?_⟩
  · unfold I2C_eeprom.updateBlockVerify
    rw [hu]
    rfl
  · unfold I2C_eeprom.verifyBlock
    rw [hv, hs]
    rfl

/-! ### `updateBlock` under chunk-wise comparison -/

theorem bulkSys_good (IDPage : Bool) : Good (bulkSys 255 7) IDPage :=
  ⟨⟨fun _ => rfl, fun _ => le_refl _⟩,
    ⟨⟨rfl, rfl, rfl, rfl, le_refl _⟩, by decide, by decide, by decide, by decide,
      fun _ => by decide⟩⟩

/-- C14: the claim says that under chunk-wise comparison, for the
identification page too, each chunk is compared with the bytes stored at its
address in that same region. The chunk-wise branch calls `_ReadBlock`
without the `IDPage` argument (line 295), so it reads the main array, while
its `_pageBlock` call writes to the region asked for. With 255 in the main
array and 7 in the identification page, on every platform and whatever the
local array `buf` holds before the call: `updateBlock` of four bytes 255 at
address 0 of the identification page reads from bus address 80 (the main
array), finds no difference, returns 0 and leaves the page at 7; and
`updateBlock` of four bytes 7, which the page already holds, returns 4 and
issues a write of four bytes at address 0. -/
theorem C14_bulk_compare_reads_main_array (p : Platform) (stack : Nat → Nat) :
    (bulkSys 255 7).drv._perByteCompare = false ∧
    (bulkSys 255 7).world.dev.stored true 0 4 = [7, 7, 7, 7] ∧
    (bulkSys 255 7).world.dev.stored false 0 4 = [255, 255, 255, 255] ∧
    (I2C_eeprom.updateBlock p 1 (bulkSys 255 7) 0 [255, 255, 255, 255] 4 true stack).map
        (fun r => (r.1, r.2.world.writes, r.2.world.dev.stored true 0 4, r.2.world.bus)) =
      some (0, [], [7, 7, 7, 7],
        [Event.tx 80 [] true 0, Event.tx 80 [0, 0] false 0, Event.rx 80 4 4]) ∧
    (∃ s2 r rest, I2C_eeprom.updateBlock p 1 (bulkSys 255 7) 0 [7, 7, 7, 7] 4 true stack =
        some (4, s2) ∧
      s2.world.writes = r :: rest ∧ r.memoryAddress = 0 ∧ r.length = 4) := by
  refine ⟨rfl, rfl, rfl, by cases p <;> rfl, ?_⟩
  have hB : 4 ≤ I2C_BUFFERSIZE p := by cases p <;> decide
  have hb : I2C_eeprom.busChunk p 4 = 4 := by cases p <;> rfl
  obtain ⟨s1, hr, d1, e1, c1, -, w1⟩ := _ReadBlock_ok 1 (bulkSys 255 7) 0
    ((List.range (I2C_BUFFERSIZE p)).map stack) 4 false (by decide) (bulkSys_good false)
    (by decide) (fun h => by cases h) (by decide) (by simpa using hB) (by decide)
    (fun h => by cases h)
  have hg1 : Good s1 true := by
    unfold Good
    rw [d1, e1, c1]
    exact bulkSys_good true
  obtain ⟨s2, hw, -⟩ := _pageBlock_ok p 1 s1 0 [7, 7, 7, 7] 4 true (by decide) hg1
    (by rw [d1]; unfold InBounds; decide) (by decide)
  have hP : s1.drv._pageSize = 64 := by rw [d1]; rfl
  obtain ⟨c1, c2⟩ : PassesChecks p s1.drv 0 4 true :=
    InBounds.passes p (by rw [d1]; unfold InBounds; decide)
  have hloop : I2C_eeprom.pageLoop p 1 true true 4 s1 0 [7, 7, 7, 7] 4 = some (0, s2) := by
    have h := hw
    unfold I2C_eeprom._pageBlock at h
    simp only [if_neg c2] at h
    rw [if_neg (by simpa using c1)] at h
    exact h
  obtain ⟨new, hnew, -, -, hfirst⟩ := pageLoop_chunks p 1 true true 64 (by decide) (by decide)
    4 s1 0 [7, 7, 7, 7] 4 0 s2 hP hloop
  obtain ⟨r, rest, h1, h2, h3⟩ := hfirst (by decide)
  have hpc : I2C_eeprom.pageChunk p 64 0 4 = 4 := by cases p <;> rfl
  refine ⟨s2, r, rest, ?_, ?_, h2, by rw [h3, hpc]⟩
  · have hne : ([7, 7, 7, 7] : List Nat).take 4 ≠
        (((bulkSys 255 7).world.dev.stored false 0 4).map (· % 256) ++
          ((List.range (I2C_BUFFERSIZE p)).map stack).drop 4).take 4 := by
      rw [show (bulkSys 255 7).world.dev.stored false 0 4 = [255, 255, 255, 255] from rfl]
      simp
    unfold I2C_eeprom.updateBlock
    rw [show (bulkSys 255 7).drv._perByteCompare = false from rfl]
    simp only [I2C_eeprom.updateChunks, hb, hr, if_pos hne, hw]
    simp
  · rw [hnew, w1, h1]
    rfl

/-! ### `readByte` after a failed read -/

/-- C19: the claim says that `readByte` returns 0 when the bus transaction
of the read fails. `readByte` ignores what `_ReadBlock` returns and decides
on the status of a further, empty transmission (line 165). When the address
phase fails with transport status 4 and that further transmission is
acknowledged, or when the address phase succeeds and the transport then
delivers no byte, `readByte` returns the indeterminate initial value of its
local variable `rdata`, whatever that value is. -/
theorem C19_readByte_returns_unread_variable (rdata : Nat) :
    (I2C_eeprom.readByte 1 (faultySys 32768 255 0 4) 100 false rdata).map
        (fun r => (r.1, r.2.world.bus)) =
      some (rdata, [Event.tx 80 [0, 100] false 4, Event.tx 80 [] true 0]) ∧
    (I2C_eeprom.readByte 1 (faultySys 32768 255 1 4) 100 false rdata).map
        (fun r => (r.1, r.2.world.bus)) =
      some (rdata, [Event.tx 80 [0, 100] false 0, Event.rx 80 1 0, Event.tx 80 [] true 0]) :=
  ⟨rfl, rfl⟩

/-! ### Waiting for the write cycle -/

theorem isConnected_frame (d : I2C_eeprom) (w : World) (r : Bool) :
    (I2C_eeprom.isConnected d w r).2.env = w.env ∧
    (I2C_eeprom.isConnected d w r).2.tick = w.tick ∧
    (I2C_eeprom.isConnected d w r).2.dev.chip = w.dev.chip := by
  refine ⟨rfl, rfl, ?_⟩
  unfold I2C_eeprom.isConnected
  simp only
  rw [Wire.endTransmission_chip]
  rfl

/-- C20: `_waitEEReady` never returns early. Whatever the clock readings and
the results of the probes are, whenever `_waitEEReady` returns it has read the
clock at least once, and either its last clock reading lies more than
`waitTime` microseconds after `_lastWrite` (the difference taken modulo
`2 ^ 32`), or the last transaction on the bus is an acknowledged empty
transmission to the device address; and `waitTime` is
`I2C_WRITEDELAY + _extraTWR * 1000`, `_extraTWR` being a `uint8_t`. -/
theorem C20_wait_returns_after_delay_or_ack : ∀ (fuel : Nat) (s s1 : Sys),
    I2C_eeprom._waitEEReady fuel s = some s1 →
    s.world.tick < s1.world.tick ∧
    (waitTime s.drv < elapsed (s.world.env.clock (s1.world.tick - 1)) s.drv._lastWrite ∨
      ∃ probes, s1.world.bus =
        s.world.bus ++ probes ++ [Event.tx s.drv._deviceAddress [] true 0]) ∧
    (s.drv._extraTWR < 256 → waitTime s.drv = I2C_WRITEDELAY + s.drv._extraTWR * 1000) := by
  suffices hmain : ∀ (fuel : Nat) (s s1 : Sys),
      I2C_eeprom._waitEEReady fuel s = some s1 →
      s.world.tick < s1.world.tick ∧
      (waitTime s.drv < elapsed (s.world.env.clock (s1.world.tick - 1)) s.drv._lastWrite ∨
        ∃ probes, s1.world.bus =
          s.world.bus ++ probes ++ [Event.tx s.drv._deviceAddress [] true 0]) by
    intro fuel s s1 h
    obtain ⟨h1, h2⟩ := hmain fuel s s1 h
    refine ⟨h1, h2, fun hx => ?_⟩
    unfold waitTime I2C_WRITEDELAY
    apply Nat.mod_eq_of_lt
    norm_num
    omega
  intro fuel
  induction fuel with
  | zero => intro s s1 h; simp [I2C_eeprom._waitEEReady] at h
  | succ n ih =>
    intro s s1 h
    simp only [I2C_eeprom._waitEEReady] at h
    split at h
    · split at h
      · rename_i hc
        simp only [Option.some.injEq] at h
        subst h
        refine ⟨?_, Or.inr ⟨[], ?_⟩⟩
        · show s.world.tick < s.world.tick + 1
          omega
        · have hb := isConnected_bus s.drv (micros s.world).2
          have h0 : (Wire.endTransmission (Wire.beginTransmission (micros s.world).2
              s.drv._deviceAddress) true).1 = 0 := by
            simpa [I2C_eeprom.isConnected] using hc
          rw [h0] at hb
          simp only [List.append_nil]
          exact hb
      · obtain ⟨i1, i2⟩ := ih _ _ h
        obtain ⟨f1, f2, -⟩ := isConnected_frame s.drv (micros s.world).2 false
        simp only [f1, f2] at i1 i2
        have ht : (micros s.world).2.tick = s.world.tick + 1 := rfl
        have he : (micros s.world).2.env = s.world.env := rfl
        rw [ht] at i1
        rw [he] at i2
        refine ⟨by omega, ?_⟩
        rcases i2 with i2 | ⟨probes, i2⟩
        · exact Or.inl i2
        · refine Or.inr ⟨Event.tx s.drv._deviceAddress [] true
            (Wire.endTransmission (Wire.beginTransmission (micros s.world).2
              s.drv._deviceAddress) true).1 :: probes, ?_⟩
          rw [i2, isConnected_bus]
          simp [micros]
    · rename_i hgt
      simp only [Option.some.injEq] at h
      subst h
      refine ⟨?_, Or.inl ?_⟩
      · show s.world.tick < s.world.tick + 1
        omega
      · show waitTime s.drv < elapsed (s.world.env.clock (s.world.tick + 1 - 1)) s.drv._lastWrite
        simp only [Nat.add_sub_cancel]
        unfold waitTime elapsed
        simp only [micros, not_le] at hgt
        simpa using hgt

/-- Witness for C20: on the sample device, where the clock stands still, the
wait returns after its first probe is acknowledged. -/
theorem C20_wait_returns_after_delay_or_ack_witness :
    ∃ s1, I2C_eeprom._waitEEReady 1 (sampleSys 32768 255) = some s1 ∧
      (sampleSys 32768 255).world.tick < s1.world.tick ∧
      (waitTime (sampleSys 32768 255).drv <
          elapsed ((sampleSys 32768 255).world.env.clock (s1.world.tick - 1))
            (sampleSys 32768 255).drv._lastWrite ∨
        ∃ probes, s1.world.bus = (sampleSys 32768 255).world.bus ++ probes ++
          [Event.tx (sampleSys 32768 255).drv._deviceAddress [] true 0]) ∧
      ((sampleSys 32768 255).drv._extraTWR < 256 →
        waitTime (sampleSys 32768 255).drv =
          I2C_WRITEDELAY + (sampleSys 32768 255).drv._extraTWR * 1000) := by
  cases h : I2C_eeprom._waitEEReady 1 (sampleSys 32768 255) with
  | none =>
    have hs : (I2C_eeprom._waitEEReady 1 (sampleSys 32768 255)).isSome = true := by decide
    rw [h] at hs
    cases hs
  | some s1 =>
    exact ⟨s1, rfl, C20_wait_returns_after_delay_or_ack 1 (sampleSys 32768 255) s1 h⟩

/-- With a clock that ticks, the wait returns within two passes, whatever
the bus does. -/
theorem _waitEEReady_ticking (fuel : Nat) (s : Sys) (hf : 2 ≤ fuel)
    (ht : Ticking s.world.env (waitTime s.drv)) :
    ∃ s1, I2C_eeprom._waitEEReady fuel s = some s1 := by
  obtain ⟨n, rfl⟩ : ∃ n, fuel = n + 2 := ⟨fuel - 2, by omega⟩
  by_cases h1 : elapsed (s.world.env.clock s.world.tick) s.drv._lastWrite ≤ waitTime s.drv
  · by_cases hc : (I2C_eeprom.isConnected s.drv (micros s.world).2 false).1 = true
    · refine ⟨{ s with world := (I2C_eeprom.isConnected s.drv (micros s.world).2 false).2 }, ?_⟩
      simp only [I2C_eeprom._waitEEReady]
      rw [if_pos (by simpa [micros, elapsed, waitTime] using h1), if_pos hc]
    · have h2 : ¬ elapsed (s.world.env.clock (s.world.tick + 1)) s.drv._lastWrite ≤
          waitTime s.drv := by
        obtain ⟨t1, t2⟩ := ht s.world.tick
        unfold elapsed at t1 t2 h1 ⊢
        norm_num at t1 t2 h1 ⊢
        omega
      refine ⟨{ s with world := (micros (I2C_eeprom.isConnected s.drv (micros s.world).2
        false).2).2 }, ?_⟩
      obtain ⟨f1, f2, -⟩ := isConnected_frame s.drv (micros s.world).2 false
      have e2 : (micros (I2C_eeprom.isConnected s.drv (micros s.world).2 false).2).1 =
          s.world.env.clock (s.world.tick + 1) % 2 ^ 32 := by
        show (I2C_eeprom.isConnected s.drv (micros s.world).2 false).2.env.clock
          (I2C_eeprom.isConnected s.drv (micros s.world).2 false).2.tick % 2 ^ 32 = _
        rw [f1, f2]
        rfl
      simp only [I2C_eeprom._waitEEReady]
      rw [if_pos (by simpa [micros, elapsed, waitTime] using h1), if_neg hc]
      simp only [e2]
      rw [if_neg (by simpa [elapsed, waitTime] using h2)]
  · refine ⟨{ s with world := (micros s.world).2 }, ?_⟩
    simp only [I2C_eeprom._waitEEReady]
    rw [if_neg (by simpa [micros, elapsed, waitTime] using h1)]

/-! ### The status `writeBlock` returns -/

/-- Whenever the loop of `_pageBlock` returns, every `_WriteBlock` call it
made but the last returned status 0, and the loop returns the status of the
last one if that is not 0, and 0 otherwise. -/
theorem pageLoop_status (p : Platform) (fuel : Nat) (incr IDPage : Bool) :
    ∀ (n : Nat) (s : Sys) (addr : Nat) (buffer : List Nat) (len : Nat) (rv : Nat) (s1 : Sys),
    I2C_eeprom.pageLoop p fuel incr IDPage n s addr buffer len = some (rv, s1) →
    ∃ new : List WriteRec, s1.world.writes = s.world.writes ++ new ∧
      (rv = 0 → ∀ r ∈ new, r.status = 0) ∧
      (rv ≠ 0 → ∃ ok last, new = ok ++ [last] ∧ (∀ r ∈ ok, r.status = 0) ∧
        last.status = rv) := by
  intro n
  induction n with
  | zero =>
    intro s addr buffer len rv s1 h
    simp only [I2C_eeprom.pageLoop] at h
    split at h
    · simp only [Option.some.injEq, Prod.mk.injEq] at h
      obtain ⟨rfl, rfl⟩ := h
      exact ⟨[], by simp, by simp, fun h => absurd rfl h⟩
    · cases h
  | succ n ih =>
    intro s addr buffer len rv s1 h
    simp only [I2C_eeprom.pageLoop] at h
    split at h
    · simp only [Option.some.injEq, Prod.mk.injEq] at h
      obtain ⟨rfl, rfl⟩ := h
      exact ⟨[], by simp, by simp, fun h => absurd rfl h⟩
    · cases hw : I2C_eeprom._WriteBlock fuel s addr buffer
          (I2C_eeprom.pageChunk p s.drv._pageSize addr len) IDPage with
      | none => simp [hw] at h
      | some res =>
        obtain ⟨rv0, s0⟩ := res
        obtain ⟨-, -, -, f4⟩ := _WriteBlock_frame _ _ _ _ _ _ _ _ hw
        simp only [hw] at h
        split at h
        · rename_i hne
          simp only [Option.some.injEq, Prod.mk.injEq] at h
          obtain ⟨rfl, rfl⟩ := h
          refine ⟨_, f4, fun h0 => absurd h0 hne, fun _ => ⟨[], _, rfl, by simp, rfl⟩⟩
        · rename_i h0
          have h0 : rv0 = 0 := by
            by_contra hc
            exact h0 hc
          obtain ⟨new, g1, g2, g3⟩ := ih _ _ _ _ _ _ h
          refine ⟨WriteRec.mk addr (I2C_eeprom.pageChunk p s.drv._pageSize addr len)
            (buffer.take (I2C_eeprom.pageChunk p s.drv._pageSize addr len)) IDPage rv0 :: new,
            ?_, ?_, ?_⟩
          · rw [g1, f4]
            simp
          · intro hz r hr
            rcases List.mem_cons.mp hr with rfl | hr
            · exact h0
            · exact g2 hz r hr
          · intro hnz
            obtain ⟨ok, last, e1, e2, e3⟩ := g3 hnz
            refine ⟨WriteRec.mk addr (I2C_eeprom.pageChunk p s.drv._pageSize addr len)
              (buffer.take (I2C_eeprom.pageChunk p s.drv._pageSize addr len)) IDPage rv0 :: ok,
              last, by rw [e1]; rfl, ?_, e3⟩
            intro r hr
            rcases List.mem_cons.mp hr with rfl | hr
            · exact h0
            · exact e2 r hr

/-- With a clock that ticks and a page size from 1 to 255 the loop of
`_pageBlock` comes to an end within `len` passes, whatever the bus does. -/
theorem pageLoop_returns_ticking (p : Platform) (fuel : Nat) (incr IDPage : Bool) (P : Nat)
    (hP : 0 < P) (hP2 : P < 256) (hf : 2 ≤ fuel) :
    ∀ (n : Nat) (s : Sys) (addr : Nat) (buffer : List Nat) (len : Nat),
    len ≤ n → s.drv._pageSize = P → Ticking s.world.env (waitTime s.drv) →
    ∃ rv s1, I2C_eeprom.pageLoop p fuel incr IDPage n s addr buffer len = some (rv, s1) := by
  intro n
  induction n with
  | zero =>
    intro s addr buffer len hn _ _
    have : len = 0 := by omega
    subst this
    exact ⟨0, s, by simp [I2C_eeprom.pageLoop]⟩
  | succ n ih =>
    intro s addr buffer len hn hPs ht
    simp only [I2C_eeprom.pageLoop]
    split
    · exact ⟨_, _, rfl⟩
    · rename_i hlen
      have hlen : 0 < len := Nat.pos_of_ne_zero hlen
      obtain ⟨c1, c2, -, -⟩ := pageChunk_bounds p P addr len hP hP2 hlen
      rw [hPs]
      obtain ⟨s0, hw0⟩ := _waitEEReady_ticking fuel s hf ht
      have hw : ∃ rv0 s0, I2C_eeprom._WriteBlock fuel s addr buffer
          (I2C_eeprom.pageChunk p P addr len) IDPage = some (rv0, s0) := by
        unfold I2C_eeprom._WriteBlock
        rw [hw0]
        exact ⟨_, _, rfl⟩
      obtain ⟨rv0, s0, hw⟩ := hw
      obtain ⟨f1, f2, -, -⟩ := _WriteBlock_frame _ _ _ _ _ _ _ _ hw
      rw [hw]
      simp only
      split
      · exact ⟨_, _, rfl⟩
      · apply ih
        · omega
        · rw [f1]; exact hPs
        · rw [f2]
          have : waitTime s0.drv = waitTime s.drv := by rw [f1]; rfl
          rw [this]
          exact ht

/-- C15: for every `writeBlock` call that passes the two precondition
checks, whatever the bus does: whenever the call returns, it returns 0 if and
only if every chunk it transmitted got transport status 0; and if it returns
a status other than 0, the chunks before the last one transmitted all got
status 0 and the last one got the status returned, so the first failing
chunk ends the transmission and its status is returned unchanged. With a
clock that ticks and a page size from 1 to 255 the call returns. -/
theorem C15_writeBlock_returns_first_failing_status (p : Platform) (fuel : Nat) (s : Sys)
    (address length : Nat) (buffer : List Nat) (IDPage : Bool)
    (hc : PassesChecks p s.drv address length IDPage) :
    (∀ rv s1, I2C_eeprom.writeBlock p fuel s address buffer length IDPage = some (rv, s1) →
      ∃ new : List WriteRec, s1.world.writes = s.world.writes ++ new ∧
        (rv = 0 ↔ ∀ r ∈ new, r.status = 0) ∧
        (rv ≠ 0 → ∃ ok last, new = ok ++ [last] ∧ (∀ r ∈ ok, r.status = 0) ∧
          last.status = rv)) ∧
    (2 ≤ fuel → Ticking s.world.env (waitTime s.drv) → 0 < s.drv._pageSize →
      s.drv._pageSize < 256 →
      ∃ rv s1, I2C_eeprom.writeBlock p fuel s address buffer length IDPage = some (rv, s1)) := by
  have hw : I2C_eeprom.writeBlock p fuel s address buffer length IDPage =
      I2C_eeprom.pageLoop p fuel true IDPage length s address buffer length := by
    unfold I2C_eeprom.writeBlock I2C_eeprom._pageBlock
    simp only
    rw [if_neg hc.1, if_neg hc.2]
  rw [hw]
  refine ⟨?_, ?_⟩
  · intro rv s1 h
    obtain ⟨new, g1, g2, g3⟩ := pageLoop_status p fuel true IDPage _ _ _ _ _ _ _ h
    refine ⟨new, g1, ⟨g2, ?_⟩, g3⟩
    intro hall
    by_contra hne
    obtain ⟨ok, last, e1, -, e3⟩ := g3 hne
    have := hall last (by rw [e1]; simp)
    omega
  · intro hf ht hP hP2
    exact pageLoop_returns_ticking p fuel true IDPage s.drv._pageSize hP hP2 hf length s address
      buffer length (le_refl _) rfl ht

theorem faultAt_ticking (k code : Nat) : Ticking (faultAt k code) 5000 := by
  intro i
  unfold elapsed faultAt
  norm_num
  omega

/-- Witness for C15: on the sample device, on a bus where the third
transaction fails with status 4, `writeBlock` of 100 bytes at address 40
returns 4; the chunks before the last one got status 0 and the last one
status 4. -/
theorem C15_writeBlock_returns_first_failing_status_witness :
    ∃ s1 ok last, I2C_eeprom.writeBlock .avr 2 (faultySys 32768 255 2 4) 40 (List.range 100) 100
        false = some (4, s1) ∧
      s1.world.writes = ok ++ [last] ∧ (∀ r ∈ ok, r.status = 0) ∧ last.status = 4 := by
  have h := C15_writeBlock_returns_first_failing_status .avr 2 (faultySys 32768 255 2 4) 40 100
    (List.range 100) false (by unfold PassesChecks; decide)
  obtain ⟨rv, s1, h1⟩ := h.2 (by decide) (faultAt_ticking 2 4) (by decide) (by decide)
  have hrv : (I2C_eeprom.writeBlock .avr 2 (faultySys 32768 255 2 4) 40 (List.range 100) 100
      false).map (fun r => r.1) = some 4 := by decide
  rw [h1] at hrv
  simp only [Option.map_some', Option.some.injEq] at hrv
  subst hrv
  obtain ⟨new, g1, -, g3⟩ := h.1 4 s1 h1
  obtain ⟨ok, last, e1, e2, e3⟩ := g3 (by decide)
  refine ⟨s1, ok, last, h1, ?_, e2, e3⟩
  rw [g1, e1]
  rfl

/-! ### Reads beyond the capacity -/

/-- Whenever `_ReadBlock` returns, the bus shows, after what was there, the
probes of the wait and then the address phase of the read. -/
theorem _ReadBlock_bus_first (fuel : Nat) (s : Sys) (a : Nat) (buffer : List Nat)
    (length : Nat) (IDPage : Bool) (n : Nat) (out : List Nat) (s1 : Sys)
    (h : I2C_eeprom._ReadBlock fuel s a buffer length IDPage = some (n, out, s1)) :
    ∃ (probes : List Event) (st : Nat) (rest : List Event),
      (∀ e ∈ probes, ∃ st1, e = Event.tx s.drv._deviceAddress [] true st1) ∧
      s1.world.bus = s.world.bus ++ probes ++
        Event.tx (I2C_eeprom._beginTransmission s.drv s.world a IDPage).txAddress
          (I2C_eeprom._beginTransmission s.drv s.world a IDPage).txBuf false st :: rest := by
  obtain ⟨probes, st, hp, hb⟩ := _ReadBlock_bus fuel s a buffer length IDPage n out s1 h
  rcases hb with ⟨-, hb⟩ | ⟨h0, c, hb⟩
  · exact ⟨probes, st, [], hp, hb⟩
  · subst h0
    exact ⟨probes, 0, _, hp, hb⟩

/-- Whenever `_verifyBlock` returns, the bus shows, after what was there,
the probes of the wait and then the address phase of the read. -/
theorem _verifyBlock_bus_first (fuel : Nat) (s : Sys) (a : Nat) (buffer : List Nat)
    (length : Nat) (IDPage : Bool) (ok : Bool) (s1 : Sys)
    (h : I2C_eeprom._verifyBlock fuel s a buffer length IDPage = some (ok, s1)) :
    ∃ (probes : List Event) (st : Nat) (rest : List Event),
      (∀ e ∈ probes, ∃ st1, e = Event.tx s.drv._deviceAddress [] true st1) ∧
      s1.world.bus = s.world.bus ++ probes ++
        Event.tx (I2C_eeprom._beginTransmission s.drv s.world a IDPage).txAddress
          (I2C_eeprom._beginTransmission s.drv s.world a IDPage).txBuf true st :: rest := by
  obtain ⟨probes, st, hp, hb⟩ := _verifyBlock_bus fuel s a buffer length IDPage ok s1 h
  rcases hb with ⟨-, hb⟩ | ⟨h0, c, hb⟩
  · exact ⟨probes, st, [], hp, hb⟩
  · subst h0
    exact ⟨probes, 0, _, hp, hb⟩

/-- Whenever the loop of `readBlock` returns, it has only added to the bus,
and with `len > 0` what it has added starts with the probes of a wait and the
address phase of a read at `addr`. -/
theorem readLoop_bus (p : Platform) (fuel : Nat) (IDPage : Bool) :
    ∀ (n : Nat) (s : Sys) (addr : Nat) (buffer : List Nat) (len rv rv1 : Nat)
      (out : List Nat) (s1 : Sys),
    I2C_eeprom.readLoop p fuel IDPage n s addr buffer len rv = some (rv1, out, s1) →
    (∃ evs, s1.world.bus = s.world.bus ++ evs) ∧
    (0 < len → ∃ (probes : List Event) (st : Nat) (rest : List Event),
      (∀ e ∈ probes, ∃ st1, e = Event.tx s.drv._deviceAddress [] true st1) ∧
      s1.world.bus = s.world.bus ++ probes ++
        Event.tx (I2C_eeprom._beginTransmission s.drv s.world addr IDPage).txAddress
          (I2C_eeprom._beginTransmission s.drv s.world addr IDPage).txBuf false st :: rest) := by
  intro n
  induction n with
  | zero =>
    intro s addr buffer len rv rv1 out s1 h
    simp only [I2C_eeprom.readLoop] at h
    split at h
    · rename_i h0
      simp only [Option.some.injEq, Prod.mk.injEq] at h
      obtain ⟨-, -, rfl⟩ := h
      exact ⟨⟨[], by simp⟩, fun hl => by omega⟩
    · cases h
  | succ n ih =>
    intro s addr buffer len rv rv1 out s1 h
    simp only [I2C_eeprom.readLoop] at h
    split at h
    · rename_i h0
      simp only [Option.some.injEq, Prod.mk.injEq] at h
      obtain ⟨-, -, rfl⟩ := h
      exact ⟨⟨[], by simp⟩, fun hl => by omega⟩
    · cases hr : I2C_eeprom._ReadBlock fuel s addr buffer (I2C_eeprom.busChunk p len)
          IDPage with
      | none => simp [hr] at h
      | some res =>
        obtain ⟨got, buf1, s0⟩ := res
        simp only [hr] at h
        cases hl : I2C_eeprom.readLoop p fuel IDPage n s0
            ((addr + I2C_eeprom.busChunk p len) % 65536)
            (buf1.drop (I2C_eeprom.busChunk p len)) (len - I2C_eeprom.busChunk p len)
            ((rv + got) % 65536) with
        | none => simp [hl] at h
        | some res2 =>
          obtain ⟨rv2, rest2, s2⟩ := res2
          simp only [hl, Option.some.injEq, Prod.mk.injEq] at h
          obtain ⟨-, -, rfl⟩ := h
          obtain ⟨⟨evs, he⟩, -⟩ := ih _ _ _ _ _ _ _ _ hl
          obtain ⟨probes, st, rest, hp, hb⟩ := _ReadBlock_bus_first _ _ _ _ _ _ _ _ _ hr
          refine ⟨⟨probes ++ Event.tx
              (I2C_eeprom._beginTransmission s.drv s.world addr IDPage).txAddress
              (I2C_eeprom._beginTransmission s.drv s.world addr IDPage).txBuf false st ::
                rest ++ evs, ?_⟩,
            fun _ => ⟨probes, st, rest ++ evs, hp, ?_⟩⟩
          · rw [he, hb]
            simp
          · rw [he, hb]
            simp

/-- Whenever the loop of `verifyBlock` returns, it has only added to the
bus, and with `len > 0` what it has added starts with the probes of a wait
and the address phase of a read at `addr`. -/
theorem verifyLoop_bus (p : Platform) (fuel : Nat) (IDPage : Bool) :
    ∀ (n : Nat) (s : Sys) (addr : Nat) (buffer : List Nat) (len : Nat) (ok : Bool) (s1 : Sys),
    I2C_eeprom.verifyLoop p fuel IDPage n s addr buffer len = some (ok, s1) →
    (∃ evs, s1.world.bus = s.world.bus ++ evs) ∧
    (0 < len → ∃ (probes : List Event) (st : Nat) (rest : List Event),
      (∀ e ∈ probes, ∃ st1, e = Event.tx s.drv._deviceAddress [] true st1) ∧
      s1.world.bus = s.world.bus ++ probes ++
        Event.tx (I2C_eeprom._beginTransmission s.drv s.world addr IDPage).txAddress
          (I2C_eeprom._beginTransmission s.drv s.world addr IDPage).txBuf true st :: rest) := by
  intro n
  induction n with
  | zero =>
    intro s addr buffer len ok s1 h
    simp only [I2C_eeprom.verifyLoop] at h
    split at h
    · simp only [Option.some.injEq, Prod.mk.injEq] at h
      obtain ⟨-, rfl⟩ := h
      exact ⟨⟨[], by simp⟩, fun hl => by omega⟩
    · cases h
  | succ n ih =>
    intro s addr buffer len ok s1 h
    simp only [I2C_eeprom.verifyLoop] at h
    split at h
    · simp only [Option.some.injEq, Prod.mk.injEq] at h
      obtain ⟨-, rfl⟩ := h
      exact ⟨⟨[], by simp⟩, fun hl => by omega⟩
    · cases hr : I2C_eeprom._verifyBlock fuel s addr buffer (I2C_eeprom.busChunk p len)
          IDPage with
      | none => simp [hr] at h
      | some res =>
        obtain ⟨ok0, s0⟩ := res
        simp only [hr] at h
        obtain ⟨probes, st, rest, hp, hb⟩ := _verifyBlock_bus_first _ _ _ _ _ _ _ _ hr
        split at h
        · simp only [Option.some.injEq, Prod.mk.injEq] at h
          obtain ⟨-, rfl⟩ := h
          exact ⟨⟨_, by rw [hb, List.append_assoc]⟩, fun _ => ⟨probes, st, rest, hp, hb⟩⟩
        · obtain ⟨⟨evs, he⟩, -⟩ := ih _ _ _ _ _ _ h
          refine ⟨⟨probes ++ Event.tx
              (I2C_eeprom._beginTransmission s.drv s.world addr IDPage).txAddress
              (I2C_eeprom._beginTransmission s.drv s.world addr IDPage).txBuf true st ::
                rest ++ evs, ?_⟩,
            fun _ => ⟨probes, st, rest ++ evs, hp, ?_⟩⟩
          · rw [he, hb]
            simp
          · rw [he, hb]
            simp

/-- Whenever `_verifyBlock` returns, the driver object, the environment and
the geometry of the device are as before. -/
theorem _verifyBlock_frame (fuel : Nat) (s : Sys) (a : Nat) (buffer : List Nat) (length : Nat)
    (IDPage : Bool) (ok : Bool) (s1 : Sys)
    (h : I2C_eeprom._verifyBlock fuel s a buffer length IDPage = some (ok, s1)) :
    s1.drv = s.drv ∧ s1.world.env = s.world.env ∧ s1.world.dev.chip = s.world.dev.chip := by
  unfold I2C_eeprom._verifyBlock at h
  cases hw : I2C_eeprom._waitEEReady fuel s with
  | none => simp [hw] at h
  | some s0 =>
    obtain ⟨e1, e2, -, e4⟩ := _waitEEReady_frame fuel s s0 hw
    simp only [hw] at h
    rw [requestFrom_address s0.drv _ s0.world] at h
    split at h
    · simp only [Option.some.injEq, Prod.mk.injEq] at h
      obtain ⟨-, hs⟩ := h
      subst hs
      refine ⟨e1, ?_, ?_⟩
      · simp only [Wire.endTransmission_env, _beginTransmission_env, e2]
      · simp only [Wire.endTransmission_chip, _beginTransmission_dev, e4]
    · simp only [Option.some.injEq, Prod.mk.injEq] at h
      obtain ⟨-, hs⟩ := h
      subst hs
      obtain ⟨a3, a4, -⟩ := verifyCompare_frame ((Wire.requestFrom (Wire.endTransmission
        (I2C_eeprom._beginTransmission s0.drv s0.world a IDPage) true).2
        (I2C_eeprom._beginTransmission s0.drv s0.world a IDPage).txAddress
        (length % 256)).1 % 256) (Wire.requestFrom (Wire.endTransmission
        (I2C_eeprom._beginTransmission s0.drv s0.world a IDPage) true).2
        (I2C_eeprom._beginTransmission s0.drv s0.world a IDPage).txAddress
        (length % 256)).2 buffer 0
      refine ⟨e1, ?_, ?_⟩
      · simp only [a4, Wire.requestFrom_env, Wire.endTransmission_env, _beginTransmission_env,
          e2]
      · simp only [a3]
        show (Wire.endTransmission
          (I2C_eeprom._beginTransmission s0.drv s0.world a IDPage) true).2.dev.chip = _
        simp only [Wire.endTransmission_chip, _beginTransmission_dev, e4]

/-- On a responsive bus with the device at the driver's main address
`_verifyBlock` returns. -/
theorem _verifyBlock_returns (fuel : Nat) (s : Sys) (a : Nat) (buffer : List Nat)
    (length : Nat) (IDPage : Bool) (hf : 0 < fuel) (hr : Responsive s.world.env)
    (hb : s.world.dev.chip.base = s.drv._deviceAddress) :
    ∃ ok s1, I2C_eeprom._verifyBlock fuel s a buffer length IDPage = some (ok, s1) := by
  obtain ⟨s0, h0, -⟩ := _waitEEReady_responsive fuel s hf hr hb
  unfold I2C_eeprom._verifyBlock
  rw [h0]
  simp only
  split
  · exact ⟨_, _, rfl⟩
  · exact ⟨_, _, rfl⟩

/-- On a responsive bus with the device at the driver's main address the
loop of `readBlock` comes to an end within `len` passes, whatever the
address and the capacity. -/
theorem readLoop_returns (p : Platform) (fuel : Nat) (IDPage : Bool) (hf : 0 < fuel) :
    ∀ (n : Nat) (s : Sys) (addr : Nat) (buffer : List Nat) (len rv : Nat),
    len ≤ n → Responsive s.world.env → s.world.dev.chip.base = s.drv._deviceAddress →
    ∃ rv1 out s1, I2C_eeprom.readLoop p fuel IDPage n s addr buffer len rv =
      some (rv1, out, s1) ∧
      s1.drv = s.drv ∧ s1.world.env = s.world.env ∧ s1.world.dev.chip = s.world.dev.chip := by
  intro n
  induction n with
  | zero =>
    intro s addr buffer len rv hn _ _
    have : len = 0 := by omega
    subst this
    exact ⟨rv, buffer, s, by simp [I2C_eeprom.readLoop], rfl, rfl, rfl⟩
  | succ n ih =>
    intro s addr buffer len rv hn hr hb
    simp only [I2C_eeprom.readLoop]
    by_cases hlen : len = 0
    · rw [if_pos hlen]
      exact ⟨rv, buffer, s, rfl, rfl, rfl, rfl⟩
    · rw [if_neg hlen]
      obtain ⟨c1, c2, -⟩ := busChunk_bounds p len (Nat.pos_of_ne_zero hlen)
      obtain ⟨got, buf1, s0, h0⟩ := _ReadBlock_returns fuel s addr buffer
        (I2C_eeprom.busChunk p len) IDPage hf hr hb
      obtain ⟨f1, f2, f3⟩ := _ReadBlock_frame _ _ _ _ _ _ _ _ _ h0
      obtain ⟨rv2, out2, s2, h2, g1, g2, g3⟩ := ih s0
        ((addr + I2C_eeprom.busChunk p len) % 65536) (buf1.drop (I2C_eeprom.busChunk p len))
        (len - I2C_eeprom.busChunk p len) ((rv + got) % 65536) (by omega)
        (by rw [f2]; exact hr) (by rw [f3, f1]; exact hb)
      rw [h0]
      simp only
      rw [h2]
      exact ⟨_, _, s2, rfl, g1.trans f1, g2.trans f2, g3.trans f3⟩

/-- On a responsive bus with the device at the driver's main address the
loop of `verifyBlock` comes to an end within `len` passes, whatever the
address and the capacity. -/
theorem verifyLoop_returns (p : Platform) (fuel : Nat) (IDPage : Bool) (hf : 0 < fuel) :
    ∀ (n : Nat) (s : Sys) (addr : Nat) (buffer : List Nat) (len : Nat),
    len ≤ n → Responsive s.world.env → s.world.dev.chip.base = s.drv._deviceAddress →
    ∃ ok s1, I2C_eeprom.verifyLoop p fuel IDPage n s addr buffer len = some (ok, s1) := by
  intro n
  induction n with
  | zero =>
    intro s addr buffer len hn _ _
    have : len = 0 := by omega
    subst this
    exact ⟨true, s, by simp [I2C_eeprom.verifyLoop]⟩
  | succ n ih =>
    intro s addr buffer len hn hr hb
    simp only [I2C_eeprom.verifyLoop]
    by_cases hlen : len = 0
    · rw [if_pos hlen]
      exact ⟨true, s, rfl⟩
    · rw [if_neg hlen]
      obtain ⟨c1, c2, -⟩ := busChunk_bounds p len (Nat.pos_of_ne_zero hlen)
      obtain ⟨ok0, s0, h0⟩ := _verifyBlock_returns fuel s addr buffer
        (I2C_eeprom.busChunk p len) IDPage hf hr hb
      obtain ⟨f1, f2, f3⟩ := _verifyBlock_frame _ _ _ _ _ _ _ _ h0
      rw [h0]
      simp only
      split
      · exact ⟨_, _, rfl⟩
      · exact ih s0 _ _ _ (by omega) (by rw [f2]; exact hr) (by rw [f3, f1]; exact hb)

set_option maxRecDepth 100000 in
/-- C18, counterexample: the claim says that `readBlock` and `verifyBlock`
fail without a bus transaction when `address + length` exceeds the capacity.
With capacity 32768, address 32760 and length 16 (32776 > 32768),
`readBlock` returns 16 with the 16 bytes the device delivered, `verifyBlock`
returns true, and each has issued the address phase for address 32760 and a
request for 16 bytes. -/
theorem C18_reads_beyond_capacity_go_to_the_bus :
    (sampleSys 32768 255).drv.getDeviceSize = 32768 ∧
    (I2C_eeprom.readBlock .avr 1 (sampleSys 32768 255) 32760 (List.replicate 16 0) 16 false).map
        (fun r => (r.1, r.2.1, r.2.2.world.bus)) =
      some (16, List.replicate 16 255,
        [Event.tx 80 [] true 0, Event.tx 80 [127, 248] false 0, Event.rx 80 16 16]) ∧
    (I2C_eeprom.verifyBlock .avr 1 (sampleSys 32768 255) 32760 (List.replicate 16 255) 16
        false).map (fun r => (r.1, r.2.world.bus)) =
      some (true, [Event.tx 80 [] true 0, Event.tx 80 [127, 248] true 0, Event.rx 80 16 16]) := by
  decide

/-- C18, amended: `readBlock` and `verifyBlock` apply no capacity
precondition. For every address and every length of at least 1, whatever the
capacity, whenever the call returns it has put on the bus the probes of the
wait and then the address phase of a read at `address`; and on a responsive
bus with the device at the driver's main address the call returns. -/
theorem C18_reads_apply_no_capacity_check (p : Platform) (fuel : Nat) (s : Sys)
    (address length : Nat) (out buffer : List Nat) (IDPage : Bool) (hlen : 0 < length) :
    (∀ n out1 s1, I2C_eeprom.readBlock p fuel s address out length IDPage = some (n, out1, s1) →
      ∃ (probes : List Event) (st : Nat) (rest : List Event),
        (∀ e ∈ probes, ∃ st1, e = Event.tx s.drv._deviceAddress [] true st1) ∧
        s1.world.bus = s.world.bus ++ probes ++
          Event.tx (I2C_eeprom._beginTransmission s.drv s.world address IDPage).txAddress
            (I2C_eeprom._beginTransmission s.drv s.world address IDPage).txBuf false st ::
            rest) ∧
    (∀ ok s1, I2C_eeprom.verifyBlock p fuel s address buffer length IDPage = some (ok, s1) →
      ∃ (probes : List Event) (st : Nat) (rest : List Event),
        (∀ e ∈ probes, ∃ st1, e = Event.tx s.drv._deviceAddress [] true st1) ∧
        s1.world.bus = s.world.bus ++ probes ++
          Event.tx (I2C_eeprom._beginTransmission s.drv s.world address IDPage).txAddress
            (I2C_eeprom._beginTransmission s.drv s.world address IDPage).txBuf true st ::
            rest) ∧
    (0 < fuel → Responsive s.world.env → s.world.dev.chip.base = s.drv._deviceAddress →
      (∃ n out1 s1, I2C_eeprom.readBlock p fuel s address out length IDPage =
        some (n, out1, s1)) ∧
      (∃ ok s1, I2C_eeprom.verifyBlock p fuel s address buffer length IDPage =
        some (ok, s1))) := by
  refine ⟨?_, ?_, ?_⟩
  · intro n out1 s1 h
    exact (readLoop_bus p fuel IDPage _ _ _ _ _ _ _ _ _ h).2 hlen
  · intro ok s1 h
    exact (verifyLoop_bus p fuel IDPage _ _ _ _ _ _ _ h).2 hlen
  · intro hf hr hb
    obtain ⟨rv1, out1, s1, h, -⟩ := readLoop_returns p fuel IDPage hf length s address out
      length 0 (le_refl _) hr hb
    exact ⟨⟨rv1, out1, s1, h⟩,
      verifyLoop_returns p fuel IDPage hf length s address buffer length (le_refl _) hr hb⟩

/-- Witness for the amended C18: with capacity 32768, address 32760 and
length 16 both calls return, and the bus shows the address phase for address
32760. -/
theorem C18_reads_apply_no_capacity_check_witness :
    (∃ n out1 s1 probes st rest,
      I2C_eeprom.readBlock .avr 1 (sampleSys 32768 255) 32760 (List.replicate 16 0) 16 false =
        some (n, out1, s1) ∧
      s1.world.bus = probes ++ Event.tx 80 [127, 248] false st :: rest) ∧
    (∃ ok s1 probes st rest,
      I2C_eeprom.verifyBlock .avr 1 (sampleSys 32768 255) 32760 (List.replicate 16 255) 16
        false = some (ok, s1) ∧
      s1.world.bus = probes ++ Event.tx 80 [127, 248] true st :: rest) := by
  have h := C18_reads_apply_no_capacity_check .avr 1 (sampleSys 32768 255) 32760 16
    (List.replicate 16 0) (List.replicate 16 255) false (by decide)
  obtain ⟨⟨n, out1, s1, h1⟩, ⟨ok, s2, h2⟩⟩ := h.2.2 (by decide)
    ⟨fun _ => rfl, fun _ => le_refl _⟩ rfl
  obtain ⟨probes, st, rest, -, hb⟩ := h.1 n out1 s1 h1
  obtain ⟨probes2, st2, rest2, -, hb2⟩ := h.2.1 ok s2 h2
  exact ⟨⟨n, out1, s1, probes, st, rest, h1, by rw [hb]; rfl⟩,
    ⟨ok, s2, probes2, st2, rest2, h2, by rw [hb2]; rfl⟩⟩

/-! ### Size detection -/

set_option maxRecDepth 100000 in
/-- C16: the comment above `determineSize` says it "returns size in bytes",
and the claim says so for every initial content. The sizes up to 2048 are
probed in one-word mode, also on a device with two-word addresses; such a
device takes the two bytes of a one-word write as an address, and the
one-word reads then deliver stored bytes that the two writes of the test have
not touched. On a two-word device of 8192 cells in which every cell holds the
low byte of its address (so cell 0x55 holds 0x55 and cell 0xAA holds 0xAA)
both comparisons of the first pass succeed and `determineSize` returns 128.
On the same device with 255 in every cell it returns 8192, with the
addressing mode and cell 0 as before. -/
theorem C16_determineSize_depends_on_content :
    (probeSys true 8192 ramp 32768).world.dev.chip.size = 8192 ∧
    (I2C_eeprom.determineSize 1 (probeSys true 8192 ramp 32768) 0).map (fun r => r.1) =
      some 128 ∧
    (I2C_eeprom.determineSize 1 (probeSys true 8192 (fun _ => 255) 32768) 0).map
        (fun r => (r.1, r.2.drv._isAddressSizeTwoWords, r.2.world.dev.mem 0)) =
      some (8192, true, 255) := by
  decide

set_option maxRecDepth 100000 in
/-- C17: the comment above `determineSizeNoWrite` says it returns 1 "if
device has default bytes in first" 32 bytes, and the claim says it returns 1
exactly then. The function reads those bytes in two-word mode whatever the
device is (line 441). A device with one-word addresses takes the second
address byte as data, so the read does not start at cell 0, and the second
chunk of the read (on AVR the bus limit is 30) starts where the first one
did. On a one-word device of 2048 cells that holds 255 everywhere but 0x42 in
cell 31, on AVR, `determineSizeNoWrite` returns 1 although one of the first
32 bytes is neither 0x00 nor 0xFF. On a two-word device of 8192 cells the
same content gives 8192, and 255 everywhere gives 1 with the addressing mode
as before and no read but that of the first 32 bytes. -/
theorem C17_determineSizeNoWrite_one_word_device :
    (probeSys false 2048 (blankBut 31 66) 2048).world.dev.stored false 0 32 =
      List.replicate 31 255 ++ [66] ∧
    (I2C_eeprom.determineSizeNoWrite .avr 1 (probeSys false 2048 (blankBut 31 66) 2048)
        (fun _ => 0) (fun _ => 0)).map (fun r => r.1) = some 1 ∧
    (I2C_eeprom.determineSizeNoWrite .avr 1 (probeSys true 8192 (blankBut 31 66) 8192)
        (fun _ => 0) (fun _ => 0)).map (fun r => r.1) = some 8192 ∧
    (I2C_eeprom.determineSizeNoWrite .avr 1 (probeSys true 8192 (fun _ => 255) 8192)
        (fun _ => 0) (fun _ => 0)).map
        (fun r => (r.1, r.2.drv._isAddressSizeTwoWords, r.2.world.bus)) =
      some (1, true, [Event.tx 80 [] true 0, Event.tx 80 [] true 0,
        Event.tx 80 [0, 0] false 0, Event.rx 80 30 30, Event.tx 80 [] true 0,
        Event.tx 80 [0, 30] false 0, Event.rx 80 2 2]) := by
  decide


/-! ### Locking the identification page -/

/-- C21: unless both macros `ALLOW_IDPAGE_LOCK` and
`I_ACK_IDPAGE_CANT_BE_UNLOCKED` are non-zero, and so as compiled with both 0,
`lockIDPage` returns 13 for every state and leaves the state as it is: no
transaction on the bus, no change to the device or to the driver object. -/
theorem C21_lockIDPage_returns_13 (allow ack fuel : Nat) (s : Sys)
    (h : allow = 0 ∨ ack = 0) :
    I2C_eeprom.lockIDPageWith allow ack fuel s = some (13, s) ∧
    I2C_eeprom.lockIDPage fuel s = some (13, s) := by
  refine ⟨?_, rfl⟩
  unfold I2C_eeprom.lockIDPageWith
  rw [if_neg]
  rintro ⟨h1, h2⟩
  rcases h with h | h
  · exact h1 h
  · exact h2 h

/-- Witness for C21: with only the first macro set, on the sample device. -/
theorem C21_lockIDPage_returns_13_witness :
    I2C_eeprom.lockIDPageWith 1 0 1 (sampleSys 32768 255) = some (13, sampleSys 32768 255) ∧
    I2C_eeprom.lockIDPage 1 (sampleSys 32768 255) = some (13, sampleSys 32768 255) :=
  C21_lockIDPage_returns_13 1 0 1 (sampleSys 32768 255) (Or.inr rfl)

/-! ### `setBlockVerify`, and failures that go unnoticed -/

set_option maxRecDepth 100000 in
/-- C23: the claim says that `setBlockVerify` returns true if and only if
`setBlock` succeeded and every byte of the span in the same region reads back
equal to the value, for the identification page too. `setBlockVerify` calls
`readBlock` without the `IDPage` argument (line 337), so it reads the main
array. With 255 in the main array, `setBlock` of four bytes 7 at address 0 of
the identification page returns 0 and the page holds 7 in the span, yet
`setBlockVerify` of the same reads bus address 80, finds 255 and returns
false. On the main array the same call returns true. -/
theorem C23_setBlockVerify_reads_main_array (p : Platform) :
    (I2C_eeprom.setBlock p 1 (bulkSys 255 9) 0 7 4 true).map
        (fun r => (r.1, r.2.world.dev.stored true 0 4)) = some (0, [7, 7, 7, 7]) ∧
    (I2C_eeprom.setBlockVerify p 1 (bulkSys 255 9) 0 7 4 true (some (fun _ => 0))).map
        (fun r => (r.1, r.2.world.dev.stored true 0 4, r.2.world.bus)) =
      some (false, [7, 7, 7, 7],
        [Event.tx 80 [] true 0, Event.tx 88 [0, 0, 7, 7, 7, 7] true 0, Event.tx 80 [] true 0,
          Event.tx 80 [0, 0] false 0, Event.rx 80 4 4]) ∧
    (I2C_eeprom.setBlockVerify p 1 (bulkSys 255 9) 0 7 4 false (some (fun _ => 0))).map
        (fun r => (r.1, r.2.world.dev.stored false 0 4)) = some (true, [7, 7, 7, 7]) := by
  cases p <;> decide

set_option maxRecDepth 100000 in
/-- C24: the header says that under per-byte comparison `updateBlock`
"returns bytes written", and the claim says that the bytes of a run whose
write was rejected or failed are not counted. `updateBlock` adds the length
of every run to its result before it calls `_pageBlock`, and ignores what
`_pageBlock` returns (lines 267-268, 277-278). With capacity 32768,
`updateBlock` of 16 differing bytes at address 32760 has its one run rejected
by `_pageBlock` (32776 > 32768): nothing is written, and 16 is returned. And
when the write transaction of a run of 4 bytes fails on the bus with status
4, the stored bytes stay as they were, and 4 is returned. -/
theorem C24_updateBlock_counts_unwritten_runs (p : Platform) :
    (I2C_eeprom.updateBlock p 1 (sampleSys 32768 255) 32760 (List.replicate 16 7) 16 false
        (fun _ => 0)).map (fun r => (r.1, r.2.world.writes)) = some (16, []) ∧
    (I2C_eeprom._pageBlock p 1 (sampleSys 32768 255) 32760 (List.replicate 16 7) 16 true
        false).map (fun r => r.1) = some 12 ∧
    (I2C_eeprom.updateBlock p 2 (faultySys 32768 255 2 4) 100 (List.replicate 4 7) 4 false
        (fun _ => 0)).map (fun r => (r.1, r.2.world.writes, r.2.world.dev.stored false 100 4)) =
      some (4, [⟨100, 4, [7, 7, 7, 7], false, 4⟩], [255, 255, 255, 255]) := by
  cases p <;> decide

set_option maxRecDepth 100000 in
/-- C26: the comment above `_verifyBlock` says "returns true if equal", and
the claim says that `verifyBlock` returns false when the transport delivers
fewer bytes than requested. `_verifyBlock` compares only the bytes that
arrived and returns true when none of them differs (lines 811-819). With 255
in the three cells from address 100 and the buffer 1, 2, 3, on a bus where
the request for the three bytes delivers none, `verifyBlock` returns true;
on a bus without faults it returns false. -/
theorem C26_verifyBlock_true_on_short_read (p : Platform) :
    (faultySys 32768 255 1 4).world.dev.stored false 100 3 = [255, 255, 255] ∧
    (I2C_eeprom.verifyBlock p 1 (faultySys 32768 255 1 4) 100 [1, 2, 3] 3 false).map
        (fun r => (r.1, r.2.world.bus)) =
      some (true, [Event.tx 80 [0, 100] true 0, Event.rx 80 3 0]) ∧
    (I2C_eeprom.verifyBlock p 1 (sampleSys 32768 255) 100 [1, 2, 3] 3 false).map
        (fun r => r.1) = some false := by
  cases p <;> decide

/-! ### What a write changes, whatever the bus does -/

theorem isConnected_dev (d : I2C_eeprom) (w : World) (r : Bool) :
    (I2C_eeprom.isConnected d w r).2.dev = w.dev := by
  unfold I2C_eeprom.isConnected Wire.endTransmission Wire.beginTransmission
  simp only [Device.receive_nil, ite_self]

/-- Whenever the wait returns, the device is as it was: the probes carry no
byte. -/
theorem _waitEEReady_dev : ∀ (fuel : Nat) (s s1 : Sys),
    I2C_eeprom._waitEEReady fuel s = some s1 → s1.world.dev = s.world.dev := by
  intro fuel
  induction fuel with
  | zero => intro s s1 h; simp [I2C_eeprom._waitEEReady] at h
  | succ n ih =>
    intro s s1 h
    simp only [I2C_eeprom._waitEEReady] at h
    split at h
    · split at h
      · simp only [Option.some.injEq] at h
        subst h
        exact isConnected_dev _ _ _
      · rw [ih _ _ h]
        exact isConnected_dev _ _ _
    · simp only [Option.some.injEq] at h
      subst h
      rfl

/-- A write transaction to a fitting device returns the fault injected into
it, and if there is none it is a page write of the data at the memory
address. -/
theorem Wire.endTransmission_fit_any (d : I2C_eeprom) (w : World) (a : Nat) (IDPage : Bool)
    (data : List Nat) (stop : Bool) (hf : Fit d w.dev.chip IDPage)
    (ha : a < d._deviceSize) (hid : IDPage = true → a < d._pageSize) :
    (Wire.endTransmission (Wire.writeBytes (I2C_eeprom._beginTransmission d w a IDPage) data)
      stop).1 = w.env.status w.txn ∧
    (Wire.endTransmission (Wire.writeBytes (I2C_eeprom._beginTransmission d w a IDPage) data)
      stop).2.dev =
      if w.env.status w.txn = 0 then Device.program IDPage data w.dev a else w.dev := by
  have hs := hf.select w a ha hid
  have hd := hf.decode w a data ha hid
  by_cases h0 : w.env.status w.txn = 0
  · simp only [Wire.endTransmission, Wire.writeBytes, _beginTransmission_dev,
      _beginTransmission_env, _beginTransmission_txn, h0, ne_eq, not_true_eq_false, if_false, hs,
      Option.isSome_some, if_true, Device.receive, hd, true_and]
  · simp only [Wire.endTransmission, Wire.writeBytes, _beginTransmission_dev,
      _beginTransmission_env, _beginTransmission_txn, h0, ne_eq, not_false_eq_true, if_true,
      if_false, true_and]

/-- Whatever the bus does, a `_WriteBlock` to a fitting device whose payload
stays inside one page and inside the region, if it returns 0, has stored the
payload at consecutive addresses of the region from `memoryAddress` on and
changed no other cell; if it returns another status it has changed no cell. -/
theorem _WriteBlock_effect (fuel : Nat) (s : Sys) (a : Nat) (buffer : List Nat) (cnt : Nat)
    (IDPage : Bool) (rv : Nat) (s1 : Sys) (hf : Fit s.drv s.world.dev.chip IDPage)
    (ha : a < s.drv._deviceSize) (hid : IDPage = true → a < s.drv._pageSize)
    (hpage : a % s.drv._pageSize + (buffer.take cnt).length ≤ s.drv._pageSize)
    (hspan : a + (buffer.take cnt).length ≤ s.drv._deviceSize)
    (hspanid : IDPage = true → a + (buffer.take cnt).length ≤ s.drv._pageSize)
    (h : I2C_eeprom._WriteBlock fuel s a buffer cnt IDPage = some (rv, s1)) :
    (rv = 0 →
      s1.world.dev.bank IDPage = (fun x =>
        if a ≤ x ∧ x < a + (buffer.take cnt).length then (buffer.take cnt).getD (x - a) 0
        else s.world.dev.bank IDPage x) ∧
      s1.world.dev.bank (!IDPage) = s.world.dev.bank (!IDPage)) ∧
    (rv ≠ 0 → ∀ r, s1.world.dev.bank r = s.world.dev.bank r) := by
  cases hw : I2C_eeprom._waitEEReady fuel s with
  | none =>
    unfold I2C_eeprom._WriteBlock at h
    rw [hw] at h
    simp at h
  | some s0 =>
    obtain ⟨d0, -, -, -⟩ := _waitEEReady_frame fuel s s0 hw
    have dv0 := _waitEEReady_dev fuel s s0 hw
    have hf1 : Fit s0.drv (if s0.drv._autoWriteProtect = true then
        digitalWrite s0.world s0.drv._writeProtectPin false else s0.world).dev.chip IDPage := by
      rw [digitalWrite_dev, dv0, d0]; exact hf
    obtain ⟨t1, t2⟩ := Wire.endTransmission_fit_any s0.drv _ a IDPage (buffer.take cnt) true hf1
      (by rw [d0]; exact ha) (by rw [d0]; exact hid)
    rw [digitalWrite_dev, dv0] at t2
    have hprog := Device.program_bank IDPage (buffer.take cnt) s.world.dev a
      (by rw [hf.attached.2.2.2.1]; exact hpage) (hf.span_le _ hspan hspanid)
    unfold I2C_eeprom._WriteBlock at h
    rw [hw] at h
    simp only [Option.some.injEq, Prod.mk.injEq] at h
    obtain ⟨hrv, hs⟩ := h
    rw [t1] at hrv
    refine ⟨fun h0 => ?_, fun hne r => ?_⟩
    · rw [← hrv] at h0
      rw [if_pos h0] at t2
      refine ⟨?_, ?_⟩
      · rw [← hs]
        simp only [micros_dev, digitalWrite_dev, t2]
        exact hprog.1
      · rw [← hs]
        simp only [micros_dev, digitalWrite_dev, t2]
        exact hprog.2
    · rw [← hrv] at hne
      rw [if_neg hne] at t2
      rw [← hs]
      simp only [micros_dev, digitalWrite_dev, t2]

theorem pageChunk_le (p : Platform) (P addr len : Nat) :
    I2C_eeprom.pageChunk p P addr len ≤ len := by
  unfold I2C_eeprom.pageChunk
  simp only
  split_ifs <;> omega

/-- On a responsive bus and a fitting device the loop of `_pageBlock`, for a
span inside the region, returns 0, with the buffer advancing or not. -/
theorem pageLoop_zero (p : Platform) (fuel : Nat) (incr IDPage : Bool) (hfu : 0 < fuel) :
    ∀ (n : Nat) (s : Sys) (addr : Nat) (buffer : List Nat) (len : Nat),
    len ≤ n → Good s IDPage →
    (0 < len → addr + len ≤ s.drv._deviceSize ∧
      (IDPage = true → addr + len ≤ s.drv._pageSize)) →
    ∃ s1, I2C_eeprom.pageLoop p fuel incr IDPage n s addr buffer len = some (0, s1) := by
  intro n
  induction n with
  | zero =>
    intro s addr buffer len hn _ _
    have : len = 0 := by omega
    subst this
    exact ⟨s, by simp [I2C_eeprom.pageLoop]⟩
  | succ n ih =>
    intro s addr buffer len hn hg hin
    simp only [I2C_eeprom.pageLoop]
    by_cases hlen : len = 0
    · rw [if_pos hlen]
      exact ⟨s, rfl⟩
    · rw [if_neg hlen]
      have hlen : 0 < len := Nat.pos_of_ne_zero hlen
      obtain ⟨hin1, hin2⟩ := hin hlen
      have hP := hg.2.pagePos
      have hP2 := hg.2.pageLt
      have hcap := hg.2.cap
      obtain ⟨c1, c2, c3, c4⟩ := pageChunk_bounds p s.drv._pageSize addr len hP hP2 hlen
      have hm : addr % s.drv._pageSize < s.drv._pageSize := Nat.mod_lt _ hP
      have htl : (buffer.take (I2C_eeprom.pageChunk p s.drv._pageSize addr len)).length ≤
          I2C_eeprom.pageChunk p s.drv._pageSize addr len := by
        rw [List.length_take]; omega
      obtain ⟨s0, hw, w1, w2, w3, -⟩ := _WriteBlock_ok fuel s addr buffer
        (I2C_eeprom.pageChunk p s.drv._pageSize addr len) IDPage hfu hg (by omega)
        (fun h => by have := hin2 h; omega) (by omega) (by omega)
        (fun h => by have := hin2 h; omega)
      rw [hw]
      simp only [ne_eq, not_true_eq_false, if_false, if_true]
      have hds : s0.drv._deviceSize = s.drv._deviceSize := by rw [w1]
      have hps : s0.drv._pageSize = s.drv._pageSize := by rw [w1]
      exact ih s0 _ _ _ (by omega) (hg.frame w1 w2 w3) (fun h => by
        have e : (addr + I2C_eeprom.pageChunk p s.drv._pageSize addr len) % 65536 =
            addr + I2C_eeprom.pageChunk p s.drv._pageSize addr len :=
          Nat.mod_eq_of_lt (by omega)
        rw [e, hds, hps]
        exact ⟨by omega, fun hi => by have := hin2 hi; omega⟩)

/-- Whatever the bus does, when the loop of `_pageBlock` on a fitting device,
for a span inside the region, returns 0, the cells of the span hold the
bytes of the buffer (with the buffer advancing) or the byte `v` (with a
buffer of `I2C_BUFFERSIZE` bytes `v` that does not advance), and no other
cell has changed. -/
theorem pageLoop_effect (p : Platform) (fuel : Nat) (incr IDPage : Bool) (v : Nat) :
    ∀ (n : Nat) (s : Sys) (addr : Nat) (buffer : List Nat) (len : Nat) (s1 : Sys),
    Fit s.drv s.world.dev.chip IDPage →
    (incr = true → len ≤ buffer.length) →
    (incr = false → buffer = List.replicate (I2C_BUFFERSIZE p) v) →
    (0 < len → addr + len ≤ s.drv._deviceSize ∧
      (IDPage = true → addr + len ≤ s.drv._pageSize)) →
    I2C_eeprom.pageLoop p fuel incr IDPage n s addr buffer len = some (0, s1) →
    s1.world.dev.bank IDPage = (fun x =>
        if addr ≤ x ∧ x < addr + len then (if incr = true then buffer.getD (x - addr) 0 else v)
        else s.world.dev.bank IDPage x) ∧
      s1.world.dev.bank (!IDPage) = s.world.dev.bank (!IDPage) := by
  intro n
  induction n with
  | zero =>
    intro s addr buffer len s1 _ _ _ _ h
    simp only [I2C_eeprom.pageLoop] at h
    split at h
    · rename_i h0
      simp only [Option.some.injEq, Prod.mk.injEq, true_and] at h
      subst h
      refine ⟨?_, rfl⟩
      funext x
      rw [if_neg (by omega)]
    · cases h
  | succ n ih =>
    intro s addr buffer len s1 hf hb1 hb2 hin h
    simp only [I2C_eeprom.pageLoop] at h
    split at h
    · rename_i h0
      simp only [Option.some.injEq, Prod.mk.injEq, true_and] at h
      subst h
      refine ⟨?_, rfl⟩
      funext x
      rw [if_neg (by omega)]
    · rename_i hlen
      have hlen : 0 < len := Nat.pos_of_ne_zero hlen
      obtain ⟨hin1, hin2⟩ := hin hlen
      have hP := hf.pagePos
      have hP2 := hf.pageLt
      have hcap := hf.cap
      obtain ⟨c1, c2, c3, c4⟩ := pageChunk_bounds p s.drv._pageSize addr len hP hP2 hlen
      have hm : addr % s.drv._pageSize < s.drv._pageSize := Nat.mod_lt _ hP
      have htl : (buffer.take (I2C_eeprom.pageChunk p s.drv._pageSize addr len)).length =
          I2C_eeprom.pageChunk p s.drv._pageSize addr len := by
        rw [List.length_take]
        cases incr
        · rw [hb2 rfl, List.length_replicate]; omega
        · have := hb1 rfl; omega
      cases hw : I2C_eeprom._WriteBlock fuel s addr buffer
          (I2C_eeprom.pageChunk p s.drv._pageSize addr len) IDPage with
      | none => simp [hw] at h
      | some res =>
        obtain ⟨rv0, s0⟩ := res
        simp only [hw] at h
        obtain ⟨f1, -, f3, -⟩ := _WriteBlock_frame _ _ _ _ _ _ _ _ hw
        obtain ⟨e0, -⟩ := _WriteBlock_effect fuel s addr buffer
          (I2C_eeprom.pageChunk p s.drv._pageSize addr len) IDPage rv0 s0 hf (by omega)
          (fun h => by have := hin2 h; omega) (by rw [htl]; omega) (by rw [htl]; omega)
          (fun h => by have := hin2 h; rw [htl]; omega) hw
        split at h
        · rename_i hne
          simp only [Option.some.injEq, Prod.mk.injEq] at h
          exact absurd h.1 hne
        · rename_i h0
          have h0 : rv0 = 0 := by
            by_contra hc
            exact h0 hc
          obtain ⟨w4, w5⟩ := e0 h0
          have hf0 : Fit s0.drv s0.world.dev.chip IDPage := by
            rw [f3, f1]
            exact hf.lastWrite _
          have hds : s0.drv._deviceSize = s.drv._deviceSize := by rw [f1]
          have hps : s0.drv._pageSize = s.drv._pageSize := by rw [f1]
          obtain ⟨i4, i5⟩ := ih s0
            ((addr + I2C_eeprom.pageChunk p s.drv._pageSize addr len) % 65536)
            (if incr = true then buffer.drop (I2C_eeprom.pageChunk p s.drv._pageSize addr len)
              else buffer)
            (len - I2C_eeprom.pageChunk p s.drv._pageSize addr len) s1 hf0
            (fun hi => by rw [if_pos hi, List.length_drop]; have := hb1 hi; omega)
            (fun hi => by rw [if_neg (by simp [hi])]; exact hb2 hi)
            (fun h => by
              have e : (addr + I2C_eeprom.pageChunk p s.drv._pageSize addr len) % 65536 =
                  addr + I2C_eeprom.pageChunk p s.drv._pageSize addr len :=
                Nat.mod_eq_of_lt (by omega)
              rw [e, hds, hps]
              exact ⟨by omega, fun hi => by have := hin2 hi; omega⟩) h
          refine ⟨?_, i5.trans w5⟩
          rw [i4, w4, htl]
          funext x
          beta_reduce
          have hchunk : ∀ y, addr ≤ y →
              y < addr + I2C_eeprom.pageChunk p s.drv._pageSize addr len →
              (buffer.take (I2C_eeprom.pageChunk p s.drv._pageSize addr len)).getD (y - addr) 0 =
                (if incr = true then buffer.getD (y - addr) 0 else v) := by
            intro y hy1 hy2
            rw [getD_take _ _ _ (by omega)]
            cases incr
            · rw [if_neg (by simp), hb2 rfl,
                List.getD_eq_getElem _ _ (by rw [List.length_replicate]; omega)]
              simp
            · rw [if_pos rfl]
          by_cases hrest : 0 < len - I2C_eeprom.pageChunk p s.drv._pageSize addr len
          · have e : (addr + I2C_eeprom.pageChunk p s.drv._pageSize addr len) % 65536 =
                addr + I2C_eeprom.pageChunk p s.drv._pageSize addr len :=
              Nat.mod_eq_of_lt (by omega)
            rw [e]
            by_cases hx : addr + I2C_eeprom.pageChunk p s.drv._pageSize addr len ≤ x ∧
                x < addr + I2C_eeprom.pageChunk p s.drv._pageSize addr len +
                  (len - I2C_eeprom.pageChunk p s.drv._pageSize addr len)
            · have hxr : addr ≤ x ∧ x < addr + len := by omega
              rw [if_pos hx, if_pos hxr]
              by_cases hi : incr = true
              · rw [if_pos hi, if_pos hi, if_pos hi, getD_drop]
                congr 1
                omega
              · rw [if_neg hi, if_neg hi]
            · rw [if_neg hx]
              by_cases hx2 : addr ≤ x ∧
                  x < addr + I2C_eeprom.pageChunk p s.drv._pageSize addr len
              · have hxr : addr ≤ x ∧ x < addr + len := by omega
                rw [if_pos hx2, if_pos hxr, hchunk x hx2.1 hx2.2]
              · have hxr : ¬(addr ≤ x ∧ x < addr + len) := by omega
                rw [if_neg hx2, if_neg hxr]
          · have hx0 : ¬((addr + I2C_eeprom.pageChunk p s.drv._pageSize addr len) % 65536 ≤ x ∧
                x < (addr + I2C_eeprom.pageChunk p s.drv._pageSize addr len) % 65536 +
                  (len - I2C_eeprom.pageChunk p s.drv._pageSize addr len)) := by omega
            rw [if_neg hx0]
            by_cases hx2 : addr ≤ x ∧ x < addr + I2C_eeprom.pageChunk p s.drv._pageSize addr len
            · have hxr : addr ≤ x ∧ x < addr + len := by omega
              rw [if_pos hx2, if_pos hxr, hchunk x hx2.1 hx2.2]
            · have hxr : ¬(addr ≤ x ∧ x < addr + len) := by omega
              rw [if_neg hx2, if_neg hxr]

/-- C25 (frame of a write). For a driver object fresh from the constructor
(hence every capacity and page size the constructor can set) and a device
with the geometry the object assumes, whose page writes wrap inside the
page, for every region, every span `address .. address + length` inside the
bounds of the region, every buffer of at least `length` bytes and every fill
value, and whatever the bus does: when `writeBlock` or `setBlock` returns 0,
no cell outside the span has changed, in the region written to or in the
other one. On a responsive bus both calls return 0. -/
theorem C25_write_changes_only_the_span (p : Platform) (fuel : Nat) (s : Sys)
    (deviceAddress deviceSize : Nat) (hasIDPage IDPage : Bool) (address length : Nat)
    (buffer : List Nat) (data : Nat)
    (hdrv : s.drv = I2C_eeprom.new deviceAddress deviceSize hasIDPage)
    (hatt : Attached s.drv s.world.dev.chip)
    (hwire : s.drv._isAddressSizeTwoWords = false → deviceAddress % 8 = 0)
    (hreg : IDPage = true → hasIDPage = true)
    (hlen : length ≤ buffer.length)
    (hin : InBounds s.drv address length IDPage) :
    (∀ s1, I2C_eeprom.writeBlock p fuel s address buffer length IDPage = some (0, s1) →
      (∀ x, ¬(address ≤ x ∧ x < address + length) →
        s1.world.dev.bank IDPage x = s.world.dev.bank IDPage x) ∧
      s1.world.dev.bank (!IDPage) = s.world.dev.bank (!IDPage)) ∧
    (∀ s1, I2C_eeprom.setBlock p fuel s address data length IDPage = some (0, s1) →
      (∀ x, ¬(address ≤ x ∧ x < address + length) →
        s1.world.dev.bank IDPage x = s.world.dev.bank IDPage x) ∧
      s1.world.dev.bank (!IDPage) = s.world.dev.bank (!IDPage)) ∧
    (0 < fuel → Responsive s.world.env →
      (∃ s1, I2C_eeprom.writeBlock p fuel s address buffer length IDPage = some (0, s1)) ∧
      (∃ s1, I2C_eeprom.setBlock p fuel s address data length IDPage = some (0, s1))) := by
  have hf : Fit s.drv s.world.dev.chip IDPage := by
    rw [hdrv] at hatt hwire ⊢
    exact new_fit deviceAddress deviceSize hasIDPage _ IDPage hatt hwire hreg
  obtain ⟨c1, c2⟩ := hin.passes p
  have hpb : ∀ (b : List Nat) (incr : Bool),
      I2C_eeprom._pageBlock p fuel s address b length incr IDPage =
        I2C_eeprom.pageLoop p fuel incr IDPage length s address b length := by
    intro b incr
    unfold I2C_eeprom._pageBlock
    simp only
    rw [if_neg c1, if_neg c2]
  refine ⟨?_, ?_, ?_⟩
  · intro s1 h
    unfold I2C_eeprom.writeBlock at h
    rw [hpb] at h
    obtain ⟨e1, e2⟩ := pageLoop_effect p fuel true IDPage 0 length s address buffer length s1 hf
      (fun _ => hlen) (fun hc => by cases hc) (fun _ => hin) h
    refine ⟨fun x hx => ?_, e2⟩
    rw [e1]
    beta_reduce
    rw [if_neg hx]
  · intro s1 h
    unfold I2C_eeprom.setBlock at h
    simp only at h
    rw [hpb] at h
    obtain ⟨e1, e2⟩ := pageLoop_effect p fuel false IDPage data length s address
      (List.replicate (I2C_BUFFERSIZE p) data) length s1 hf
      (fun hc => by cases hc) (fun _ => rfl) (fun _ => hin) h
    refine ⟨fun x hx => ?_, e2⟩
    rw [e1]
    beta_reduce
    rw [if_neg hx]
  · intro hfu hr
    refine ⟨?_, ?_⟩
    · unfold I2C_eeprom.writeBlock
      rw [hpb]
      exact pageLoop_zero p fuel true IDPage hfu length s address buffer length (le_refl _)
        ⟨hr, hf⟩ (fun _ => hin)
    · unfold I2C_eeprom.setBlock
      simp only
      rw [hpb]
      exact pageLoop_zero p fuel false IDPage hfu length s address _ length (le_refl _)
        ⟨hr, hf⟩ (fun _ => hin)

/-- Witness for C25: on the sample device of capacity 32768 a block of four
bytes written at address 62, across the page boundary at 64, and a fill of
four bytes there, leave 255 in every cell outside 62 .. 65. -/
theorem C25_write_changes_only_the_span_witness :
    (∃ s1, I2C_eeprom.writeBlock .avr 1 (sampleSys 32768 255) 62 [1, 2, 3, 4] 4 false =
        some (0, s1) ∧
      ∀ x, ¬(62 ≤ x ∧ x < 62 + 4) → s1.world.dev.bank false x = 255) ∧
    (∃ s1, I2C_eeprom.setBlock .avr 1 (sampleSys 32768 255) 62 7 4 false = some (0, s1) ∧
      ∀ x, ¬(62 ≤ x ∧ x < 62 + 4) → s1.world.dev.bank false x = 255) := by
  have h := C25_write_changes_only_the_span .avr 1 (sampleSys 32768 255) 80 32768 true false 62 4
    [1, 2, 3, 4] 7 rfl ⟨rfl, rfl, rfl, rfl, le_refl _⟩ (by decide) (by decide) (by decide)
    (by unfold InBounds; decide)
  obtain ⟨⟨s1, h1⟩, ⟨s2, h2⟩⟩ := h.2.2 (by decide) ⟨fun _ => rfl, fun _ => le_refl _⟩
  exact ⟨⟨s1, h1, fun x hx => (h.1 s1 h1).1 x hx⟩, ⟨s2, h2, fun x hx => (h.2.1 s2 h2).1 x hx⟩⟩

/-! ### The layout of the chunks of a write -/

/-- A chunk of `_pageBlock` is never longer than `I2C_BUFFERSIZE`. -/
theorem pageChunk_le_buffersize (p : Platform) (P addr len : Nat) :
    I2C_eeprom.pageChunk p P addr len ≤ I2C_BUFFERSIZE p := by
  unfold I2C_eeprom.pageChunk
  simp only
  split_ifs <;> omega

/-- Whatever the bus does, when the loop of `_pageBlock` returns 0 the
`_WriteBlock` calls it made have lengths that sum to `len`, each call is at
the address `addr` plus the lengths of the calls before it (in 16 bits), and
its payload is what the buffer holds from that offset on (with the buffer
advancing) or from its start on (with the buffer fixed); no call is longer
than `I2C_BUFFERSIZE`. -/
theorem pageLoop_layout (p : Platform) (fuel : Nat) (incr IDPage : Bool) :
    ∀ (n : Nat) (s : Sys) (addr : Nat) (buffer : List Nat) (len : Nat) (s1 : Sys),
    addr < 65536 →
    I2C_eeprom.pageLoop p fuel incr IDPage n s addr buffer len = some (0, s1) →
    ∃ new : List WriteRec, s1.world.writes = s.world.writes ++ new ∧
      (new.map (fun r => r.length)).sum = len ∧
      ∀ pre r post, new = pre ++ r :: post →
        r.memoryAddress = (addr + (pre.map (fun q => q.length)).sum) % 65536 ∧
        r.data = (if incr = true then buffer.drop (pre.map (fun q => q.length)).sum
          else buffer).take r.length ∧
        r.IDPage = IDPage ∧ r.status = 0 ∧ r.length ≤ I2C_BUFFERSIZE p := by
  intro n
  induction n with
  | zero =>
    intro s addr buffer len s1 _ h
    simp only [I2C_eeprom.pageLoop] at h
    split at h
    · rename_i h0
      simp only [Option.some.injEq, Prod.mk.injEq, true_and] at h
      subst h
      refine ⟨[], by simp, by simp [h0], ?_⟩
      intro pre r post hp
      simp at hp
    · cases h
  | succ n ih =>
    intro s addr buffer len s1 ha h
    simp only [I2C_eeprom.pageLoop] at h
    split at h
    · rename_i h0
      simp only [Option.some.injEq, Prod.mk.injEq, true_and] at h
      subst h
      refine ⟨[], by simp, by simp [h0], ?_⟩
      intro pre r post hp
      simp at hp
    · cases hw : I2C_eeprom._WriteBlock fuel s addr buffer
          (I2C_eeprom.pageChunk p s.drv._pageSize addr len) IDPage with
      | none => simp [hw] at h
      | some res =>
        obtain ⟨rv0, s0⟩ := res
        simp only [hw] at h
        obtain ⟨-, -, -, f4⟩ := _WriteBlock_frame _ _ _ _ _ _ _ _ hw
        split at h
        · rename_i hne
          simp only [Option.some.injEq, Prod.mk.injEq] at h
          exact absurd h.1 hne
        · rename_i h0
          have h0 : rv0 = 0 := by
            by_contra hc
            exact h0 hc
          have hc := pageChunk_le p s.drv._pageSize addr len
          obtain ⟨new, g1, g2, g3⟩ := ih s0 _ _ _ s1 (Nat.mod_lt _ (by norm_num)) h
          refine ⟨WriteRec.mk addr (I2C_eeprom.pageChunk p s.drv._pageSize addr len)
            (buffer.take (I2C_eeprom.pageChunk p s.drv._pageSize addr len)) IDPage rv0 :: new,
            ?_, ?_, ?_⟩
          · rw [g1, f4]
            simp
          · simp only [List.map_cons, List.sum_cons, g2]
            omega
          · intro pre r post hp
            cases pre with
            | nil =>
              simp only [List.nil_append, List.cons.injEq] at hp
              obtain ⟨rfl, -⟩ := hp
              simp only [List.map_nil, List.sum_nil, Nat.add_zero, List.drop_zero, ite_self]
              exact ⟨(Nat.mod_eq_of_lt ha).symm, trivial, trivial, h0,
                pageChunk_le_buffersize p _ _ _⟩
            | cons q pre1 =>
              simp only [List.cons_append, List.cons.injEq] at hp
              obtain ⟨rfl, hp⟩ := hp
              obtain ⟨k1, k2, k3, k4, k5⟩ := g3 pre1 r post hp
              refine ⟨?_, ?_, k3, k4, k5⟩
              · rw [k1]
                simp only [List.map_cons, List.sum_cons]
                omega
              · rw [k2]
                simp only [List.map_cons, List.sum_cons]
                by_cases hi : incr = true
                · rw [if_pos hi, if_pos hi, if_pos hi, List.drop_drop]
                · rw [if_neg hi, if_neg hi, if_neg hi]

/-- C22 (layout of the chunks). For every platform, every state of the bus
and the device, every region, every 16-bit `address`, every `length`, buffer
and fill value: when `writeBlock` or `setBlock` returns 0 (which it does only
if both precondition checks of `_pageBlock` passed and every transaction
succeeded), the `_WriteBlock` calls it made have lengths that sum to `length`,
each is at `address` plus the lengths of the calls before it (in 16-bit
arithmetic, and exactly so for a non-empty call when the span ends at or
below 65536), is for the region asked for and has status 0. The payload of a
call of `writeBlock` is the slice of the buffer that starts at that offset
and has the length of the call; the payload of a call of `setBlock` is the
fill value repeated over the length of the call. On a responsive bus and a
fitting device both calls return 0 for every span inside the region. -/
theorem C22_chunks_consecutive_with_their_payload (p : Platform) (fuel : Nat) (s : Sys)
    (address : Nat) (buffer : List Nat) (data length : Nat) (IDPage : Bool)
    (haddr : address < 65536) :
    (∀ s1, I2C_eeprom.writeBlock p fuel s address buffer length IDPage = some (0, s1) →
      PassesChecks p s.drv address length IDPage ∧
      ∃ new : List WriteRec, s1.world.writes = s.world.writes ++ new ∧
        (new.map (fun r => r.length)).sum = length ∧
        ∀ pre r post, new = pre ++ r :: post →
          r.memoryAddress = (address + (pre.map (fun q => q.length)).sum) % 65536 ∧
          (address + length ≤ 65536 → 0 < r.length →
            r.memoryAddress = address + (pre.map (fun q => q.length)).sum) ∧
          r.IDPage = IDPage ∧ r.status = 0 ∧
          r.data = (buffer.drop (pre.map (fun q => q.length)).sum).take r.length) ∧
    (∀ s1, I2C_eeprom.setBlock p fuel s address data length IDPage = some (0, s1) →
      PassesChecks p s.drv address length IDPage ∧
      ∃ new : List WriteRec, s1.world.writes = s.world.writes ++ new ∧
        (new.map (fun r => r.length)).sum = length ∧
        ∀ pre r post, new = pre ++ r :: post →
          r.memoryAddress = (address + (pre.map (fun q => q.length)).sum) % 65536 ∧
          (address + length ≤ 65536 → 0 < r.length →
            r.memoryAddress = address + (pre.map (fun q => q.length)).sum) ∧
          r.IDPage = IDPage ∧ r.status = 0 ∧
          r.data = List.replicate r.length data) ∧
    (0 < fuel → Good s IDPage → InBounds s.drv address length IDPage →
      (∃ s1, I2C_eeprom.writeBlock p fuel s address buffer length IDPage = some (0, s1)) ∧
      (∃ s1, I2C_eeprom.setBlock p fuel s address data length IDPage = some (0, s1))) := by
  have key : ∀ (b : List Nat) (incr : Bool) (s1 : Sys),
      I2C_eeprom._pageBlock p fuel s address b length incr IDPage = some (0, s1) →
      PassesChecks p s.drv address length IDPage ∧
      ∃ new : List WriteRec, s1.world.writes = s.world.writes ++ new ∧
        (new.map (fun r => r.length)).sum = length ∧
        ∀ pre r post, new = pre ++ r :: post →
          r.memoryAddress = (address + (pre.map (fun q => q.length)).sum) % 65536 ∧
          (address + length ≤ 65536 → 0 < r.length →
            r.memoryAddress = address + (pre.map (fun q => q.length)).sum) ∧
          r.IDPage = IDPage ∧ r.status = 0 ∧
          r.data = (if incr = true then b.drop (pre.map (fun q => q.length)).sum
            else b).take r.length ∧
          r.length ≤ I2C_BUFFERSIZE p := by
    intro b incr s1 h
    unfold I2C_eeprom._pageBlock at h
    simp only at h
    by_cases c1 : IDPage = true ∧ (address + length) % 2 ^ intBits p > s.drv._pageSize
    · rw [if_pos c1] at h
      simp at h
    · rw [if_neg c1] at h
      by_cases c2 : (address + length) % 2 ^ intBits p > s.drv._deviceSize
      · rw [if_pos c2] at h
        simp at h
      · rw [if_neg c2] at h
        refine ⟨⟨c1, c2⟩, ?_⟩
        obtain ⟨new, g1, g2, g3⟩ := pageLoop_layout p fuel incr IDPage length s address b
          length s1 haddr h
        refine ⟨new, g1, g2, ?_⟩
        intro pre r post hp
        obtain ⟨k1, k2, k3, k4, k5⟩ := g3 pre r post hp
        refine ⟨k1, ?_, k3, k4, k2, k5⟩
        intro hle hpos
        have hs : (pre.map (fun q => q.length)).sum + r.length ≤ length := by
          rw [← g2, hp]
          simp only [List.map_append, List.map_cons, List.sum_append, List.sum_cons]
          omega
        rw [k1]
        exact Nat.mod_eq_of_lt (by omega)
  refine ⟨?_, ?_, ?_⟩
  · intro s1 h
    obtain ⟨hc, new, g1, g2, g3⟩ := key buffer true s1 h
    refine ⟨hc, new, g1, g2, ?_⟩
    intro pre r post hp
    obtain ⟨k1, k2, k3, k4, k5, -⟩ := g3 pre r post hp
    rw [if_pos rfl] at k5
    exact ⟨k1, k2, k3, k4, k5⟩
  · intro s1 h
    obtain ⟨hc, new, g1, g2, g3⟩ := key (List.replicate (I2C_BUFFERSIZE p) data) false s1 h
    refine ⟨hc, new, g1, g2, ?_⟩
    intro pre r post hp
    obtain ⟨k1, k2, k3, k4, k5, k6⟩ := g3 pre r post hp
    refine ⟨k1, k2, k3, k4, ?_⟩
    rw [k5, if_neg (by decide), List.take_replicate, Nat.min_eq_left k6]
  · intro hfu hg hin
    obtain ⟨c1, c2⟩ := hin.passes p
    have hpb : ∀ (b : List Nat) (incr : Bool),
        I2C_eeprom._pageBlock p fuel s address b length incr IDPage =
          I2C_eeprom.pageLoop p fuel incr IDPage length s address b length := by
      intro b incr
      unfold I2C_eeprom._pageBlock
      simp only
      rw [if_neg c1, if_neg c2]
    refine ⟨?_, ?_⟩
    · unfold I2C_eeprom.writeBlock
      rw [hpb]
      exact pageLoop_zero p fuel true IDPage hfu length s address buffer length (le_refl _)
        hg (fun _ => hin)
    · unfold I2C_eeprom.setBlock
      simp only
      rw [hpb]
      exact pageLoop_zero p fuel false IDPage hfu length s address _ length (le_refl _)
        hg (fun _ => hin)

/-- Witness for C22: on the sample device of capacity 32768, `writeBlock` of
the bytes 0 .. 99 at address 40 and `setBlock` of 100 bytes 7 there return 0;
the lengths of their calls sum to 100, each call is at 40 plus the lengths of
the calls before it, and it carries that slice of the buffer, or bytes 7. -/
theorem C22_chunks_consecutive_with_their_payload_witness :
    40 < 65536 ∧
    (∃ s1 new, I2C_eeprom.writeBlock .avr 1 (sampleSys 32768 255) 40 (List.range 100) 100
        false = some (0, s1) ∧
      s1.world.writes = (sampleSys 32768 255).world.writes ++ new ∧
      (new.map (fun r => r.length)).sum = 100 ∧
      ∀ pre r post, new = pre ++ r :: post →
        r.memoryAddress = (40 + (pre.map (fun q => q.length)).sum) % 65536 ∧
        r.data = ((List.range 100).drop (pre.map (fun q => q.length)).sum).take r.length) ∧
    (∃ s1 new, I2C_eeprom.setBlock .avr 1 (sampleSys 32768 255) 40 7 100 false = some (0, s1) ∧
      s1.world.writes = (sampleSys 32768 255).world.writes ++ new ∧
      (new.map (fun r => r.length)).sum = 100 ∧
      ∀ pre r post, new = pre ++ r :: post →
        r.memoryAddress = (40 + (pre.map (fun q => q.length)).sum) % 65536 ∧
        r.data = List.replicate r.length 7) := by
  have h := C22_chunks_consecutive_with_their_payload .avr 1 (sampleSys 32768 255) 40
    (List.range 100) 7 100 false (by decide)
  obtain ⟨⟨s1, h1⟩, ⟨s2, h2⟩⟩ := h.2.2 (by decide) (sampleSys_good false)
    (by unfold InBounds; decide)
  obtain ⟨-, n1, a1, a2, a3⟩ := h.1 s1 h1
  obtain ⟨-, n2, b1, b2, b3⟩ := h.2.1 s2 h2
  exact ⟨by decide,
    ⟨s1, n1, h1, a1, a2, fun pre r post hp =>
      ⟨(a3 pre r post hp).1, (a3 pre r post hp).2.2.2.2⟩⟩,
    ⟨s2, n2, h2, b1, b2, fun pre r post hp =>
      ⟨(b3 pre r post hp).1, (b3 pre r post hp).2.2.2.2⟩⟩⟩

